import Mathlib

/-!
# EECS678 scheduler: priority queue and scheduler engine

A shallow embedding of `libpriqueue.c` and `libscheduler.c`.

Conventions of the embedding.

* A C pointer is an `Option`: `none` is `NULL`. A `void *` held by a queue is an
  `Option α`; a `job_t *` is an `Option Nat`, the number being the index of the
  record in the heap of `malloc`ed jobs.
* A C `int` is an `Int`. The differences that the comparators return, whose
  sign decides the order, and the totals that the averages accumulate are
  reduced to 32 bits; counters and time stamps are kept exact.
* A C array is a `List`; every read and write is bounds checked and an access
  outside of the allocation is the fault `Err.outOfBounds`.
* Loops with a counter that visibly advances are structural recursions on the
  number of remaining rounds. Loops whose counter does not advance take fuel and
  end in `Err.outOfFuel` when it runs out.
-/

namespace Sched

/-- Ways in which a call does not return normally. -/
inductive Err where
  | outOfBounds
  | nullDeref
  | outOfFuel
deriving DecidableEq, Repr

/-- Reads slot `i` of a C array. -/
def rd {β : Type} (arr : List β) (i : Int) : Except Err β :=
  if 0 ≤ i then
    match arr[i.toNat]? with
    | some v => .ok v
    | none => .error .outOfBounds
  else .error .outOfBounds

/-- Writes slot `i` of a C array. -/
def wr {β : Type} (arr : List β) (i : Int) (v : β) : Except Err (List β) :=
  if 0 ≤ i ∧ i.toNat < arr.length then .ok (arr.set i.toNat v) else .error .outOfBounds

/-! ## libpriqueue -/

/-- The struct `priqueue_t`. `κ` is the type of the stored function pointer,
`α` the type the `void *` entries point to. -/
structure priqueue_t (κ α : Type) where
  m_size : Int
  m_num_entries : Int
  compare_func : κ
  m_array : List (Option α)
deriving DecidableEq, Repr

section priqueue

variable {κ α : Type}

/-- The function `priqueue_init`: capacity 64, no entries, every slot `NULL`. -/
def priqueue_init (comparer : κ) : priqueue_t κ α :=
  { m_size := 64, m_num_entries := 0, compare_func := comparer,
    m_array := List.replicate 64 none }

/-- The `while` loop of `priqueue_offer` with the loop variable at `x`:
walks down from the back while `compare_func(ptr, m_array[x])` is negative and
yields the final value of `x`, which is `-1` when the front was passed. -/
def offer_scan (cmp : Option α → Option α → Except Err Int) (ptr : Option α)
    (arr : List (Option α)) : Nat → Except Err Int
  | 0 => do
    let e ← rd arr 0
    let c ← cmp ptr e
    if 0 > c then pure (-1) else pure 0
  | x + 1 => do
    let e ← rd arr ((x + 1 : Nat) : Int)
    let c ← cmp ptr e
    if 0 > c then offer_scan cmp ptr arr x else pure ((x + 1 : Nat) : Int)

/-- The relocation loop `for (z = m_num_entries-1; z > x; z--) m_array[z+1] = m_array[z]`
with `k` rounds left, that is with `z = x + k`. -/
def offer_shift (x : Int) : Nat → List (Option α) → Except Err (List (Option α))
  | 0, arr => pure arr
  | k + 1, arr => do
    let z : Int := x + ((k + 1 : Nat) : Int)
    let v ← rd arr z
    let arr1 ← wr arr (z + 1) v
    offer_shift x k arr1

/-- The copy loop `for (y = 0; y < m_num_entries; y++) replacement_array[y] = m_array[y]`
with `k` rounds left and the counter at `y`. -/
def offer_copy (src : List (Option α)) : Nat → Nat → List (Option α) →
    Except Err (List (Option α))
  | 0, _, dst => pure dst
  | k + 1, y, dst => do
    let v ← rd src (y : Int)
    let dst1 ← wr dst (y : Int) v
    offer_copy src k (y + 1) dst1

/-- The loop `while (y < 2*q->m_size) replacement_array[y] = NULL;`. Its body
does not change `y`, so the recursion is on fuel. -/
def offer_fill (bound y : Int) : Nat → List (Option α) → Except Err (List (Option α))
  | 0, _ => .error .outOfFuel
  | fuel + 1, arr =>
    if y < bound then do
      let arr1 ← wr arr y none
      offer_fill bound y fuel arr1
    else pure arr

/-- The function `priqueue_offer`. `call` invokes a stored function pointer on
two entries in the memory of the caller. The result is the queue afterwards and
the returned index. -/
def priqueue_offer (call : κ → Option α → Option α → Except Err Int) (fuel : Nat)
    (q : priqueue_t κ α) (ptr : Option α) : Except Err (priqueue_t κ α × Int) :=
  if 0 = q.m_num_entries then do
    let arr ← wr q.m_array 0 ptr
    pure ({ q with m_array := arr, m_num_entries := 1 }, 0)
  else do
    let x0 : Int := q.m_num_entries - 1
    let x ← if x0 < 0 then .error .outOfBounds
            else offer_scan (call q.compare_func) ptr q.m_array x0.toNat
    let arr1 ← offer_shift x (q.m_num_entries - 1 - x).toNat q.m_array
    let arr2 ← wr arr1 (x + 1) ptr
    let n : Int := q.m_num_entries + 1
    if n = q.m_size then do
      let replacement_array : List (Option α) := List.replicate 2 none
      let r1 ← offer_copy arr2 n.toNat 0 replacement_array
      let r2 ← offer_fill (2 * q.m_size) n fuel r1
      pure ({ q with m_array := r2, m_num_entries := n, m_size := 2 * q.m_size }, x + 1)
    else
      pure ({ q with m_array := arr2, m_num_entries := n }, x + 1)

/-- The function `priqueue_peek`. -/
def priqueue_peek (q : priqueue_t κ α) : Except Err (Option α) :=
  if 0 = q.m_num_entries then pure none
  else if 0 < q.m_size then rd q.m_array 0
  else pure none

/-- The loop of `priqueue_poll`, `m_array[x] = m_array[x+1]` for `x` from `0`,
left early when `x` is the last slot of the allocation; `k` rounds left. -/
def poll_shift (m_size : Int) : Nat → Nat → List (Option α) → Except Err (List (Option α))
  | 0, _, arr => pure arr
  | k + 1, x, arr =>
    if (x : Int) = m_size - 1 then pure arr
    else do
      let v ← rd arr ((x : Int) + 1)
      let arr1 ← wr arr (x : Int) v
      poll_shift m_size k (x + 1) arr1

/-- The function `priqueue_poll`: the queue afterwards and the returned pointer. -/
def priqueue_poll (q : priqueue_t κ α) : Except Err (priqueue_t κ α × Option α) :=
  if 0 = q.m_num_entries then pure (q, none)
  else if 0 < q.m_size then do
    let temp ← rd q.m_array 0
    let arr1 ← poll_shift q.m_size q.m_num_entries.toNat 0 q.m_array
    let arr2 ← wr arr1 (q.m_num_entries - 1) none
    pure ({ q with m_array := arr2, m_num_entries := q.m_num_entries - 1 }, temp)
  else pure (q, none)

/-- The function `priqueue_at`. -/
def priqueue_at (q : priqueue_t κ α) (index : Int) : Except Err (Option α) :=
  if index > q.m_num_entries then pure none
  else rd q.m_array index

/-- The function `priqueue_size`. -/
def priqueue_size (q : priqueue_t κ α) : Int := q.m_num_entries

/-- The occupied slots of a queue, front first. -/
def contents (q : priqueue_t κ α) : List (Option α) :=
  q.m_array.take q.m_num_entries.toNat

/-- A queue in the shape `priqueue_init` sets up and the operations keep: the
entries `l` at the front of an allocation of `m_size` slots, `NULL` behind them,
and at least one slot free. -/
def Holds (q : priqueue_t κ α) (l : List (Option α)) : Prop :=
  q.m_num_entries = (l.length : Int) ∧ (l.length : Int) < q.m_size ∧
    q.m_array = l ++ List.replicate (q.m_size.toNat - l.length) none

end priqueue


/-- The index one past the last entry `e` of `l` with `0 ≤ c j e`, and `0` when
there is none: the trailing entries that `j` precedes strictly are dropped. -/
def landing {β : Type} (c : β → β → Int) (j : β) (l : List β) : Nat :=
  (l.reverse.dropWhile (fun e => decide (c j e < 0))).length

/-- A comparator that describes a total preorder: the signs of `c a b` and
`c b a` are opposite, and `c a b ≤ 0` is transitive. -/
structure IsTotalPreorder {β : Type} (c : β → β → Int) : Prop where
  flip : ∀ a b, c a b < 0 ↔ 0 < c b a
  trans : ∀ a b d, c a b ≤ 0 → c b d ≤ 0 → c a d ≤ 0

/-- Sorted ascending by the comparator: no entry is strictly after a later one. -/
def SortedBy {β : Type} (c : β → β → Int) (l : List β) : Prop :=
  l.Pairwise (fun a b => c a b ≤ 0)

/-- A call of the queue interface. -/
inductive qcall (α : Type) where
  | offer (ptr : Option α)
  | poll
deriving DecidableEq, Repr

/-- Runs a sequence of `priqueue_offer` and `priqueue_poll` calls. -/
def run_calls {κ α : Type} (call : κ → Option α → Option α → Except Err Int) (fuel : Nat) :
    List (qcall α) → priqueue_t κ α → Except Err (priqueue_t κ α)
  | [], q => pure q
  | .offer ptr :: rest, q => do
    let r ← priqueue_offer call fuel q ptr
    run_calls call fuel rest r.1
  | .poll :: rest, q => do
    let r ← priqueue_poll q
    run_calls call fuel rest r.1

/-- A call of a stored comparator that is a function of its two arguments alone. -/
def call_pure {α : Type} (f : Option α → Option α → Int) (a b : Option α) : Except Err Int :=
  .ok (f a b)

/-! ## libscheduler -/

/-- Modelled from the spec: the enum `scheme_t` of `libscheduler.h`, a header
that is not among the sources; its values are the six policies of the spec. -/
inductive scheme_t where
  | FCFS
  | SJF
  | PSJF
  | PRI
  | PPRI
  | RR
deriving DecidableEq, Repr

/-- The struct `job_t`. -/
structure job_t where
  job_id : Int
  core_id : Int
  arrival_time : Int
  completion_time : Int
  length : Int
  priority : Int
  time_running : Int
  time_last_scheduled : Int
  time_first_scheduled : Int
deriving DecidableEq, Repr

/-- The struct `core_t`. -/
structure core_t where
  core_id : Int
  active_job_id : Int
  active_job : Option Nat
deriving DecidableEq, Repr

/-- The values of a comparer function pointer: the four comparison functions
of `libscheduler.c`. -/
inductive comparer_t where
  | FCFS
  | SJF
  | PRI
  | RR
deriving DecidableEq, Repr

/-- The global variables of `libscheduler.c`, and the heap of job records. -/
structure State where
  heap : List job_t
  active_scheme : scheme_t
  core_array : List core_t
  m_num_cores : Int
  queue : priqueue_t comparer_t Nat
  completed_queue : priqueue_t comparer_t Nat
  compare_func : comparer_t
deriving DecidableEq, Repr

/-- Reads the record a `job_t *` points to. -/
def deref (heap : List job_t) (p : Option Nat) : Except Err job_t :=
  match p with
  | none => .error .nullDeref
  | some a =>
    match heap[a]? with
    | some j => .ok j
    | none => .error .outOfBounds

/-- Updates the record a `job_t *` points to: a run of field assignments `p->f = v`. -/
def modify (heap : List job_t) (p : Option Nat) (f : job_t → job_t) :
    Except Err (List job_t) :=
  match p with
  | none => .error .nullDeref
  | some a =>
    match heap[a]? with
    | some j => .ok (heap.set a (f j))
    | none => .error .outOfBounds

/-- The value of a C `int` expression: reduction to 32 bits, two's complement. -/
def wrap32 (v : Int) : Int := (v + 2147483648) % 4294967296 - 2147483648

/-- The function `compare_FCFS`. -/
def compare_FCFS (heap : List job_t) (a b : Option Nat) : Except Err Int := do
  let job_a ← deref heap a
  let job_b ← deref heap b
  pure (wrap32 (job_a.arrival_time - job_b.arrival_time))

/-- The function `compare_SJF`. -/
def compare_SJF (heap : List job_t) (a b : Option Nat) : Except Err Int := do
  let job_a ← deref heap a
  let job_b ← deref heap b
  let a_remainder := wrap32 (job_a.length - job_a.time_running)
  let b_remainder := wrap32 (job_b.length - job_b.time_running)
  if a_remainder = b_remainder then
    pure (wrap32 (job_a.arrival_time - job_b.arrival_time))
  else
    pure (wrap32 (a_remainder - b_remainder))

/-- The function `compare_PRI`. -/
def compare_PRI (heap : List job_t) (a b : Option Nat) : Except Err Int := do
  let job_a ← deref heap a
  let job_b ← deref heap b
  let return_value := wrap32 (job_a.priority - job_b.priority)
  if return_value = 0 then
    pure (wrap32 (job_a.arrival_time - job_b.arrival_time))
  else
    pure return_value

/-- The function `compare_RR`, which does not look at its arguments. -/
def compare_RR (_heap : List job_t) (_a _b : Option Nat) : Except Err Int :=
  pure 0

/-- A call through a comparer function pointer, in the given heap. -/
def call_comparer (heap : List job_t) (f : comparer_t) (a b : Option Nat) : Except Err Int :=
  match f with
  | .FCFS => compare_FCFS heap a b
  | .SJF => compare_SJF heap a b
  | .PRI => compare_PRI heap a b
  | .RR => compare_RR heap a b

/-- The function `scheduler_start_up`. -/
def scheduler_start_up (cores : Int) (scheme : scheme_t) : State :=
  let compare_func : comparer_t :=
    if scheme = .FCFS then .FCFS
    else if scheme = .SJF ∨ scheme = .PSJF then .SJF
    else if scheme = .PRI ∨ scheme = .PPRI then .PRI
    else .RR
  { heap := [],
    active_scheme := scheme,
    core_array := (List.range cores.toNat).map
      (fun x => { core_id := (x : Int), active_job_id := -1, active_job := none }),
    m_num_cores := cores,
    queue := priqueue_init compare_func,
    completed_queue := priqueue_init .FCFS,
    compare_func := compare_func }

/-- The record `scheduler_new_job` fills in right after `malloc`. The fields
`core_id` and `completion_time` are not assigned there; the model puts `0`. -/
def new_job_record (job_number time running_time priority : Int) : job_t :=
  { job_id := job_number, core_id := 0, arrival_time := time, completion_time := 0,
    length := running_time, priority := priority, time_running := 0,
    time_last_scheduled := -1, time_first_scheduled := -1 }

/-- The first loop of `scheduler_new_job`: the first `x` from the counter on
whose core has `active_job_id == -1`; `k` rounds left. -/
def new_job_idle_scan (core_array : List core_t) : Nat → Nat → Except Err (Option Nat)
  | 0, _ => pure none
  | k + 1, x => do
    let core ← rd core_array (x : Int)
    if -1 = core.active_job_id then pure (some x)
    else new_job_idle_scan core_array k (x + 1)

/-- The second loop of `scheduler_new_job`: the first `x` from the counter on
with `0 > compare_func(new_job, core_array[x]->active_job)`; `k` rounds left. -/
def new_job_preempt_scan (heap : List job_t) (compare_func : comparer_t)
    (core_array : List core_t) (new_job : Option Nat) : Nat → Nat → Except Err (Option Nat)
  | 0, _ => pure none
  | k + 1, x => do
    let core ← rd core_array (x : Int)
    let c ← call_comparer heap compare_func new_job core.active_job
    if 0 > c then pure (some x)
    else new_job_preempt_scan heap compare_func core_array new_job k (x + 1)

/-- The function `scheduler_new_job`: the state afterwards and the returned core. -/
def scheduler_new_job (fuel : Nat) (s : State) (job_number time running_time priority : Int) :
    Except Err (State × Int) := do
  let new_job : Option Nat := some s.heap.length
  let heap0 := s.heap ++ [new_job_record job_number time running_time priority]
  let idle ← new_job_idle_scan s.core_array s.m_num_cores.toNat 0
  match idle with
  | some x =>
    let core ← rd s.core_array (x : Int)
    let cores1 ← wr s.core_array (x : Int)
      { core with active_job_id := job_number, active_job := new_job }
    let heap1 ← modify heap0 new_job (fun j =>
      { j with core_id := (x : Int), time_last_scheduled := time, time_first_scheduled := time })
    pure ({ s with heap := heap1, core_array := cores1 }, (x : Int))
  | none =>
    if s.active_scheme = .PPRI ∨ s.active_scheme = .PSJF then do
      let hit ← new_job_preempt_scan heap0 s.compare_func s.core_array new_job
        s.m_num_cores.toNat 0
      match hit with
      | some x =>
        let core ← rd s.core_array (x : Int)
        let temp := core.active_job
        let heap1 ← modify heap0 temp (fun j =>
          { j with time_running := j.time_running + (time - j.time_last_scheduled),
                   core_id := -1 })
        let r ← priqueue_offer (call_comparer heap1) fuel s.queue temp
        let heap2 ← modify heap1 new_job (fun j =>
          { j with core_id := (x : Int), time_last_scheduled := time,
                   time_first_scheduled := time })
        let cores1 ← wr s.core_array (x : Int)
          { core with active_job := new_job, active_job_id := job_number }
        pure ({ s with heap := heap2, core_array := cores1, queue := r.1 }, (x : Int))
      | none =>
        let r ← priqueue_offer (call_comparer heap0) fuel s.queue new_job
        pure ({ s with heap := heap0, queue := r.1 }, -1)
    else do
      let r ← priqueue_offer (call_comparer heap0) fuel s.queue new_job
      pure ({ s with heap := heap0, queue := r.1 }, -1)

/-- The dispatch at the end of `scheduler_job_finished` and
`scheduler_quantum_expired`: `temp->time_first_scheduled = time` when it is `-1`. -/
def stamp_first (heap : List job_t) (temp : Option Nat) (time : Int) :
    Except Err (List job_t) := do
  let t ← deref heap temp
  if -1 = t.time_first_scheduled then
    modify heap temp (fun j => { j with time_first_scheduled := time })
  else pure heap

/-- The function `scheduler_job_finished`: the state afterwards and the returned job. -/
def scheduler_job_finished (fuel : Nat) (s : State) (core_id _job_number time : Int) :
    Except Err (State × Int) := do
  let core ← rd s.core_array core_id
  let finished_job := core.active_job
  let heap1 ← modify s.heap finished_job (fun j =>
    { j with completion_time := time, core_id := -1, time_running := j.length,
             time_last_scheduled := time })
  let rc ← priqueue_offer (call_comparer heap1) fuel s.completed_queue finished_job
  let cores1 ← wr s.core_array core_id { core with active_job := none, active_job_id := -1 }
  let head ← priqueue_peek s.queue
  if head = none then
    pure ({ s with heap := heap1, completed_queue := rc.1, core_array := cores1 }, -1)
  else do
    let rq ← priqueue_poll s.queue
    let temp := rq.2
    let heap2 ← modify heap1 temp (fun j =>
      { j with core_id := core_id, time_last_scheduled := time })
    let heap3 ← stamp_first heap2 temp time
    let t ← deref heap3 temp
    let core1 ← rd cores1 core_id
    let cores2 ← wr cores1 core_id { core1 with active_job_id := t.job_id, active_job := temp }
    pure ({ s with heap := heap3, completed_queue := rc.1, core_array := cores2,
                   queue := rq.1 }, t.job_id)

/-- The function `scheduler_quantum_expired`: the state afterwards and the returned job. -/
def scheduler_quantum_expired (fuel : Nat) (s : State) (core_id time : Int) :
    Except Err (State × Int) := do
  let head ← priqueue_peek s.queue
  let core ← rd s.core_array core_id
  if head = none ∧ -1 = core.active_job_id then pure (s, -1)
  else if head = none ∧ -1 ≠ core.active_job_id then pure (s, core.active_job_id)
  else do
    let old_job := core.active_job
    let cores1 ← wr s.core_array core_id { core with active_job := none, active_job_id := -1 }
    let heap1 ← modify s.heap old_job (fun j =>
      { j with time_running := j.time_running + (time - j.time_last_scheduled),
               time_last_scheduled := time })
    let r1 ← priqueue_offer (call_comparer heap1) fuel s.queue old_job
    let r2 ← priqueue_poll r1.1
    let new_job := r2.2
    let nj ← deref heap1 new_job
    let core1 ← rd cores1 core_id
    let cores2 ← wr cores1 core_id { core1 with active_job := new_job, active_job_id := nj.job_id }
    let heap2 ← modify heap1 new_job (fun j =>
      { j with time_last_scheduled := time, core_id := core_id })
    let heap3 ← stamp_first heap2 new_job time
    let t ← deref heap3 new_job
    pure ({ s with heap := heap3, core_array := cores2, queue := r2.1 }, t.job_id)

/-- The value of a C `float` division of two converted `int`s, before rounding:
the exact quotient, or what IEEE arithmetic yields for a zero divisor. -/
inductive cfloat where
  | exact (v : ℚ)
  | nan
  | inf (negative : Bool)
deriving DecidableEq, Repr

/-- The division `(float)a / (float)b`, before rounding. -/
def float_div (a b : Int) : cfloat :=
  if b = 0 then (if a = 0 then .nan else .inf (decide (a < 0)))
  else .exact ((a : ℚ) / (b : ℚ))

/-- The loop of `scheduler_average_waiting_time`, which is left when
`priqueue_at` yields `NULL`; `k` rounds left, counter `x`. The total is a C
`int`: every subtraction and the addition are reduced to 32 bits. -/
def waiting_loop (s : State) : Nat → Nat → Int → Except Err Int
  | 0, _, total => pure total
  | k + 1, x, total => do
    let temp ← priqueue_at s.completed_queue (x : Int)
    if temp = none then pure total
    else do
      let j ← deref s.heap temp
      waiting_loop s k (x + 1)
        (wrap32 (total + wrap32 (wrap32 (j.completion_time - j.arrival_time) - j.length)))

/-- The function `scheduler_average_waiting_time`. -/
def scheduler_average_waiting_time (s : State) : Except Err cfloat := do
  let total_jobs := s.completed_queue.m_num_entries
  let total_waiting_time ← waiting_loop s total_jobs.toNat 0 0
  pure (float_div total_waiting_time total_jobs)

/-- The loop of `scheduler_average_turnaround_time`, with the total a C `int`. -/
def turnaround_loop (s : State) : Nat → Nat → Int → Except Err Int
  | 0, _, total => pure total
  | k + 1, x, total => do
    let temp ← priqueue_at s.completed_queue (x : Int)
    let j ← deref s.heap temp
    turnaround_loop s k (x + 1) (wrap32 (total + wrap32 (j.completion_time - j.arrival_time)))

/-- The function `scheduler_average_turnaround_time`. -/
def scheduler_average_turnaround_time (s : State) : Except Err cfloat := do
  let total_jobs := s.completed_queue.m_num_entries
  let total_turnaround_time ← turnaround_loop s total_jobs.toNat 0 0
  pure (float_div total_turnaround_time total_jobs)

/-- The loop of `scheduler_average_response_time`, with the total a C `int`. -/
def response_loop (s : State) : Nat → Nat → Int → Except Err Int
  | 0, _, total => pure total
  | k + 1, x, total => do
    let temp ← priqueue_at s.completed_queue (x : Int)
    let j ← deref s.heap temp
    response_loop s k (x + 1)
      (wrap32 (total + wrap32 (j.time_first_scheduled - j.arrival_time)))

/-- The function `scheduler_average_response_time`. -/
def scheduler_average_response_time (s : State) : Except Err cfloat := do
  let total_jobs := s.completed_queue.m_num_entries
  let total_response_time ← response_loop s total_jobs.toNat 0 0
  pure (float_div total_response_time total_jobs)

/-- An event the harness sends to the scheduler. -/
inductive event where
  | new_job (job_number time running_time priority : Int)
  | job_finished (core_id job_number time : Int)
  | quantum_expired (core_id time : Int)
deriving DecidableEq, Repr

/-- Handles one event: the state afterwards and the returned decision. -/
def step (fuel : Nat) (s : State) : event → Except Err (State × Int)
  | .new_job j t r p => scheduler_new_job fuel s j t r p
  | .job_finished c j t => scheduler_job_finished fuel s c j t
  | .quantum_expired c t => scheduler_quantum_expired fuel s c t

/-- Handles a sequence of events, collecting the decisions. -/
def run (fuel : Nat) : List event → State → Except Err (State × List Int)
  | [], s => pure (s, [])
  | e :: rest, s => do
    let r ← step fuel s e
    let rr ← run fuel rest r.1
    pure (rr.1, r.2 :: rr.2)

/-- The events `k` arrivals make: job `i` arrives at time `i`, five units long. -/
def arrivals (k : Nat) : List event :=
  (List.range k).map (fun i => event.new_job (i : Int) (i : Int) 5 0)

/-- The events of a long job at time `0` and `k` longer jobs after it. -/
def long_jobs (k : Nat) : List event :=
  event.new_job 0 0 1000 0 ::
    (List.range k).map (fun i => event.new_job ((i : Int) + 1) ((i : Int) + 1) 2000 0)

/-- The events of `k` jobs that arrive and finish one after the other on core `0`:
job `i` arrives at time `2 * i` and finishes at time `2 * i + 1`. -/
def one_by_one (k : Nat) : List event :=
  (List.range k).flatMap (fun i =>
    [event.new_job (i : Int) (2 * (i : Int)) 1 0,
     event.job_finished 0 (i : Int) (2 * (i : Int) + 1)])

/-- Every entry of `l` points to a record of the heap. -/
def AllValid (heap : List job_t) (l : List (Option Nat)) : Prop :=
  ∀ p ∈ l, ∃ a, p = some a ∧ a < heap.length

/-- The value a call through a comparer yields, `0` standing in for a fault. -/
def cmp_value (heap : List job_t) (f : comparer_t) (a b : Option Nat) : Int :=
  match call_comparer heap f a b with
  | .ok v => v
  | .error _ => 0

/-- The record of a job that `scheduler_new_job` has put on core `x`. -/
def placed (j : job_t) (x time : Int) : job_t :=
  { j with core_id := x, time_last_scheduled := time, time_first_scheduled := time }

/-- The record of a running job that `scheduler_new_job` has preempted. -/
def preempted (j : job_t) (time : Int) : job_t :=
  { j with time_running := j.time_running + (time - j.time_last_scheduled), core_id := -1 }

/-- The record of a job that `scheduler_job_finished` has completed. -/
def finished (j : job_t) (time : Int) : job_t :=
  { j with completion_time := time, core_id := -1, time_running := j.length,
           time_last_scheduled := time }

/-- The record of a waiting job that was dispatched to core `x`: the time of the
first scheduling is set when it was `-1` and kept otherwise. -/
def dispatched (j : job_t) (x time : Int) : job_t :=
  { j with core_id := x, time_last_scheduled := time,
           time_first_scheduled :=
             if j.time_first_scheduled = -1 then time else j.time_first_scheduled }

/-- The record of a running job that `scheduler_quantum_expired` has rotated out. -/
def rotated (j : job_t) (time : Int) : job_t :=
  { j with time_running := j.time_running + (time - j.time_last_scheduled),
           time_last_scheduled := time }

/-! ## Example inputs -/

/-- An example comparator on pointers to integers: by value, `NULL` counting as `0`. -/
def by_value (a b : Option Int) : Int := a.getD 0 - b.getD 0

/-- An example queue: the entries `1` and `3` in an array of 64 slots. -/
def two_entries : priqueue_t (Option Int → Option Int → Int) Int :=
  { m_size := 64, m_num_entries := 2, compare_func := by_value,
    m_array := [some 1, some 3] ++ List.replicate 62 none }

/-- An example state: two cores under FCFS, job `7` on core `0`, core `1` idle,
nothing waiting and nothing completed. -/
def busy_then_idle : State :=
  { heap := [{ job_id := 7, core_id := 0, arrival_time := 0, completion_time := 0, length := 5,
               priority := 0, time_running := 0, time_last_scheduled := 0,
               time_first_scheduled := 0 }],
    active_scheme := .FCFS,
    core_array := [{ core_id := 0, active_job_id := 7, active_job := some 0 },
                   { core_id := 1, active_job_id := -1, active_job := none }],
    m_num_cores := 2,
    queue := priqueue_init .FCFS,
    completed_queue := priqueue_init .FCFS,
    compare_func := .FCFS }

/-- The first completed job of the example state `two_done`. -/
def done_one : job_t :=
  { job_id := 1, core_id := -1, arrival_time := 0, completion_time := 5, length := 5,
    priority := 0, time_running := 5, time_last_scheduled := 5, time_first_scheduled := 0 }

/-- The second completed job of the example state `two_done`. -/
def done_two : job_t :=
  { job_id := 2, core_id := -1, arrival_time := 2, completion_time := 8, length := 3,
    priority := 0, time_running := 3, time_last_scheduled := 8, time_first_scheduled := 5 }

/-- An example state: one core under FCFS after the scenario of the spec, both
jobs completed. -/
def two_done : State :=
  { heap := [done_one, done_two],
    active_scheme := .FCFS,
    core_array := [{ core_id := 0, active_job_id := -1, active_job := none }],
    m_num_cores := 1,
    queue := priqueue_init .FCFS,
    completed_queue :=
      { m_size := 64, m_num_entries := 2, compare_func := .FCFS,
        m_array := [some 0, some 1] ++ List.replicate 62 none },
    compare_func := .FCFS }

/-- An example state: one core with job `1` (arrived at `0`, 50 units long) on
it, nothing waiting, under the given policy. -/
def one_running (scheme : scheme_t) : State :=
  { scheduler_start_up 1 scheme with
    heap := [placed (new_job_record 1 0 50 0) 0 0],
    core_array := [{ core_id := 0, active_job_id := 1, active_job := some 0 }] }

/-- An example state: one core with job `1` on it and job `2` (arrived at `2`,
3 units long) waiting, under the given policy. -/
def one_waiting (scheme : scheme_t) : State :=
  { one_running scheme with
    heap := [placed (new_job_record 1 0 50 0) 0 0, new_job_record 2 2 3 0],
    queue := { (one_running scheme).queue with
      m_num_entries := 1, m_array := [some 1] ++ List.replicate 63 none } }


/-! ## libpriqueue: removal -/

section removal

variable {κ α : Type}

/-- The first loop of `priqueue_remove`, `while (m_array[x] != ptr && x < m_num_entries) x++`,
with the counter at `x` and `k` positions left below `m_num_entries`. The slot
is read before the counter is compared. -/
def remove_find [DecidableEq α] (arr : List (Option α)) (ptr : Option α) :
    Nat → Nat → Except Err Nat
  | 0, x => do
    let _ ← rd arr (x : Int)
    pure x
  | k + 1, x => do
    let e ← rd arr (x : Int)
    if e ≠ ptr then remove_find arr ptr k (x + 1) else pure x

/-- The second loop of `priqueue_remove`,
`while (m_array[x] == ptr && x < m_num_entries) { x++; number_of_instances++; }`,
with `k` positions left below `m_num_entries`. -/
def remove_count [DecidableEq α] (arr : List (Option α)) (ptr : Option α) :
    Nat → Nat → Int → Except Err Int
  | 0, x, number_of_instances => do
    let _ ← rd arr (x : Int)
    pure number_of_instances
  | k + 1, x, number_of_instances => do
    let e ← rd arr (x : Int)
    if e = ptr then remove_count arr ptr k (x + 1) (number_of_instances + 1)
    else pure number_of_instances

/-- The loop `m_array[y] = m_array[y + number_of_instances]` of `priqueue_remove`,
with `k` rounds left and the counter at `y`. -/
def remove_shift (number_of_instances : Int) :
    Nat → Int → List (Option α) → Except Err (List (Option α))
  | 0, _, arr => pure arr
  | k + 1, y, arr => do
    let v ← rd arr (y + number_of_instances)
    let arr1 ← wr arr y v
    remove_shift number_of_instances k (y + 1) arr1

/-- The loop `m_array[y] = NULL` of `priqueue_remove`, with `k` rounds left and
the counter at `y`. -/
def remove_clear : Nat → Int → List (Option α) → Except Err (List (Option α))
  | 0, _, arr => pure arr
  | k + 1, y, arr => do
    let arr1 ← wr arr y none
    remove_clear k (y + 1) arr1

/-- The function `priqueue_remove`: the queue afterwards and the returned count. -/
def priqueue_remove [DecidableEq α] (q : priqueue_t κ α) (ptr : Option α) :
    Except Err (priqueue_t κ α × Int) :=
  if 0 = q.m_size then pure (q, 0)
  else do
    let x ← remove_find q.m_array ptr q.m_num_entries.toNat 0
    if (x : Int) = q.m_num_entries then pure (q, 0)
    else do
      let first_location : Int := (x : Int)
      let number_of_instances ← remove_count q.m_array ptr
        (q.m_num_entries - ((x : Int) + 1)).toNat (x + 1) 1
      let arr1 ← remove_shift number_of_instances
        (q.m_num_entries - number_of_instances - first_location).toNat first_location q.m_array
      let arr2 ← remove_clear number_of_instances.toNat
        (q.m_num_entries - number_of_instances) arr1
      pure ({ q with m_array := arr2,
                     m_num_entries := q.m_num_entries - number_of_instances },
            number_of_instances)

/-- The loop `while (x < q->m_num_entries) q->m_array[x] = q->m_array[x+1];` of
`priqueue_remove_at`. Its body does not change `x`, so the recursion is on
fuel, one unit for each run of the body. -/
def remove_at_shift (m_num_entries x : Int) :
    Nat → List (Option α) → Except Err (List (Option α))
  | 0, arr => if x < m_num_entries then .error .outOfFuel else pure arr
  | fuel + 1, arr =>
    if x < m_num_entries then do
      let v ← rd arr (x + 1)
      let arr1 ← wr arr x v
      remove_at_shift m_num_entries x fuel arr1
    else pure arr

/-- The function `priqueue_remove_at`: the queue afterwards and the returned pointer. -/
def priqueue_remove_at (fuel : Nat) (q : priqueue_t κ α) (index : Int) :
    Except Err (priqueue_t κ α × Option α) :=
  if index > q.m_num_entries then pure (q, none)
  else do
    let removed_value ← rd q.m_array index
    let arr1 ← remove_at_shift q.m_num_entries index fuel q.m_array
    let arr2 ← wr arr1 (q.m_num_entries - 1) none
    pure ({ q with m_array := arr2, m_num_entries := q.m_num_entries - 1 }, removed_value)

end removal

/-- An example comparator that ranks all entries equal. -/
def all_equal (_a _b : Option Int) : Int := 0

/-- An example queue: the pointers `1`, `2`, `1` offered in this order under
the comparator `all_equal`. -/
def one_two_one : priqueue_t (Option Int → Option Int → Int) Int :=
  { m_size := 64, m_num_entries := 3, compare_func := all_equal,
    m_array := [some 1, some 2, some 1] ++ List.replicate 61 none }

/-! ## Round robin -/

/-- The events of quantum expiries on core `0` at the given times. -/
def quanta (ts : List Int) : List event :=
  ts.map (fun t => event.quantum_expired 0 t)

/-- The id of the job a pointer refers to, `-1` for a pointer outside the heap. -/
def job_id_at (heap : List job_t) (a : Nat) : Int :=
  match heap[a]? with
  | some j => j.job_id
  | none => -1

/-! ## The scheduler as a transition system -/

/-- The job pointers in the core slots, `NULL` left out. -/
def busy (s : State) : List (Option Nat) :=
  (s.core_array.map (fun c => c.active_job)).filter (fun p => p.isSome)

/-- The job pointers the scheduler holds: in the core slots, in the waiting
queue and in the completed set. -/
def held (s : State) : List (Option Nat) :=
  busy s ++ contents s.queue ++ contents s.completed_queue

/-- What no event changes: the policy, the comparers, the number of cores and
the sizes of the two arrays. -/
def Frame (s s1 : State) : Prop :=
  s1.active_scheme = s.active_scheme ∧ s1.compare_func = s.compare_func ∧
  s1.m_num_cores = s.m_num_cores ∧
  s1.queue.m_size = s.queue.m_size ∧ s1.queue.compare_func = s.queue.compare_func ∧
  s1.completed_queue.m_size = s.completed_queue.m_size ∧
  s1.completed_queue.compare_func = s.completed_queue.compare_func

/-- The shape of the states the scheduler runs through. -/
structure Inv (s : State) : Prop where
  cores : s.m_num_cores = (s.core_array.length : Int)
  waiting : Holds s.queue (contents s.queue)
  completed : Holds s.completed_queue (contents s.completed_queue)
  waiting_size : s.queue.m_size = 64
  completed_size : s.completed_queue.m_size = 64
  nodup : (held s).Nodup
  valid : AllValid s.heap (held s)
  idle_id : ∀ (i : Nat) (c : core_t), s.core_array[i]? = some c → c.active_job = none →
    c.active_job_id = -1
  busy_id : ∀ (i : Nat) (c : core_t) (a : Nat), s.core_array[i]? = some c →
    c.active_job = some a → ∃ j, s.heap[a]? = some j ∧ c.active_job_id = j.job_id
  no_wait_idle : contents s.queue ≠ [] →
    ∀ (i : Nat) (c : core_t), s.core_array[i]? = some c → c.active_job ≠ none
  present : (∀ j ∈ s.heap, j.job_id ≠ -1) → ∀ a, a < s.heap.length → some a ∈ held s

/-- The moves of the scheduler: what an event does to a state of the shape
`Inv` when the call returns, and the decision it returns. -/
inductive Moves (s : State) : event → State → Int → Prop where
  | place (job_number time running_time priority : Int) (x : Nat) (core : core_t) (s1 : State)
      (hx : s.core_array[x]? = some core) (hidle : core.active_job_id = -1)
      (hlow : ∀ (i : Nat) (c : core_t), i < x → s.core_array[i]? = some c →
        c.active_job_id ≠ -1)
      (hheap : s1.heap = s.heap
        ++ [placed (new_job_record job_number time running_time priority) (x : Int) time])
      (hcores : s1.core_array
        = s.core_array.set x ⟨core.core_id, job_number, some s.heap.length⟩)
      (hq : s1.queue = s.queue) (hc : s1.completed_queue = s.completed_queue)
      (hf : Frame s s1) :
      Moves s (.new_job job_number time running_time priority) s1 (x : Int)
  | preempt (job_number time running_time priority : Int) (x : Nat) (core : core_t)
      (r : Nat) (R : job_t) (v : Int) (k : Nat) (s1 : State)
      (hs : s.active_scheme = .PPRI ∨ s.active_scheme = .PSJF)
      (hbusy : ∀ (i : Nat) (c : core_t), s.core_array[i]? = some c → c.active_job_id ≠ -1)
      (hx : s.core_array[x]? = some core) (hr : core.active_job = some r)
      (hR : s.heap[r]? = some R)
      (hcmp : call_comparer (s.heap ++ [new_job_record job_number time running_time priority])
        s.compare_func (some s.heap.length) (some r) = .ok v) (hneg : v < 0)
      (hlow : ∀ (i : Nat) (c : core_t), i < x → s.core_array[i]? = some c →
        ∃ w, call_comparer (s.heap ++ [new_job_record job_number time running_time priority])
          s.compare_func (some s.heap.length) c.active_job = .ok w ∧ 0 ≤ w)
      (hk : k ≤ (contents s.queue).length)
      (hheap : s1.heap = s.heap.set r (preempted R time)
        ++ [placed (new_job_record job_number time running_time priority) (x : Int) time])
      (hcores : s1.core_array
        = s.core_array.set x ⟨core.core_id, job_number, some s.heap.length⟩)
      (hq : Holds s1.queue
        ((contents s.queue).take k ++ some r :: (contents s.queue).drop k))
      (hc : s1.completed_queue = s.completed_queue) (hf : Frame s s1) :
      Moves s (.new_job job_number time running_time priority) s1 (x : Int)
  | enqueue (job_number time running_time priority : Int) (k : Nat) (s1 : State)
      (hbusy : ∀ (i : Nat) (c : core_t), s.core_array[i]? = some c → c.active_job_id ≠ -1)
      (hnp : ¬ (s.active_scheme = .PPRI ∨ s.active_scheme = .PSJF) ∨
        (∀ (i : Nat) (c : core_t), s.core_array[i]? = some c →
          ∃ w, call_comparer (s.heap ++ [new_job_record job_number time running_time priority])
            s.compare_func (some s.heap.length) c.active_job = .ok w ∧ 0 ≤ w))
      (hk : k ≤ (contents s.queue).length)
      (hland : k = landing
        (cmp_value (s.heap ++ [new_job_record job_number time running_time priority])
          s.queue.compare_func) (some s.heap.length) (contents s.queue))
      (hheap : s1.heap = s.heap ++ [new_job_record job_number time running_time priority])
      (hcores : s1.core_array = s.core_array)
      (hq : Holds s1.queue
        ((contents s.queue).take k ++ some s.heap.length :: (contents s.queue).drop k))
      (hc : s1.completed_queue = s.completed_queue) (hf : Frame s s1) :
      Moves s (.new_job job_number time running_time priority) s1 (-1)
  | finish_idle (x : Nat) (job_number time : Int) (core : core_t) (a : Nat) (J : job_t)
      (k : Nat) (s1 : State)
      (hx : s.core_array[x]? = some core) (ha : core.active_job = some a)
      (hJ : s.heap[a]? = some J) (hw : contents s.queue = [])
      (hk : k ≤ (contents s.completed_queue).length)
      (hheap : s1.heap = s.heap.set a (finished J time))
      (hcores : s1.core_array = s.core_array.set x ⟨core.core_id, -1, none⟩)
      (hq : s1.queue = s.queue)
      (hc : Holds s1.completed_queue ((contents s.completed_queue).take k
        ++ some a :: (contents s.completed_queue).drop k))
      (hf : Frame s s1) :
      Moves s (.job_finished (x : Int) job_number time) s1 (-1)
  | finish_next (x : Nat) (job_number time : Int) (core : core_t) (a : Nat) (J : job_t)
      (h : Nat) (H : job_t) (rest : List (Option Nat)) (k : Nat) (s1 : State)
      (hx : s.core_array[x]? = some core) (ha : core.active_job = some a)
      (hJ : s.heap[a]? = some J) (hw : contents s.queue = some h :: rest)
      (hH : s.heap[h]? = some H)
      (hk : k ≤ (contents s.completed_queue).length)
      (hheap : s1.heap = (s.heap.set a (finished J time)).set h (dispatched H (x : Int) time))
      (hcores : s1.core_array = s.core_array.set x ⟨core.core_id, H.job_id, some h⟩)
      (hq : Holds s1.queue rest)
      (hc : Holds s1.completed_queue ((contents s.completed_queue).take k
        ++ some a :: (contents s.completed_queue).drop k))
      (hf : Frame s s1) :
      Moves s (.job_finished (x : Int) job_number time) s1 H.job_id
  | keep (x : Nat) (time : Int) (core : core_t)
      (hx : s.core_array[x]? = some core) (hw : contents s.queue = []) :
      Moves s (.quantum_expired (x : Int) time) s core.active_job_id
  | rotate_back (x : Nat) (time : Int) (core : core_t) (a : Nat) (J : job_t) (s1 : State)
      (hx : s.core_array[x]? = some core) (ha : core.active_job = some a)
      (hJ : s.heap[a]? = some J) (hw : contents s.queue ≠ [])
      (hheap : s1.heap = s.heap.set a (dispatched (rotated J time) (x : Int) time))
      (hcores : s1.core_array = s.core_array.set x ⟨core.core_id, J.job_id, some a⟩)
      (hq : Holds s1.queue (contents s.queue))
      (hc : s1.completed_queue = s.completed_queue) (hf : Frame s s1) :
      Moves s (.quantum_expired (x : Int) time) s1 J.job_id
  | rotate (x : Nat) (time : Int) (core : core_t) (a : Nat) (J : job_t)
      (h : Nat) (H : job_t) (rest : List (Option Nat)) (k : Nat) (s1 : State)
      (hx : s.core_array[x]? = some core) (ha : core.active_job = some a)
      (hJ : s.heap[a]? = some J) (hw : contents s.queue = some h :: rest)
      (hH : s.heap[h]? = some H) (hk : k ≤ rest.length)
      (hheap : s1.heap = (s.heap.set a (rotated J time)).set h (dispatched H (x : Int) time))
      (hcores : s1.core_array = s.core_array.set x ⟨core.core_id, H.job_id, some h⟩)
      (hq : Holds s1.queue (rest.take k ++ some a :: rest.drop k))
      (hc : s1.completed_queue = s.completed_queue) (hf : Frame s s1) :
      Moves s (.quantum_expired (x : Int) time) s1 H.job_id

/-- What a job record keeps from its arrival: the id and the arrival time. -/
def origin (j : job_t) : Int × Int := (j.job_id, j.arrival_time)

/-- The arrivals among the events: the id and the time of each `scheduler_new_job`
call, in the order of the calls. -/
def arrived : List event → List (Int × Int)
  | [] => []
  | .new_job j t _ _ :: rest => (j, t) :: arrived rest
  | .job_finished _ _ _ :: rest => arrived rest
  | .quantum_expired _ _ :: rest => arrived rest

/-- The job ids of the arrivals among the events. -/
def arrival_ids (evs : List event) : List Int := (arrived evs).map (fun p => p.1)

/-- The arrival times of the arrivals among the events. -/
def arrival_times (evs : List event) : List Int := (arrived evs).map (fun p => p.2)

/-- The id of the job a pointer leads to, `-1` for `NULL`. -/
def id_of (heap : List job_t) (p : Option Nat) : Int :=
  match p with
  | some a => job_id_at heap a
  | none => -1

/-- Events of unique ids and unique arrival times in which job `-1` arrives
first and job `2` second. -/
def minus_one_first : List event :=
  [event.new_job (-1) 0 5 0, event.new_job 2 1 5 0]

/-- Events on two cores: three arrivals, a completion and an expiry. -/
def three_jobs : List event :=
  [event.new_job 1 0 5 0, event.new_job 2 1 5 0, event.new_job 3 2 5 0,
   event.job_finished 0 1 5, event.quantum_expired 1 6]

/-- The arrival time of the job a pointer leads to, `0` for a pointer that
leads to no record. -/
def arrival_at (heap : List job_t) (p : Option Nat) : Int :=
  match p with
  | some a =>
    match heap[a]? with
    | some j => j.arrival_time
    | none => 0
  | none => 0

/-- Arrivals whose ids differ from `-1` and whose times increase strictly and
lie between `0` and `2^31 - 1`. -/
def InTime (l : List (Int × Int)) : Prop :=
  (∀ p ∈ l, p.1 ≠ -1) ∧ (l.map (fun p => p.2)).Pairwise (fun a b => a < b) ∧
    ∀ p ∈ l, 0 ≤ p.2 ∧ p.2 < 2147483648

/-- The order FCFS keeps on one core: the running job arrived before every
waiting job, the waiting queue is in arrival order, and every completed job
arrived before the running and the waiting ones. -/
structure InOrder (s : State) : Prop where
  one_core : s.core_array.length = 1
  scheme : s.active_scheme = .FCFS
  comparer : s.queue.compare_func = .FCFS
  order : ((busy s ++ contents s.queue).map (arrival_at s.heap)).Pairwise (fun a b => a < b)
  done : ∀ c ∈ contents s.completed_queue, ∀ p ∈ busy s ++ contents s.queue,
    arrival_at s.heap c < arrival_at s.heap p

/-- Events on one core with strictly increasing arrival times, the second job
with the id `-1`: jobs `1`, `-1` and `3` arrive, job `1` finishes, job `4`
arrives, and two more completions follow. -/
def overtaking : List event :=
  [event.new_job 1 0 5 0, event.new_job (-1) 1 5 0, event.new_job 3 2 5 0,
   event.job_finished 0 1 5, event.new_job 4 6 5 0, event.job_finished 0 4 11,
   event.job_finished 0 3 16]

/-- The arrivals `(1, 0, 5, 0)` and `(2, 2, 3, 0)`. -/
def two_arrivals : List event :=
  [event.new_job 1 0 5 0, event.new_job 2 2 3 0]

/-! ## Comparers, time stamps and preemption -/

/-- A value that a C `int` of 32 bits holds. -/
def fits32 (v : Int) : Prop := -2147483648 ≤ v ∧ v < 2147483648

/-- The comparer `scheduler_start_up` selects for a policy. -/
def comparer_of (scheme : scheme_t) : comparer_t :=
  match scheme with
  | .FCFS => .FCFS
  | .SJF => .SJF
  | .PSJF => .SJF
  | .PRI => .PRI
  | .PPRI => .PRI
  | .RR => .RR

/-- Two example job records: job `1` (arrived at `0`, 10 long, priority `2`,
3 units run) and job `2` (arrived at `4`, 7 long, priority `2`). -/
def two_records : List job_t :=
  [{ job_id := 1, core_id := 0, arrival_time := 0, completion_time := 0, length := 10,
     priority := 2, time_running := 3, time_last_scheduled := 0, time_first_scheduled := 0 },
   { job_id := 2, core_id := -1, arrival_time := 4, completion_time := 0, length := 7,
     priority := 2, time_running := 0, time_last_scheduled := -1, time_first_scheduled := -1 }]

/-- The time an event carries. -/
def event_time : event → Int
  | .new_job _ t _ _ => t
  | .job_finished _ _ t => t
  | .quantum_expired _ t => t

/-- The second heap keeps every `time_first_scheduled` of the first that is set. -/
def KeepsFirst (l l1 : List job_t) : Prop :=
  ∀ (a : Nat) (j : job_t), l[a]? = some j → j.time_first_scheduled ≠ -1 →
    ∃ j1, l1[a]? = some j1 ∧ j1.time_first_scheduled = j.time_first_scheduled

/-- Every `time_first_scheduled` is `-1` or a time that is not negative, and
the job on each busy core has it set. -/
def Stamped (s : State) : Prop :=
  (∀ j ∈ s.heap, j.time_first_scheduled = -1 ∨ 0 ≤ j.time_first_scheduled) ∧
  ∀ (i : Nat) (c : core_t) (a : Nat), s.core_array[i]? = some c → c.active_job = some a →
    ∃ j, s.heap[a]? = some j ∧ 0 ≤ j.time_first_scheduled

/-- Events on one core under PSJF: job `1` (10 long) arrives at time 0 and job
`2` (3 long) at time 1. -/
def short_after_long : List event :=
  [event.new_job 1 0 10 0, event.new_job 2 1 3 0]

/-- The completion of job `2` on core `0` at time 4. -/
def short_done : List event :=
  [event.job_finished 0 2 4]

/-- One arrival: job `1`, 10 units long, at time 0. -/
def long_running : List event :=
  [event.new_job 1 0 10 0]

/-! ## Examples for the placement on an idle core and for the totals -/

/-- One arrival: job `-1`, 5 units long, at time 0. -/
def minus_one_running : List event :=
  [event.new_job (-1) 0 5 0]

/-- One arrival: job `7`, 5 units long, at time 0. -/
def seven_running : List event :=
  [event.new_job 7 0 5 0]

/-- Events on one core: job `1` (2000000000 long) arrives at time 0 and job `2`
(5 long) at time 5; job `1` finishes at time 2000000000 and job `2` at time
2000000005. -/
def late_completions : List event :=
  [event.new_job 1 0 2000000000 0, event.new_job 2 5 5 0,
   event.job_finished 0 1 2000000000, event.job_finished 0 2 2000000005]

/-! ## Arrays -/

section arrays

variable {κ α β : Type}

theorem rd_at (pre : List β) (a : β) (rest : List β) (i : Int) (h : i = (pre.length : Int)) :
    rd (pre ++ a :: rest) i = .ok a := by
  subst h
  have h1 : (pre ++ a :: rest)[pre.length]? = some a := by
    rw [List.getElem?_append_right (Nat.le_refl _)]; simp
  unfold rd
  rw [if_pos (Int.natCast_nonneg _), Int.toNat_natCast, h1]

theorem wr_at (pre : List β) (a v : β) (rest : List β) (i : Int) (h : i = (pre.length : Int)) :
    wr (pre ++ a :: rest) i v = .ok (pre ++ v :: rest) := by
  subst h
  simp [wr]

theorem rd_eq_ok (arr : List β) (k : Nat) (v : β) (h : arr[k]? = some v) :
    rd arr (k : Int) = .ok v := by
  unfold rd
  rw [if_pos (Int.natCast_nonneg _), Int.toNat_natCast, h]

theorem wr_eq_ok (arr : List β) (k : Nat) (v : β) (h : k < arr.length) :
    wr arr (k : Int) v = .ok (arr.set k v) := by
  unfold wr
  rw [if_pos ⟨Int.natCast_nonneg _, by simpa using h⟩, Int.toNat_natCast]

theorem pad_succ (m n : Nat) (h : n < m) :
    List.replicate (m - n) (none : Option α) = none :: List.replicate (m - (n + 1)) none := by
  have e : m - n = (m - (n + 1)) + 1 := by omega
  rw [e, List.replicate_succ]

end arrays

/-! ## The landing position -/

section landing

variable {β : Type}

theorem landing_nil (c : β → β → Int) (j : β) : landing c j [] = 0 := by
  simp [landing]

theorem landing_snoc (c : β → β → Int) (j : β) (l : List β) (e : β) :
    landing c j (l ++ [e]) = if c j e < 0 then landing c j l else l.length + 1 := by
  unfold landing
  rw [List.reverse_append, List.reverse_singleton, List.singleton_append, List.dropWhile_cons]
  by_cases h : c j e < 0 <;> simp [h]

theorem landing_le (c : β → β → Int) (j : β) (l : List β) : landing c j l ≤ l.length := by
  unfold landing
  have := (List.dropWhile_sublist (fun e => decide (c j e < 0)) (l := l.reverse)).length_le
  simpa using this

theorem landing_back (c : β → β → Int) (j : β) (l : List β) :
    ∀ e ∈ l.drop (landing c j l), c j e < 0 := by
  induction l using List.reverseRecOn with
  | nil => simp
  | append_singleton l a ih =>
    intro e he
    rw [landing_snoc] at he
    by_cases h : c j a < 0
    · rw [if_pos h, List.drop_append_of_le_length (landing_le c j l)] at he
      rcases List.mem_append.mp he with h1 | h1
      · exact ih e h1
      · simp at h1; subst h1; exact h
    · rw [if_neg h] at he
      have : (l ++ [a]).drop (l.length + 1) = [] := by simp
      rw [this] at he; simp at he

theorem landing_front (c : β → β → Int) (j : β) (l : List β) :
    ∀ e, (l.take (landing c j l)).getLast? = some e → 0 ≤ c j e := by
  induction l using List.reverseRecOn with
  | nil => simp [landing_nil]
  | append_singleton l a ih =>
    intro e he
    rw [landing_snoc] at he
    by_cases h : c j a < 0
    · rw [if_pos h, List.take_append_of_le_length (landing_le c j l)] at he
      exact ih e he
    · rw [if_neg h] at he
      have : (l ++ [a]).take (l.length + 1) = l ++ [a] := by
        apply List.take_of_length_le; simp
      rw [this] at he
      simp at he; subst he; omega

theorem landing_of_nonneg (c : β → β → Int) (j : β) (l : List β)
    (h : ∀ e ∈ l, 0 ≤ c j e) : landing c j l = l.length := by
  induction l using List.reverseRecOn with
  | nil => simp [landing_nil]
  | append_singleton l a _ =>
    rw [landing_snoc]
    have : ¬ c j a < 0 := by have := h a (by simp); omega
    simp [this]

/-- Inserting at the landing position keeps a sorted list sorted. -/
theorem sorted_insert (c : β → β → Int) (hc : IsTotalPreorder c) (j : β) (l : List β)
    (hs : SortedBy c l) :
    SortedBy c (l.take (landing c j l) ++ j :: l.drop (landing c j l)) := by
  unfold SortedBy at *
  have hsplit : l.take (landing c j l) ++ l.drop (landing c j l) = l := List.take_append_drop _ _
  have hback := landing_back c j l
  have hfront := landing_front c j l
  rw [← hsplit] at hs
  rw [List.pairwise_append] at hs ⊢
  obtain ⟨h1, h2, h3⟩ := hs
  refine ⟨h1, ?_, ?_⟩
  · rw [List.pairwise_cons]
    exact ⟨fun b hb => le_of_lt (hback b hb), h2⟩
  · intro a ha b hb
    have haj : c a j ≤ 0 := by
      -- the last entry of the front part is not after `j`
      have hne : l.take (landing c j l) ≠ [] := List.ne_nil_of_mem ha
      obtain ⟨e, he⟩ : ∃ e, (l.take (landing c j l)).getLast? = some e := by
        cases hx : (l.take (landing c j l)).getLast? with
        | none => exact absurd (List.getLast?_eq_none_iff.mp hx) hne
        | some e => exact ⟨e, rfl⟩
      have hje : 0 ≤ c j e := hfront e he
      have hej : c e j ≤ 0 := by
        by_contra hcon
        have : c j e < 0 := (hc.flip j e).mpr (by omega)
        omega
      have hae : c a e ≤ 0 := by
        obtain ⟨ini, hini⟩ : ∃ ini, l.take (landing c j l) = ini ++ [e] := by
          have := List.dropLast_append_getLast? e he
          exact ⟨_, this.symm⟩
        rw [hini] at ha h1
        rcases List.mem_append.mp ha with hm | hm
        · rw [List.pairwise_append] at h1
          exact h1.2.2 a hm e (by simp)
        · simp at hm; subst hm
          by_contra hcon
          have : c a a < 0 := (hc.flip a a).mpr (by omega)
          omega
      exact hc.trans a e j hae hej
    rcases List.mem_cons.mp hb with hb | hb
    · subst hb; exact haj
    · exact h3 a ha b hb

end landing

/-! ## The loops of the queue -/

section loops

variable {κ α : Type}

theorem offer_scan_at (cmp : Option α → Option α → Except Err Int)
    (c : Option α → Option α → Int) (ptr : Option α) :
    ∀ (l pad : List (Option α)), l ≠ [] → (∀ e ∈ l, cmp ptr e = .ok (c ptr e)) →
      offer_scan cmp ptr (l ++ pad) (l.length - 1) = .ok ((landing c ptr l : Int) - 1) := by
  intro l
  induction l using List.reverseRecOn with
  | nil => intro pad h; exact absurd rfl h
  | append_singleton l e ih =>
    intro pad _ hc
    have hce : cmp ptr e = .ok (c ptr e) := hc e (by simp)
    have hlen : (l ++ [e]).length - 1 = l.length := by simp
    rw [hlen, landing_snoc]
    have harr : l ++ [e] ++ pad = l ++ e :: pad := by simp
    cases l with
    | nil =>
      simp only [List.length_nil, offer_scan, List.nil_append, List.singleton_append]
      have r0 : rd (e :: pad) 0 = .ok e := rd_at [] e pad 0 (by simp)
      simp only [r0, hce, bind, Except.bind, landing_nil]
      by_cases h : c ptr e < 0
      · have h2 : 0 > c ptr e := h
        simp [h, h2, pure, Except.pure]
      · have h2 : ¬ 0 > c ptr e := h
        simp [h, h2, pure, Except.pure]
    | cons a t =>
      have hl : (a :: t).length = t.length + 1 := by simp
      rw [hl, offer_scan, harr]
      have r0 : rd (a :: t ++ e :: pad) ((t.length + 1 : Nat) : Int) = .ok e :=
        rd_at (a :: t) e pad _ (by simp)
      simp only [r0, hce, bind, Except.bind]
      by_cases h : c ptr e < 0
      · have h2 : 0 > c ptr e := h
        simp only [h, h2, if_true]
        have := ih (e :: pad) (by simp) (fun e1 he1 => hc e1 (by simp [List.mem_append] at he1 ⊢; tauto))
        simpa using this
      · have h2 : ¬ 0 > c ptr e := h
        simp [h, h2, pure, Except.pure]

theorem offer_shift_at (x : Int) (pre : List (Option α)) (hx : x + 1 = (pre.length : Int)) :
    ∀ (mid : List (Option α)) (s : Option α) (post : List (Option α)),
      offer_shift x mid.length (pre ++ mid ++ s :: post)
        = .ok (pre ++ mid.headD s :: mid ++ post) := by
  intro mid
  induction mid using List.reverseRecOn with
  | nil => intro s post; simp [offer_shift, pure, Except.pure]
  | append_singleton mid m ih =>
    intro s post
    have hlen : (mid ++ [m]).length = mid.length + 1 := by simp
    rw [hlen, offer_shift]
    have e1 : pre ++ (mid ++ [m]) ++ s :: post = (pre ++ mid) ++ m :: (s :: post) := by simp
    have r1 : rd (pre ++ (mid ++ [m]) ++ s :: post) (x + ((mid.length + 1 : Nat) : Int))
        = .ok m := by
      rw [e1]; apply rd_at; simp; omega
    have e2 : pre ++ (mid ++ [m]) ++ s :: post = (pre ++ mid ++ [m]) ++ s :: post := by simp
    have w1 : wr (pre ++ (mid ++ [m]) ++ s :: post) (x + ((mid.length + 1 : Nat) : Int) + 1) m
        = .ok ((pre ++ mid ++ [m]) ++ m :: post) := by
      rw [e2]; apply wr_at; simp; omega
    simp only [r1, w1, bind, Except.bind]
    have e3 : pre ++ mid ++ [m] ++ m :: post = pre ++ mid ++ m :: (m :: post) := by simp
    rw [e3, ih m (m :: post)]
    cases mid <;> simp

theorem poll_shift_at (m_size : Int) :
    ∀ (mid pre : List (Option α)) (a : Option α) (post : List (Option α)),
      (pre.length : Int) + (mid.length : Int) ≤ m_size - 1 →
      poll_shift m_size mid.length pre.length (pre ++ a :: mid ++ post)
        = .ok (pre ++ mid ++ mid.getLastD a :: post) := by
  intro mid
  induction mid with
  | nil => intro pre a post _; simp [poll_shift, pure, Except.pure]
  | cons b mid ih =>
    intro pre a post hm
    have hlen : (b :: mid).length = mid.length + 1 := by simp
    rw [hlen, poll_shift]
    have hne : ¬ ((pre.length : Int) = m_size - 1) := by
      simp only [List.length_cons] at hm; push_cast at hm; omega
    rw [if_neg hne]
    have e1 : pre ++ a :: (b :: mid) ++ post = (pre ++ [a]) ++ b :: (mid ++ post) := by simp
    have r1 : rd (pre ++ a :: (b :: mid) ++ post) ((pre.length : Int) + 1) = .ok b := by
      rw [e1]; apply rd_at; simp
    have e2 : pre ++ a :: (b :: mid) ++ post = pre ++ a :: (b :: (mid ++ post)) := by simp
    have w1 : wr (pre ++ a :: (b :: mid) ++ post) (pre.length : Int) b
        = .ok (pre ++ b :: (b :: (mid ++ post))) := by
      rw [e2]; apply wr_at; rfl
    simp only [r1, w1, bind, Except.bind]
    have e3 : pre ++ b :: (b :: (mid ++ post)) = (pre ++ [b]) ++ b :: mid ++ post := by simp
    have hl2 : pre.length + 1 = (pre ++ [b]).length := by simp
    rw [e3, hl2, ih (pre ++ [b]) b post (by simp at hm ⊢; omega)]
    cases mid <;> simp [List.getLastD]

theorem offer_copy_overrun (src : List (Option α)) (k : Nat) (a b : Option α)
    (h : 3 ≤ src.length) :
    offer_copy src (k + 3) 0 [a, b] = .error .outOfBounds := by
  obtain ⟨s0, s1, s2, rest, rfl⟩ : ∃ s0 s1 s2 rest, src = s0 :: s1 :: s2 :: rest := by
    match src, h with
    | s0 :: s1 :: s2 :: rest, _ => exact ⟨s0, s1, s2, rest, rfl⟩
  simp [offer_copy, rd, wr, bind, Except.bind]

/-- The fill loop of the growth step never ends: with the counter below the
bound and inside the buffer, every amount of fuel runs out. -/
theorem offer_fill_diverges (bound y : Int) (hy : y < bound) (h0 : 0 ≤ y) :
    ∀ (fuel : Nat) (arr : List (Option α)), y.toNat < arr.length →
      offer_fill bound y fuel arr = .error .outOfFuel := by
  intro fuel
  induction fuel with
  | zero => intro arr _; rfl
  | succ fuel ih =>
    intro arr harr
    rw [offer_fill, if_pos hy]
    have w1 : wr arr y none = .ok (arr.set y.toNat none) := by
      unfold wr; rw [if_pos ⟨h0, harr⟩]
    simp only [w1, bind, Except.bind]
    exact ih _ (by simpa using harr)

end loops

/-! ## The queue operations on a well-shaped queue -/

section queue

variable {κ α : Type}

theorem holds_init (comparer : κ) : Holds (priqueue_init comparer : priqueue_t κ α) [] := by
  refine ⟨rfl, by simp [priqueue_init], ?_⟩
  simp [priqueue_init]

theorem holds_contents (q : priqueue_t κ α) (l : List (Option α)) (h : Holds q l) :
    contents q = l := by
  obtain ⟨h1, _, h3⟩ := h
  simp [contents, h1, h3]

theorem holds_size (q : priqueue_t κ α) (l : List (Option α)) (h : Holds q l) :
    priqueue_size q = (l.length : Int) := h.1

/-- The step of `priqueue_offer` while the array does not fill up: the pointer
goes to the landing position and the call returns that position. -/
theorem offer_within (call : κ → Option α → Option α → Except Err Int)
    (c : Option α → Option α → Int) (fuel : Nat) (q : priqueue_t κ α)
    (l : List (Option α)) (ptr : Option α) (hq : Holds q l)
    (hcap : (l.length : Int) + 2 ≤ q.m_size)
    (hc : ∀ e ∈ l, call q.compare_func ptr e = .ok (c ptr e)) :
    ∃ q1, priqueue_offer call fuel q ptr = .ok (q1, (landing c ptr l : Int)) ∧
      Holds q1 (l.take (landing c ptr l) ++ ptr :: l.drop (landing c ptr l)) ∧
      q1.m_size = q.m_size ∧ q1.compare_func = q.compare_func := by
  obtain ⟨h1, h2, h3⟩ := hq
  have hlt : l.length + 1 < q.m_size.toNat := by omega
  have hpad := pad_succ (α := α) q.m_size.toNat l.length (by omega)
  have hpad2 := pad_succ (α := α) q.m_size.toNat (l.length + 1) hlt
  by_cases hl : l = []
  · subst hl
    simp only [List.length_nil, Nat.cast_zero] at h1
    simp only [List.nil_append] at h3
    have w0 : wr q.m_array 0 ptr
        = .ok (ptr :: List.replicate (q.m_size.toNat - (0 + 1)) none) := by
      rw [h3, hpad]; exact wr_at [] none ptr _ 0 (by simp)
    refine ⟨{ q with m_array := ptr :: List.replicate (q.m_size.toNat - (0 + 1)) none,
                     m_num_entries := 1 }, ?_, ?_, rfl, rfl⟩
    · unfold priqueue_offer
      rw [if_pos h1.symm]
      simp only [w0, bind, Except.bind, landing_nil]
      rfl
    · refine ⟨by simp [landing_nil], by simp [landing_nil]; omega, ?_⟩
      simp [landing_nil]
  · have hpos : 0 < l.length := List.length_pos.mpr hl
    have hn0 : ¬ (0 = q.m_num_entries) := by omega
    have hx0 : ¬ (q.m_num_entries - 1 < 0) := by omega
    have hx0n : (q.m_num_entries - 1).toNat = l.length - 1 := by omega
    have hp := landing_le c ptr l
    set p := landing c ptr l with hpdef
    have hscan : offer_scan (call q.compare_func) ptr q.m_array (q.m_num_entries - 1).toNat
        = .ok ((p : Int) - 1) := by
      rw [h3, hx0n]; exact offer_scan_at _ c ptr l _ hl hc
    have hrounds : (q.m_num_entries - 1 - ((p : Int) - 1)).toNat = (l.drop p).length := by
      simp only [List.length_drop]; omega
    have harr : q.m_array = l.take p ++ l.drop p
        ++ none :: List.replicate (q.m_size.toNat - (l.length + 1)) none := by
      rw [h3, hpad, List.take_append_drop]
    have hprelen : ((p : Int) - 1) + 1 = ((l.take p).length : Int) := by
      simp only [List.length_take]; omega
    have hshift := offer_shift_at ((p : Int) - 1) (l.take p) hprelen (l.drop p) none
      (List.replicate (q.m_size.toNat - (l.length + 1)) none)
    have hwr : wr (l.take p ++ (l.drop p).headD none :: l.drop p
          ++ List.replicate (q.m_size.toNat - (l.length + 1)) none) ((p : Int) - 1 + 1) ptr
        = .ok (l.take p ++ ptr :: (l.drop p
          ++ List.replicate (q.m_size.toNat - (l.length + 1)) none)) := by
      have e : l.take p ++ (l.drop p).headD none :: l.drop p
          ++ List.replicate (q.m_size.toNat - (l.length + 1)) none
          = l.take p ++ (l.drop p).headD none :: (l.drop p
          ++ List.replicate (q.m_size.toNat - (l.length + 1)) none) := by simp
      rw [e]; exact wr_at _ _ _ _ _ hprelen
    have hgrow : ¬ (q.m_num_entries + 1 = q.m_size) := by omega
    refine ⟨⟨q.m_size, q.m_num_entries + 1, q.compare_func, l.take p ++ ptr :: (l.drop p
          ++ List.replicate (q.m_size.toNat - (l.length + 1)) none)⟩, ?_, ?_, rfl, rfl⟩
    · unfold priqueue_offer
      rw [if_neg hn0]
      simp only [if_neg hx0, hscan, bind, Except.bind, hrounds]
      rw [harr, hshift]
      simp only [hwr, if_neg hgrow, pure, Except.pure]
      have e : (p : Int) - 1 + 1 = (p : Int) := by omega
      rw [e]
    · refine ⟨?_, ?_, ?_⟩
      · simp only [List.length_append, List.length_take, List.length_cons, List.length_drop]
        push_cast; omega
      · simp only [List.length_append, List.length_take, List.length_cons, List.length_drop]
        push_cast; omega
      · have e : (l.take p ++ ptr :: l.drop p).length = l.length + 1 := by
          simp only [List.length_append, List.length_take, List.length_cons, List.length_drop]
          omega
        rw [e]; simp

/-- The step of `priqueue_offer` that fills the last free slot of an array of
at least three slots: the replacement buffer of two slots is overrun. -/
theorem offer_at_capacity (call : κ → Option α → Option α → Except Err Int)
    (c : Option α → Option α → Int) (fuel : Nat) (q : priqueue_t κ α)
    (l : List (Option α)) (ptr : Option α) (hq : Holds q l)
    (hcap : (l.length : Int) + 1 = q.m_size) (h3 : 2 ≤ l.length)
    (hc : ∀ e ∈ l, call q.compare_func ptr e = .ok (c ptr e)) :
    priqueue_offer call fuel q ptr = .error .outOfBounds := by
  obtain ⟨h1, h2, h4⟩ := hq
  have hl : l ≠ [] := by intro h; subst h; simp at h3
  have hpad := pad_succ (α := α) q.m_size.toNat l.length (by omega)
  have hn0 : ¬ (0 = q.m_num_entries) := by omega
  have hx0 : ¬ (q.m_num_entries - 1 < 0) := by omega
  have hx0n : (q.m_num_entries - 1).toNat = l.length - 1 := by omega
  have hp := landing_le c ptr l
  set p := landing c ptr l with hpdef
  have hscan : offer_scan (call q.compare_func) ptr q.m_array (q.m_num_entries - 1).toNat
      = .ok ((p : Int) - 1) := by
    rw [h4, hx0n]; exact offer_scan_at _ c ptr l _ hl hc
  have hrounds : (q.m_num_entries - 1 - ((p : Int) - 1)).toNat = (l.drop p).length := by
    simp only [List.length_drop]; omega
  have harr : q.m_array = l.take p ++ l.drop p
      ++ none :: List.replicate (q.m_size.toNat - (l.length + 1)) none := by
    rw [h4, hpad, List.take_append_drop]
  have hprelen : ((p : Int) - 1) + 1 = ((l.take p).length : Int) := by
    simp only [List.length_take]; omega
  have hshift := offer_shift_at ((p : Int) - 1) (l.take p) hprelen (l.drop p) none
    (List.replicate (q.m_size.toNat - (l.length + 1)) none)
  have hwr : wr (l.take p ++ (l.drop p).headD none :: l.drop p
        ++ List.replicate (q.m_size.toNat - (l.length + 1)) none) ((p : Int) - 1 + 1) ptr
      = .ok (l.take p ++ ptr :: (l.drop p
        ++ List.replicate (q.m_size.toNat - (l.length + 1)) none)) := by
    have e : l.take p ++ (l.drop p).headD none :: l.drop p
        ++ List.replicate (q.m_size.toNat - (l.length + 1)) none
        = l.take p ++ (l.drop p).headD none :: (l.drop p
        ++ List.replicate (q.m_size.toNat - (l.length + 1)) none) := by simp
    rw [e]; exact wr_at _ _ _ _ _ hprelen
  have hgrow : q.m_num_entries + 1 = q.m_size := by omega
  obtain ⟨k, hk⟩ : ∃ k, (q.m_num_entries + 1).toNat = k + 3 := ⟨l.length - 2, by omega⟩
  unfold priqueue_offer
  rw [if_neg hn0]
  simp only [if_neg hx0, hscan, bind, Except.bind, hrounds]
  rw [harr, hshift]
  simp only [hwr, if_pos hgrow, hk]
  have : List.replicate 2 (none : Option α) = [none, none] := rfl
  rw [this, offer_copy_overrun]
  simp only [List.length_append, List.length_take, List.length_cons, List.length_drop]
  omega

theorem peek_holds (q : priqueue_t κ α) (l : List (Option α)) (hq : Holds q l) :
    priqueue_peek q = .ok (l.head?.getD none) := by
  obtain ⟨h1, h2, h3⟩ := hq
  unfold priqueue_peek
  cases l with
  | nil => simp at h1; rw [if_pos h1.symm]; rfl
  | cons a t =>
    have hn0 : ¬ (0 = q.m_num_entries) := by simp at h1; omega
    have hs : 0 < q.m_size := by omega
    rw [if_neg hn0, if_pos hs, h3]
    exact rd_at [] a _ 0 (by simp)

/-- The step of `priqueue_poll` on a queue with entries: the head is returned
and the others move up. -/
theorem poll_holds (q : priqueue_t κ α) (a : Option α) (t : List (Option α))
    (hq : Holds q (a :: t)) :
    ∃ q1, priqueue_poll q = .ok (q1, a) ∧ Holds q1 t ∧
      q1.m_size = q.m_size ∧ q1.compare_func = q.compare_func := by
  obtain ⟨h1, h2, h3⟩ := hq
  simp only [List.length_cons] at h1 h2 h3
  push_cast at h1 h2
  have hn0 : ¬ (0 = q.m_num_entries) := by omega
  have hs : 0 < q.m_size := by omega
  have hpad := pad_succ (α := α) q.m_size.toNat (t.length + 1) (by omega)
  have hr0 : rd q.m_array 0 = .ok a := by rw [h3]; exact rd_at [] a _ 0 (by simp)
  have hn : q.m_num_entries.toNat = (t ++ [none]).length := by simp; omega
  have harr : q.m_array = [] ++ a :: (t ++ [none])
      ++ List.replicate (q.m_size.toNat - (t.length + 1 + 1)) none := by
    rw [h3, hpad]; simp
  have hshift := poll_shift_at q.m_size (t ++ [none]) [] a
    (List.replicate (q.m_size.toNat - (t.length + 1 + 1)) none) (by simp; omega)
  have hw : wr ([] ++ (t ++ [none]) ++ (t ++ [none]).getLastD a
        :: List.replicate (q.m_size.toNat - (t.length + 1 + 1)) none) (q.m_num_entries - 1) none
      = .ok (t ++ none :: none
        :: List.replicate (q.m_size.toNat - (t.length + 1 + 1)) none) := by
    have e : [] ++ (t ++ [none]) ++ (t ++ [none]).getLastD a
        :: List.replicate (q.m_size.toNat - (t.length + 1 + 1)) none
        = t ++ none :: (none :: List.replicate (q.m_size.toNat - (t.length + 1 + 1)) none) := by
      simp [List.getLastD_eq_getLast?]
    rw [e]; exact wr_at _ _ _ _ _ (by omega)
  refine ⟨⟨q.m_size, q.m_num_entries - 1, q.compare_func, t ++ none :: none
        :: List.replicate (q.m_size.toNat - (t.length + 1 + 1)) none⟩, ?_, ?_, rfl, rfl⟩
  · unfold priqueue_poll
    rw [if_neg hn0, if_pos hs]
    simp only [hr0, bind, Except.bind]
    rw [hn, harr]
    have e0 : ([] : List (Option α)).length = 0 := rfl
    rw [← e0, hshift]
    simp only [hw]
    rfl
  · refine ⟨by simp; omega, by simp; omega, ?_⟩
    simp only
    rw [pad_succ (α := α) q.m_size.toNat t.length (by omega), hpad]

theorem poll_empty (q : priqueue_t κ α) (hq : Holds q []) :
    priqueue_poll q = .ok (q, none) := by
  obtain ⟨h1, _, _⟩ := hq
  unfold priqueue_poll
  simp at h1
  rw [if_pos h1.symm]; rfl

theorem at_holds (q : priqueue_t κ α) (l : List (Option α)) (hq : Holds q l) (i : Nat)
    (v : Option α) (hv : l[i]? = some v) : priqueue_at q (i : Int) = .ok v := by
  obtain ⟨h1, h2, h3⟩ := hq
  have hi : i < l.length := (List.getElem?_eq_some_iff.mp hv).1
  unfold priqueue_at
  have hng : ¬ ((i : Int) > q.m_num_entries) := by omega
  rw [if_neg hng, h3]
  apply rd_eq_ok
  rw [List.getElem?_append_left hi, hv]

end queue

/-! ## Sequences of queue calls -/

section calls

variable {α : Type}

theorem run_calls_sorted (c : Option α → Option α → Int) (hc : IsTotalPreorder c) (fuel : Nat) :
    ∀ (calls : List (qcall α)) (q q2 : priqueue_t (Option α → Option α → Int) α)
      (l : List (Option α)), Holds q l → q.m_size = 64 → q.compare_func = c → SortedBy c l →
      run_calls call_pure fuel calls q = .ok q2 →
      ∃ l2, Holds q2 l2 ∧ SortedBy c l2 := by
  intro calls
  induction calls with
  | nil =>
    intro q q2 l hq _ _ hs hrun
    simp only [run_calls, pure, Except.pure, Except.ok.injEq] at hrun
    subst hrun; exact ⟨l, hq, hs⟩
  | cons cl rest ih =>
    intro q q2 l hq h64 hcmp hs hrun
    cases cl with
    | offer ptr =>
      have hlen : (l.length : Int) < 64 := by have := hq.2.1; omega
      have hcall : ∀ e ∈ l, call_pure q.compare_func ptr e = .ok (c ptr e) := by
        intro e _; rw [hcmp]; rfl
      by_cases hcap : l.length ≤ 62
      · obtain ⟨q1, h1, h2, h3, h4⟩ := offer_within call_pure c fuel q l ptr hq (by omega) hcall
        simp only [run_calls, h1, bind, Except.bind] at hrun
        exact ih q1 q2 _ h2 (h3.trans h64) (h4.trans hcmp) (sorted_insert c hc ptr l hs) hrun
      · have h1 := offer_at_capacity call_pure c fuel q l ptr hq (by omega) (by omega) hcall
        simp [run_calls, h1, bind, Except.bind] at hrun
    | poll =>
      cases l with
      | nil =>
        have h1 := poll_empty q hq
        simp only [run_calls, h1, bind, Except.bind] at hrun
        exact ih q q2 [] hq h64 hcmp hs hrun
      | cons a t =>
        obtain ⟨q1, h1, h2, h3, h4⟩ := poll_holds q a t hq
        simp only [run_calls, h1, bind, Except.bind] at hrun
        exact ih q1 q2 t h2 (h3.trans h64) (h4.trans hcmp) (List.Pairwise.of_cons hs) hrun

theorem run_calls_returns (c : Option α → Option α → Int) (fuel : Nat) :
    ∀ (calls : List (qcall α)) (q : priqueue_t (Option α → Option α → Int) α)
      (l : List (Option α)), Holds q l → q.m_size = 64 → q.compare_func = c →
      l.length + calls.length ≤ 63 →
      ∃ q2, run_calls call_pure fuel calls q = .ok q2 := by
  intro calls
  induction calls with
  | nil => intro q l _ _ _ _; exact ⟨q, rfl⟩
  | cons cl rest ih =>
    intro q l hq h64 hcmp hlen
    simp only [List.length_cons] at hlen
    cases cl with
    | offer ptr =>
      have hcall : ∀ e ∈ l, call_pure q.compare_func ptr e = .ok (c ptr e) := by
        intro e _; rw [hcmp]; rfl
      obtain ⟨q1, h1, h2, h3, h4⟩ := offer_within call_pure c fuel q l ptr hq (by omega) hcall
      have hl1 : (l.take (landing c ptr l) ++ ptr :: l.drop (landing c ptr l)).length
          = l.length + 1 := by
        have := landing_le c ptr l
        simp only [List.length_append, List.length_take, List.length_cons, List.length_drop]
        omega
      obtain ⟨q2, h5⟩ := ih q1 _ h2 (h3.trans h64) (h4.trans hcmp) (by rw [hl1]; omega)
      exact ⟨q2, by simp only [run_calls, h1, bind, Except.bind]; exact h5⟩
    | poll =>
      cases l with
      | nil =>
        have h1 := poll_empty q hq
        obtain ⟨q2, h5⟩ := ih q [] hq h64 hcmp (by simp; omega)
        exact ⟨q2, by simp only [run_calls, h1, bind, Except.bind]; exact h5⟩
      | cons a t =>
        obtain ⟨q1, h1, h2, h3, h4⟩ := poll_holds q a t hq
        obtain ⟨q2, h5⟩ := ih q1 t h2 (h3.trans h64) (h4.trans hcmp)
          (by simp only [List.length_cons] at hlen; omega)
        exact ⟨q2, by simp only [run_calls, h1, bind, Except.bind]; exact h5⟩

end calls

/-! ## Claims on the queue -/

/-- C1: with a comparator that is a total preorder, `priqueue_offer` on a sorted
queue of at most 62 entries returns, and leaves the old entries in their order
with the new one put in at one position, one entry more, sorted again. Every
sequence of `priqueue_offer` and `priqueue_poll` calls from the empty queue that
runs to its end leaves the queue sorted, and every sequence of at most 63 calls
does run to its end. -/
theorem C1_offer_keeps_sorted {α : Type} (c : Option α → Option α → Int)
    (hc : IsTotalPreorder c) (fuel : Nat)
    (q : priqueue_t (Option α → Option α → Int) α) (l : List (Option α)) (j : Option α)
    (hq : Holds q l) (h64 : q.m_size = 64) (hcmp : q.compare_func = c)
    (hn : l.length ≤ 62) (hs : SortedBy c l) :
    (∃ q1 p k, priqueue_offer call_pure fuel q j = .ok (q1, p) ∧ k ≤ l.length ∧
        contents q1 = l.take k ++ j :: l.drop k ∧
        Holds q1 (contents q1) ∧
        priqueue_size q1 = priqueue_size q + 1 ∧
        SortedBy c (contents q1)) ∧
    (∀ calls q2, run_calls call_pure fuel calls (priqueue_init c) = .ok q2 →
        SortedBy c (contents q2)) ∧
    (∀ calls : List (qcall α), calls.length ≤ 63 →
        ∃ q2, run_calls call_pure fuel calls (priqueue_init c) = .ok q2) := by
  refine ⟨?_, ?_, ?_⟩
  · have hcall : ∀ e ∈ l, call_pure q.compare_func j e = .ok (c j e) := by
      intro e _; rw [hcmp]; rfl
    obtain ⟨q1, h1, h2, _, _⟩ := offer_within call_pure c fuel q l j hq (by omega) hcall
    have hcont := holds_contents q1 _ h2
    refine ⟨q1, _, landing c j l, h1, landing_le c j l, hcont, by rw [hcont]; exact h2, ?_, ?_⟩
    · rw [holds_size q1 _ h2, holds_size q l hq]
      have := landing_le c j l
      simp only [List.length_append, List.length_take, List.length_cons, List.length_drop]
      push_cast; omega
    · rw [hcont]; exact sorted_insert c hc j l hs
  · intro calls q2 hrun
    obtain ⟨l2, h1, h2⟩ := run_calls_sorted c hc fuel calls (priqueue_init c) q2 []
      (holds_init c) rfl rfl List.Pairwise.nil hrun
    rw [holds_contents q2 l2 h1]; exact h2
  · intro calls hlen
    exact run_calls_returns c fuel calls (priqueue_init c) [] (holds_init c) rfl rfl
      (by simpa using hlen)

/-- C2: on a queue of at most 62 entries `priqueue_offer` returns the index `p`
at which the pointer is stored afterwards, `priqueue_at` yields the pointer
there, and `p` is one past the last entry `e` with `0 ≤ compare(j, e)`: every
entry from `p` on has `compare(j, e) < 0`, the entry before `p` has not, so no
entry that compares equal to `j` is behind it, and with a comparator that is
always `0` the pointer lands at the tail. -/
theorem C2_offer_position {α : Type} (c : Option α → Option α → Int) (fuel : Nat)
    (q : priqueue_t (Option α → Option α → Int) α) (l : List (Option α)) (j : Option α)
    (hq : Holds q l) (h64 : q.m_size = 64) (hcmp : q.compare_func = c)
    (hn : l.length ≤ 62) :
    ∃ q1, ∃ p : Nat, priqueue_offer call_pure fuel q j = .ok (q1, (p : Int)) ∧
      priqueue_at q1 (p : Int) = .ok j ∧
      p ≤ l.length ∧
      contents q1 = l.take p ++ j :: l.drop p ∧
      (∀ e ∈ l.drop p, c j e < 0) ∧
      (∀ e, (l.take p).getLast? = some e → 0 ≤ c j e) ∧
      (∀ e ∈ l.drop p, c j e ≠ 0) ∧
      ((∀ a b, c a b = 0) → p = l.length) := by
  have hcall : ∀ e ∈ l, call_pure q.compare_func j e = .ok (c j e) := by
    intro e _; rw [hcmp]; rfl
  obtain ⟨q1, h1, h2, _, _⟩ := offer_within call_pure c fuel q l j hq (by omega) hcall
  have hp := landing_le c j l
  refine ⟨q1, landing c j l, h1, ?_, hp, holds_contents q1 _ h2, landing_back c j l,
    landing_front c j l, ?_, ?_⟩
  · apply at_holds q1 _ h2
    rw [List.getElem?_append_right (by simp)]
    simp [Nat.min_eq_left hp]
  · intro e he h0
    have := landing_back c j l e he
    omega
  · intro hall
    exact landing_of_nonneg c j l (fun e _ => by rw [hall])

/-! ## The heap of job records -/

section heap

theorem deref_some (heap : List job_t) (a : Nat) (j : job_t) (h : heap[a]? = some j) :
    deref heap (some a) = .ok j := by
  simp [deref, h]

theorem deref_ok_iff (heap : List job_t) (p : Option Nat) (j : job_t) :
    deref heap p = .ok j ↔ ∃ a, p = some a ∧ heap[a]? = some j := by
  constructor
  · intro h
    cases p with
    | none => simp [deref] at h
    | some a =>
      refine ⟨a, rfl, ?_⟩
      cases hx : heap[a]? with
      | none => simp [deref, hx] at h
      | some v => simp only [deref, hx, Except.ok.injEq] at h; rw [h]
  · rintro ⟨a, rfl, h⟩
    exact deref_some heap a j h

theorem modify_some (heap : List job_t) (a : Nat) (j : job_t) (f : job_t → job_t)
    (h : heap[a]? = some j) : modify heap (some a) f = .ok (heap.set a (f j)) := by
  simp [modify, h]

theorem modify_last (heap : List job_t) (j : job_t) (f : job_t → job_t) :
    modify (heap ++ [j]) (some heap.length) f = .ok (heap ++ [f j]) := by
  have h : (heap ++ [j])[heap.length]? = some j := by
    rw [List.getElem?_append_right (Nat.le_refl _)]; simp
  rw [modify_some _ _ _ _ h]
  simp

theorem stamp_first_some (heap : List job_t) (a : Nat) (j : job_t) (time : Int)
    (h : heap[a]? = some j) :
    stamp_first heap (some a) time = .ok (heap.set a
      { j with time_first_scheduled :=
          if j.time_first_scheduled = -1 then time else j.time_first_scheduled }) := by
  unfold stamp_first
  simp only [deref_some heap a j h, bind, Except.bind]
  by_cases h1 : j.time_first_scheduled = -1
  · have h2 : (-1 : Int) = j.time_first_scheduled := h1.symm
    rw [if_pos h2, if_pos h1, modify_some heap a j _ h]
  · have h2 : ¬ ((-1 : Int) = j.time_first_scheduled) := fun h => h1 h.symm
    rw [if_neg h2, if_neg h1]
    have : heap.set a { j with time_first_scheduled := j.time_first_scheduled } = heap := by
      apply List.ext_getElem?
      intro i
      by_cases hi : a = i
      · subst hi; rw [List.getElem?_set_self (List.getElem?_eq_some_iff.mp h).1, h]
      · rw [List.getElem?_set_ne hi]
    rw [this]; rfl

/-- A comparer called on two pointers into the heap returns a value. -/
theorem call_comparer_ok (heap : List job_t) (f : comparer_t) (a b : Nat)
    (ha : a < heap.length) (hb : b < heap.length) :
    ∃ v, call_comparer heap f (some a) (some b) = .ok v := by
  have h1 : heap[a]? = some heap[a] := List.getElem?_eq_getElem ha
  have h2 : heap[b]? = some heap[b] := List.getElem?_eq_getElem hb
  cases f <;>
    simp only [call_comparer, compare_FCFS, compare_SJF, compare_PRI, compare_RR,
      deref_some heap a _ h1, deref_some heap b _ h2, bind, Except.bind, pure, Except.pure]
  · exact ⟨_, rfl⟩
  · split <;> exact ⟨_, rfl⟩
  · split <;> exact ⟨_, rfl⟩
  · exact ⟨_, rfl⟩

end heap

/-! ## The loops of the scheduler -/

section sched_loops

theorem idle_scan_finds (core_array : List core_t) (x : Nat) (core : core_t)
    (hx : core_array[x]? = some core) (hidle : core.active_job_id = -1) :
    ∀ (k x0 : Nat), x0 ≤ x → x < x0 + k →
      (∀ i c, x0 ≤ i → i < x → core_array[i]? = some c → c.active_job_id ≠ -1) →
      new_job_idle_scan core_array k x0 = .ok (some x) := by
  intro k
  induction k with
  | zero => intro x0 h1 h2; omega
  | succ k ih =>
    intro x0 h1 h2 hbusy
    rw [new_job_idle_scan]
    by_cases hxe : x0 = x
    · subst hxe
      simp only [rd_eq_ok _ _ _ hx, bind, Except.bind]
      rw [if_pos hidle.symm]; rfl
    · have hlt : x0 < x := by omega
      have hlen : x0 < core_array.length :=
        lt_trans hlt (List.getElem?_eq_some_iff.mp hx).1
      have hc0 : core_array[x0]? = some core_array[x0] := List.getElem?_eq_getElem hlen
      simp only [rd_eq_ok _ _ _ hc0, bind, Except.bind]
      have hb := hbusy x0 _ (le_refl _) hlt hc0
      rw [if_neg (fun h => hb h.symm)]
      exact ih (x0 + 1) (by omega) (by omega)
        (fun i c hi1 hi2 hc => hbusy i c (by omega) hi2 hc)

theorem idle_scan_none (core_array : List core_t) :
    ∀ (k x0 : Nat), x0 + k ≤ core_array.length →
      (∀ i c, x0 ≤ i → core_array[i]? = some c → c.active_job_id ≠ -1) →
      new_job_idle_scan core_array k x0 = .ok none := by
  intro k
  induction k with
  | zero => intro x0 _ _; rfl
  | succ k ih =>
    intro x0 h1 hbusy
    rw [new_job_idle_scan]
    have hlen : x0 < core_array.length := by omega
    have hc0 : core_array[x0]? = some core_array[x0] := List.getElem?_eq_getElem hlen
    simp only [rd_eq_ok _ _ _ hc0, bind, Except.bind]
    have hb := hbusy x0 _ (le_refl _) hc0
    rw [if_neg (fun h => hb h.symm)]
    exact ih (x0 + 1) (by omega) (fun i c hi1 hc => hbusy i c (by omega) hc)

end sched_loops

/-! ## Claims on the scheduler -/

/-- The placement path of `scheduler_new_job`, core by core: with `x` the core
of lowest index whose `active_job_id` is `-1`, the call under every policy puts
the new job on core `x`: the core refers to the job, the job has `core_id = x`,
both scheduling times equal to `time` and no time run, the call returns `x`, and
the waiting queue, the completed set, the other cores and the other jobs stay
as they were. -/
theorem new_job_idle_slot (fuel : Nat) (s : State)
    (job_number time running_time priority : Int) (x : Nat) (core : core_t)
    (hn : s.m_num_cores = (s.core_array.length : Int))
    (hx : s.core_array[x]? = some core) (hidle : core.active_job_id = -1)
    (hlow : ∀ i c, i < x → s.core_array[i]? = some c → c.active_job_id ≠ -1) :
    ∃ s1 j, scheduler_new_job fuel s job_number time running_time priority = .ok (s1, (x : Int)) ∧
      s1.core_array[x]? = some { core with active_job_id := job_number,
                                           active_job := some s.heap.length } ∧
      deref s1.heap (some s.heap.length) = .ok j ∧
      j.job_id = job_number ∧ j.core_id = (x : Int) ∧ j.arrival_time = time ∧
      j.length = running_time ∧ j.priority = priority ∧
      j.time_first_scheduled = time ∧ j.time_last_scheduled = time ∧ j.time_running = 0 ∧
      s1.queue = s.queue ∧ s1.completed_queue = s.completed_queue ∧
      (∀ i, i ≠ x → s1.core_array[i]? = s.core_array[i]?) ∧
      s1.core_array.length = s.core_array.length ∧
      (∀ a, a < s.heap.length → s1.heap[a]? = s.heap[a]?) ∧
      s1.active_scheme = s.active_scheme ∧ s1.compare_func = s.compare_func ∧
      s1.m_num_cores = s.m_num_cores := by
  have hxlen : x < s.core_array.length := (List.getElem?_eq_some_iff.mp hx).1
  have hscan : new_job_idle_scan s.core_array s.m_num_cores.toNat 0 = .ok (some x) := by
    apply idle_scan_finds s.core_array x core hx hidle _ 0 (Nat.zero_le _)
    · rw [hn]; simp; exact hxlen
    · intro i c _ hi hc; exact hlow i c hi hc
  refine ⟨{ s with heap := s.heap ++ [{ new_job_record job_number time running_time priority with core_id := (x : Int), time_last_scheduled := time, time_first_scheduled := time }], core_array := s.core_array.set x { core with active_job_id := job_number, active_job := some s.heap.length } },
    { new_job_record job_number time running_time priority with core_id := (x : Int), time_last_scheduled := time, time_first_scheduled := time }, ?_, ?_, ?_, ?_⟩
  · unfold scheduler_new_job
    simp only [hscan, bind, Except.bind, rd_eq_ok _ _ _ hx, wr_eq_ok _ _ _ hxlen,
      modify_last, pure, Except.pure]
  · simp [List.getElem?_set_self hxlen]
  · apply deref_some
    simp only
    rw [List.getElem?_append_right (Nat.le_refl _)]; simp
  · refine ⟨rfl, rfl, rfl, rfl, rfl, rfl, rfl, rfl, rfl, rfl, ?_, by simp, ?_, rfl, rfl, rfl⟩
    · intro i hi
      simp only
      rw [List.getElem?_set_ne (fun h => hi h.symm)]
    · intro a ha
      simp only
      rw [List.getElem?_append_left ha]

/-- C9: with an empty waiting queue `scheduler_quantum_expired` changes nothing
and returns the job id recorded for core `c`, which is `-1` for an idle core. -/
theorem C9_quantum_expired_empty_queue (fuel : Nat) (s : State) (c time : Int) (core : core_t)
    (hq : s.queue.m_num_entries = 0) (hc : rd s.core_array c = .ok core) :
    scheduler_quantum_expired fuel s c time = .ok (s, core.active_job_id) := by
  have hpeek : priqueue_peek s.queue = .ok none := by
    unfold priqueue_peek; rw [if_pos hq.symm]; rfl
  unfold scheduler_quantum_expired
  simp only [hpeek, hc, bind, Except.bind, true_and]
  by_cases h : -1 = core.active_job_id
  · rw [if_pos h, ← h]; rfl
  · rw [if_neg h, if_pos h]; rfl

section metrics

theorem wrap32_idem (v : Int) : wrap32 (wrap32 v) = wrap32 v := by
  unfold wrap32; omega

theorem wrap32_fits (v : Int) (h : fits32 v) : wrap32 v = v := by
  unfold fits32 at h; unfold wrap32; omega

/-- The loop of `scheduler_average_waiting_time` over well-placed entries: the
total is the sum of the terms, reduced to 32 bits. -/
theorem waiting_loop_sum (s : State) (l : List (Option Nat)) (hq : Holds s.completed_queue l) :
    ∀ (rest : List (Option Nat)) (jobs : List job_t),
      List.Forall₂ (fun p j => deref s.heap p = .ok j) rest jobs →
      ∀ (pre : List (Option Nat)) (total : Int), l = pre ++ rest → wrap32 total = total →
      waiting_loop s rest.length pre.length total = .ok (wrap32 (total +
        (jobs.map (fun j => j.completion_time - j.arrival_time - j.length)).sum)) := by
  intro rest jobs h
  induction h with
  | nil => intro pre total _ ht; simp [waiting_loop, pure, Except.pure, ht]
  | @cons p j rest jobs hpj _ ih =>
    intro pre total hl _
    have hat : priqueue_at s.completed_queue (pre.length : Int) = .ok p := by
      apply at_holds _ l hq
      rw [hl, List.getElem?_append_right (Nat.le_refl _)]; simp
    obtain ⟨a, rfl, _⟩ := (deref_ok_iff _ _ _).mp hpj
    simp only [List.length_cons, waiting_loop, hat, hpj, bind, Except.bind]
    have hl2 : pre.length + 1 = (pre ++ [some a]).length := by simp
    rw [if_neg (by simp), hl2, ih (pre ++ [some a]) _ (by rw [hl]; simp) (wrap32_idem _)]
    simp only [List.map_cons, List.sum_cons]
    congr 1
    generalize (List.map (fun j => j.completion_time - j.arrival_time - j.length) jobs).sum = S
    unfold wrap32; omega

theorem turnaround_loop_sum (s : State) (l : List (Option Nat))
    (hq : Holds s.completed_queue l) :
    ∀ (rest : List (Option Nat)) (jobs : List job_t),
      List.Forall₂ (fun p j => deref s.heap p = .ok j) rest jobs →
      ∀ (pre : List (Option Nat)) (total : Int), l = pre ++ rest → wrap32 total = total →
      turnaround_loop s rest.length pre.length total = .ok (wrap32 (total +
        (jobs.map (fun j => j.completion_time - j.arrival_time)).sum)) := by
  intro rest jobs h
  induction h with
  | nil => intro pre total _ ht; simp [turnaround_loop, pure, Except.pure, ht]
  | @cons p j rest jobs hpj _ ih =>
    intro pre total hl _
    have hat : priqueue_at s.completed_queue (pre.length : Int) = .ok p := by
      apply at_holds _ l hq
      rw [hl, List.getElem?_append_right (Nat.le_refl _)]; simp
    simp only [List.length_cons, turnaround_loop, hat, hpj, bind, Except.bind]
    have hl2 : pre.length + 1 = (pre ++ [p]).length := by simp
    rw [hl2, ih (pre ++ [p]) _ (by rw [hl]; simp) (wrap32_idem _)]
    simp only [List.map_cons, List.sum_cons]
    congr 1
    generalize (List.map (fun j => j.completion_time - j.arrival_time) jobs).sum = S
    unfold wrap32; omega

theorem response_loop_sum (s : State) (l : List (Option Nat))
    (hq : Holds s.completed_queue l) :
    ∀ (rest : List (Option Nat)) (jobs : List job_t),
      List.Forall₂ (fun p j => deref s.heap p = .ok j) rest jobs →
      ∀ (pre : List (Option Nat)) (total : Int), l = pre ++ rest → wrap32 total = total →
      response_loop s rest.length pre.length total = .ok (wrap32 (total +
        (jobs.map (fun j => j.time_first_scheduled - j.arrival_time)).sum)) := by
  intro rest jobs h
  induction h with
  | nil => intro pre total _ ht; simp [response_loop, pure, Except.pure, ht]
  | @cons p j rest jobs hpj _ ih =>
    intro pre total hl _
    have hat : priqueue_at s.completed_queue (pre.length : Int) = .ok p := by
      apply at_holds _ l hq
      rw [hl, List.getElem?_append_right (Nat.le_refl _)]; simp
    simp only [List.length_cons, response_loop, hat, hpj, bind, Except.bind]
    have hl2 : pre.length + 1 = (pre ++ [p]).length := by simp
    rw [hl2, ih (pre ++ [p]) _ (by rw [hl]; simp) (wrap32_idem _)]
    simp only [List.map_cons, List.sum_cons]
    congr 1
    generalize (List.map (fun j => j.time_first_scheduled - j.arrival_time) jobs).sum = S
    unfold wrap32; omega

theorem float_div_pos (a : Int) (n : Nat) (h : 0 < n) :
    float_div a (n : Int) = .exact ((a : ℚ) / (n : ℚ)) := by
  unfold float_div
  have : ¬ ((n : Int) = 0) := by omega
  rw [if_neg this]; simp

end metrics

/-- C10, with the totals as the C `int`s they are: for a completed set of
`n > 0` jobs, each read once from its slot, the three averages are, as exact
quotients before the rounding to `float`, the sum of
`completion_time - arrival_time - length`, of `completion_time - arrival_time`
and of `time_first_scheduled - arrival_time` over the completed jobs, reduced to
32 bits and divided by `n`. When a sum fits 32 bits the average is that sum
divided by `n`. -/
theorem C10_averages (s : State) (ptrs : List (Option Nat)) (jobs : List job_t)
    (hq : Holds s.completed_queue ptrs) (hne : ptrs ≠ [])
    (hj : List.Forall₂ (fun p j => deref s.heap p = .ok j) ptrs jobs) :
    jobs.length = ptrs.length ∧
    scheduler_average_waiting_time s = .ok (.exact
      (((wrap32 (jobs.map (fun j => j.completion_time - j.arrival_time - j.length)).sum : Int) : ℚ)
        / (jobs.length : ℚ))) ∧
    scheduler_average_turnaround_time s = .ok (.exact
      (((wrap32 (jobs.map (fun j => j.completion_time - j.arrival_time)).sum : Int) : ℚ)
        / (jobs.length : ℚ))) ∧
    scheduler_average_response_time s = .ok (.exact
      (((wrap32 (jobs.map (fun j => j.time_first_scheduled - j.arrival_time)).sum : Int) : ℚ)
        / (jobs.length : ℚ))) ∧
    (fits32 (jobs.map (fun j => j.completion_time - j.arrival_time - j.length)).sum →
      scheduler_average_waiting_time s = .ok (.exact
        ((((jobs.map (fun j => j.completion_time - j.arrival_time - j.length)).sum : Int) : ℚ)
          / (jobs.length : ℚ)))) ∧
    (fits32 (jobs.map (fun j => j.completion_time - j.arrival_time)).sum →
      scheduler_average_turnaround_time s = .ok (.exact
        ((((jobs.map (fun j => j.completion_time - j.arrival_time)).sum : Int) : ℚ)
          / (jobs.length : ℚ)))) ∧
    (fits32 (jobs.map (fun j => j.time_first_scheduled - j.arrival_time)).sum →
      scheduler_average_response_time s = .ok (.exact
        ((((jobs.map (fun j => j.time_first_scheduled - j.arrival_time)).sum : Int) : ℚ)
          / (jobs.length : ℚ)))) := by
  have hlen : jobs.length = ptrs.length := hj.length_eq.symm
  have hpos : 0 < ptrs.length := List.length_pos.mpr hne
  have hn : s.completed_queue.m_num_entries = (ptrs.length : Int) := hq.1
  have h1 := waiting_loop_sum s ptrs hq ptrs jobs hj [] 0 rfl (by decide)
  have h2 := turnaround_loop_sum s ptrs hq ptrs jobs hj [] 0 rfl (by decide)
  have h3 := response_loop_sum s ptrs hq ptrs jobs hj [] 0 rfl (by decide)
  simp only [List.length_nil, zero_add] at h1 h2 h3
  have e1 : scheduler_average_waiting_time s = .ok (.exact
      (((wrap32 (jobs.map (fun j => j.completion_time - j.arrival_time - j.length)).sum : Int)
        : ℚ) / (jobs.length : ℚ))) := by
    unfold scheduler_average_waiting_time
    simp only [hn, Int.toNat_natCast, h1, bind, Except.bind, pure, Except.pure]
    rw [float_div_pos _ _ hpos, hlen]
  have e2 : scheduler_average_turnaround_time s = .ok (.exact
      (((wrap32 (jobs.map (fun j => j.completion_time - j.arrival_time)).sum : Int) : ℚ)
        / (jobs.length : ℚ))) := by
    unfold scheduler_average_turnaround_time
    simp only [hn, Int.toNat_natCast, h2, bind, Except.bind, pure, Except.pure]
    rw [float_div_pos _ _ hpos, hlen]
  have e3 : scheduler_average_response_time s = .ok (.exact
      (((wrap32 (jobs.map (fun j => j.time_first_scheduled - j.arrival_time)).sum : Int) : ℚ)
        / (jobs.length : ℚ))) := by
    unfold scheduler_average_response_time
    simp only [hn, Int.toNat_natCast, h3, bind, Except.bind, pure, Except.pure]
    rw [float_div_pos _ _ hpos, hlen]
  refine ⟨hlen, e1, e2, e3, ?_, ?_, ?_⟩
  · intro hf; rw [e1, wrap32_fits _ hf]
  · intro hf; rw [e2, wrap32_fits _ hf]
  · intro hf; rw [e3, wrap32_fits _ hf]

/-! ## The scheduler calls while the queues do not fill up -/

section within

theorem allValid_mono (heap heap1 : List job_t) (l : List (Option Nat))
    (h : AllValid heap l) (hlen : heap.length ≤ heap1.length) : AllValid heap1 l := by
  intro p hp
  obtain ⟨a, h1, h2⟩ := h p hp
  exact ⟨a, h1, lt_of_lt_of_le h2 hlen⟩

theorem allValid_insert (heap : List job_t) (l : List (Option Nat)) (a k : Nat)
    (h : AllValid heap l) (ha : a < heap.length) :
    AllValid heap (l.take k ++ some a :: l.drop k) := by
  intro p hp
  rcases List.mem_append.mp hp with h1 | h1
  · exact h p (List.mem_of_mem_take h1)
  · rcases List.mem_cons.mp h1 with h2 | h2
    · exact ⟨a, h2, ha⟩
    · exact h p (List.mem_of_mem_drop h2)

theorem call_comparer_value (heap : List job_t) (f : comparer_t) (a b : Nat)
    (ha : a < heap.length) (hb : b < heap.length) :
    call_comparer heap f (some a) (some b) = .ok (cmp_value heap f (some a) (some b)) := by
  obtain ⟨v, hv⟩ := call_comparer_ok heap f a b ha hb
  simp [cmp_value, hv]

/-- The step `priqueue_offer(q, job)` of the scheduler on a queue of valid job
pointers with two free slots or more. -/
theorem offer_heap (heap : List job_t) (fuel : Nat) (q : priqueue_t comparer_t Nat)
    (l : List (Option Nat)) (a : Nat) (hq : Holds q l)
    (hcap : (l.length : Int) + 2 ≤ q.m_size) (hv : AllValid heap l) (ha : a < heap.length) :
    ∃ q1, ∃ k : Nat, priqueue_offer (call_comparer heap) fuel q (some a) = .ok (q1, (k : Int)) ∧
      k = landing (cmp_value heap q.compare_func) (some a) l ∧ k ≤ l.length ∧
      Holds q1 (l.take k ++ some a :: l.drop k) ∧
      q1.m_size = q.m_size ∧ q1.compare_func = q.compare_func := by
  have hc : ∀ e ∈ l, call_comparer heap q.compare_func (some a) e
      = .ok (cmp_value heap q.compare_func (some a) e) := by
    intro e he
    obtain ⟨b, rfl, hb⟩ := hv e he
    exact call_comparer_value heap _ a b ha hb
  obtain ⟨q1, h1, h2, h3, h4⟩ :=
    offer_within (call_comparer heap) (cmp_value heap q.compare_func) fuel q l (some a) hq hcap hc
  exact ⟨q1, _, h1, rfl, landing_le _ _ _, h2, h3, h4⟩

theorem preempt_scan_finds (heap : List job_t) (f : comparer_t) (core_array : List core_t)
    (new_job : Option Nat) (x : Nat) (core : core_t) (v : Int)
    (hx : core_array[x]? = some core)
    (hv : call_comparer heap f new_job core.active_job = .ok v) (hneg : v < 0) :
    ∀ (k x0 : Nat), x0 ≤ x → x < x0 + k →
      (∀ i c, x0 ≤ i → i < x → core_array[i]? = some c →
        ∃ w, call_comparer heap f new_job c.active_job = .ok w ∧ 0 ≤ w) →
      new_job_preempt_scan heap f core_array new_job k x0 = .ok (some x) := by
  intro k
  induction k with
  | zero => intro x0 h1 h2; omega
  | succ k ih =>
    intro x0 h1 h2 hlow
    rw [new_job_preempt_scan]
    by_cases hxe : x0 = x
    · subst hxe
      simp only [rd_eq_ok _ _ _ hx, hv, bind, Except.bind]
      have : 0 > v := hneg
      rw [if_pos this]; rfl
    · have hlt : x0 < x := by omega
      have hlen : x0 < core_array.length :=
        lt_trans hlt (List.getElem?_eq_some_iff.mp hx).1
      have hc0 : core_array[x0]? = some core_array[x0] := List.getElem?_eq_getElem hlen
      obtain ⟨w, hw, hw0⟩ := hlow x0 _ (le_refl _) hlt hc0
      simp only [rd_eq_ok _ _ _ hc0, hw, bind, Except.bind]
      have : ¬ (0 > w) := by omega
      rw [if_neg this]
      exact ih (x0 + 1) (by omega) (by omega)
        (fun i c hi1 hi2 hc => hlow i c (by omega) hi2 hc)

theorem preempt_scan_none (heap : List job_t) (f : comparer_t) (core_array : List core_t)
    (new_job : Option Nat) :
    ∀ (k x0 : Nat), x0 + k ≤ core_array.length →
      (∀ i c, x0 ≤ i → core_array[i]? = some c →
        ∃ w, call_comparer heap f new_job c.active_job = .ok w ∧ 0 ≤ w) →
      new_job_preempt_scan heap f core_array new_job k x0 = .ok none := by
  intro k
  induction k with
  | zero => intro x0 _ _; rfl
  | succ k ih =>
    intro x0 h1 hlow
    rw [new_job_preempt_scan]
    have hlen : x0 < core_array.length := by omega
    have hc0 : core_array[x0]? = some core_array[x0] := List.getElem?_eq_getElem hlen
    obtain ⟨w, hw, hw0⟩ := hlow x0 _ (le_refl _) hc0
    simp only [rd_eq_ok _ _ _ hc0, hw, bind, Except.bind]
    have : ¬ (0 > w) := by omega
    rw [if_neg this]
    exact ih (x0 + 1) (by omega) (fun i c hi1 hc => hlow i c (by omega) hc)

/-- The enqueue path of `scheduler_new_job` while the waiting queue
has two free slots or more: no idle core, and a policy without preemption or no
running job that the new job outranks. The new job, never scheduled, is put
into the waiting queue, the call returns `-1`, and the cores and the other job
records stay as they were. -/
theorem new_job_enqueue_within (fuel : Nat) (s : State)
    (job_number time running_time priority : Int) (l : List (Option Nat))
    (hn : s.m_num_cores = (s.core_array.length : Int))
    (hbusy : ∀ (i : Nat) (c : core_t), s.core_array[i]? = some c → c.active_job_id ≠ -1)
    (hnp : ¬ (s.active_scheme = .PPRI ∨ s.active_scheme = .PSJF) ∨
      (∀ (i : Nat) (c : core_t), s.core_array[i]? = some c →
        ∃ w, call_comparer (s.heap ++ [new_job_record job_number time running_time priority])
          s.compare_func (some s.heap.length) c.active_job = .ok w ∧ 0 ≤ w))
    (hq : Holds s.queue l) (hv : AllValid s.heap l)
    (hcap : (l.length : Int) + 2 ≤ s.queue.m_size) :
    ∃ s1, ∃ k : Nat,
      scheduler_new_job fuel s job_number time running_time priority = .ok (s1, -1) ∧
      s1.heap = s.heap ++ [new_job_record job_number time running_time priority] ∧
      s1.core_array = s.core_array ∧
      k ≤ l.length ∧ Holds s1.queue (l.take k ++ some s.heap.length :: l.drop k) ∧
      s1.completed_queue = s.completed_queue ∧ s1.active_scheme = s.active_scheme ∧
      s1.compare_func = s.compare_func ∧ s1.m_num_cores = s.m_num_cores ∧
      s1.queue.m_size = s.queue.m_size ∧ s1.queue.compare_func = s.queue.compare_func ∧
      s1.completed_queue.m_size = s.completed_queue.m_size ∧
      s1.completed_queue.compare_func = s.completed_queue.compare_func ∧
      k = landing (cmp_value (s.heap ++ [new_job_record job_number time running_time priority])
        s.queue.compare_func) (some s.heap.length) l := by
  have hscan : new_job_idle_scan s.core_array s.m_num_cores.toNat 0 = .ok none := by
    apply idle_scan_none s.core_array _ 0
    · rw [hn]; simp
    · intro i c _ hc; exact hbusy i c hc
  have hv0 : AllValid (s.heap ++ [new_job_record job_number time running_time priority]) l :=
    allValid_mono _ _ _ hv (by simp)
  obtain ⟨q1, k, h1, hk, h2, h3, hsz, hcf⟩ := offer_heap
    (s.heap ++ [new_job_record job_number time running_time priority]) fuel s.queue l
    s.heap.length hq hcap hv0 (by simp)
  refine ⟨{ s with heap := s.heap ++ [new_job_record job_number time running_time priority], queue := q1 }, k, ?_, rfl, rfl, h2, h3, rfl, rfl, rfl, rfl, hsz, hcf, rfl, rfl, hk⟩
  unfold scheduler_new_job
  simp only [hscan, bind, Except.bind]
  by_cases hs : s.active_scheme = .PPRI ∨ s.active_scheme = .PSJF
  · rcases hnp with hnp | hnp
    · exact absurd hs hnp
    · have hp : new_job_preempt_scan
          (s.heap ++ [new_job_record job_number time running_time priority]) s.compare_func
          s.core_array (some s.heap.length) s.m_num_cores.toNat 0 = .ok none := by
        apply preempt_scan_none _ _ _ _ _ 0
        · rw [hn]; simp
        · intro i c _ hc; exact hnp i c hc
      rw [if_pos hs]
      simp only [hp, h1, pure, Except.pure]
  · rw [if_neg hs]
    simp only [h1, pure, Except.pure]

/-- The preemption path of `scheduler_new_job` while the waiting queue
has two free slots or more: under PPRI or PSJF, with no idle core, `x` the core
of lowest index whose running job `R` has `compare_func(new, R) < 0`. The job
`R` gets the time since it was last scheduled added to `time_running`, has
`core_id = -1` and is put into the waiting queue; the new job is on core `x`
with both scheduling times equal to `time`; the call returns `x`; every other
core and every other job record stay as they were. -/
theorem new_job_preempt_within (fuel : Nat) (s : State)
    (job_number time running_time priority : Int) (l : List (Option Nat))
    (x : Nat) (core : core_t) (r : Nat) (R : job_t) (v : Int)
    (hs : s.active_scheme = .PPRI ∨ s.active_scheme = .PSJF)
    (hn : s.m_num_cores = (s.core_array.length : Int))
    (hbusy : ∀ (i : Nat) (c : core_t), s.core_array[i]? = some c → c.active_job_id ≠ -1)
    (hx : s.core_array[x]? = some core) (hr : core.active_job = some r)
    (hR : s.heap[r]? = some R)
    (hcmp : call_comparer (s.heap ++ [new_job_record job_number time running_time priority])
      s.compare_func (some s.heap.length) (some r) = .ok v) (hneg : v < 0)
    (hlow : ∀ (i : Nat) (c : core_t), i < x → s.core_array[i]? = some c →
      ∃ w, call_comparer (s.heap ++ [new_job_record job_number time running_time priority])
        s.compare_func (some s.heap.length) c.active_job = .ok w ∧ 0 ≤ w)
    (hq : Holds s.queue l) (hv : AllValid s.heap l)
    (hcap : (l.length : Int) + 2 ≤ s.queue.m_size) :
    ∃ s1, ∃ k : Nat,
      scheduler_new_job fuel s job_number time running_time priority = .ok (s1, (x : Int)) ∧
      s1.heap = s.heap.set r (preempted R time)
        ++ [placed (new_job_record job_number time running_time priority) (x : Int) time] ∧
      s1.core_array = s.core_array.set x
        { core with active_job := some s.heap.length, active_job_id := job_number } ∧
      k ≤ l.length ∧ Holds s1.queue (l.take k ++ some r :: l.drop k) ∧
      s1.completed_queue = s.completed_queue ∧ s1.active_scheme = s.active_scheme ∧
      s1.compare_func = s.compare_func ∧ s1.m_num_cores = s.m_num_cores ∧
      s1.queue.m_size = s.queue.m_size ∧ s1.queue.compare_func = s.queue.compare_func ∧
      s1.completed_queue.m_size = s.completed_queue.m_size ∧
      s1.completed_queue.compare_func = s.completed_queue.compare_func := by
  have hxlen : x < s.core_array.length := (List.getElem?_eq_some_iff.mp hx).1
  have hrlen : r < s.heap.length := (List.getElem?_eq_some_iff.mp hR).1
  have hscan : new_job_idle_scan s.core_array s.m_num_cores.toNat 0 = .ok none := by
    apply idle_scan_none s.core_array _ 0
    · rw [hn]; simp
    · intro i c _ hc; exact hbusy i c hc
  have hp : new_job_preempt_scan
      (s.heap ++ [new_job_record job_number time running_time priority]) s.compare_func
      s.core_array (some s.heap.length) s.m_num_cores.toNat 0 = .ok (some x) := by
    apply preempt_scan_finds _ _ _ _ x core v hx (by rw [hr]; exact hcmp) hneg _ 0 (Nat.zero_le _)
    · rw [hn]; simp; exact hxlen
    · intro i c _ hi hc; exact hlow i c hi hc
  have hR0 : (s.heap ++ [new_job_record job_number time running_time priority])[r]? = some R := by
    rw [List.getElem?_append_left hrlen, hR]
  have hm1 : modify (s.heap ++ [new_job_record job_number time running_time priority]) (some r)
      (fun j => { j with time_running := j.time_running + (time - j.time_last_scheduled), core_id := -1 })
      = .ok (s.heap.set r (preempted R time)
          ++ [new_job_record job_number time running_time priority]) := by
    rw [modify_some _ _ _ _ hR0, List.set_append_left _ _ hrlen]; rfl
  have hlen1 : (s.heap.set r (preempted R time)).length = s.heap.length := List.length_set _ _ _
  have hv1 : AllValid (s.heap.set r (preempted R time)
      ++ [new_job_record job_number time running_time priority]) l :=
    allValid_mono _ _ _ hv (by simp)
  obtain ⟨q1, k, h1, _, h2, h3, hsz, hcf⟩ := offer_heap _ fuel s.queue l r hq hcap hv1
    (by simp; omega)
  have hm2 : modify (s.heap.set r (preempted R time)
        ++ [new_job_record job_number time running_time priority]) (some s.heap.length)
      (fun j => { j with core_id := (x : Int), time_last_scheduled := time, time_first_scheduled := time })
      = .ok (s.heap.set r (preempted R time)
          ++ [placed (new_job_record job_number time running_time priority) (x : Int) time]) := by
    rw [← hlen1, modify_last]; rfl
  refine ⟨⟨_, s.active_scheme, _, s.m_num_cores, q1, s.completed_queue, s.compare_func⟩, k,
    ?_, rfl, rfl, h2, h3, rfl, rfl, rfl, rfl, hsz, hcf, rfl, rfl⟩
  unfold scheduler_new_job
  simp only [hscan, bind, Except.bind]
  rw [if_pos hs]
  simp only [hp, rd_eq_ok _ _ _ hx, hr, hm1, h1, hm2, wr_eq_ok _ _ _ hxlen, pure, Except.pure]

/-- The call `scheduler_job_finished` while the completed set has two
free slots or more: the job `J` of core `x` gets `completion_time = time`,
`time_running = length` and `core_id = -1` and is put into the completed set.
With an empty waiting queue the core becomes idle and the call returns `-1`;
otherwise the head `H` leaves the waiting queue for the core, with
`core_id = x`, `time_last_scheduled = time` and `time_first_scheduled = time`
when that was `-1`, and the call returns its id. The other cores, the other
waiting jobs and the other records stay as they were. -/
theorem job_finished_within (fuel : Nat) (s : State) (x : Nat) (job_number time : Int)
    (core : core_t) (a : Nat) (J : job_t) (lc lw : List (Option Nat))
    (hx : s.core_array[x]? = some core) (ha : core.active_job = some a)
    (hJ : s.heap[a]? = some J)
    (hcq : Holds s.completed_queue lc) (hcv : AllValid s.heap lc)
    (hcap : (lc.length : Int) + 2 ≤ s.completed_queue.m_size)
    (hwq : Holds s.queue lw) (hna : some a ∉ lw) :
    (lw = [] → ∃ s1, ∃ k : Nat,
      scheduler_job_finished fuel s (x : Int) job_number time = .ok (s1, -1) ∧
      s1.heap = s.heap.set a (finished J time) ∧
      s1.core_array = s.core_array.set x { core with active_job := none, active_job_id := -1 } ∧
      s1.queue = s.queue ∧
      k ≤ lc.length ∧ Holds s1.completed_queue (lc.take k ++ some a :: lc.drop k) ∧
      s1.active_scheme = s.active_scheme ∧ s1.compare_func = s.compare_func ∧
      s1.m_num_cores = s.m_num_cores ∧
      s1.queue.m_size = s.queue.m_size ∧ s1.queue.compare_func = s.queue.compare_func ∧
      s1.completed_queue.m_size = s.completed_queue.m_size ∧
      s1.completed_queue.compare_func = s.completed_queue.compare_func) ∧
    (∀ (h : Nat) (rest : List (Option Nat)) (H : job_t), lw = some h :: rest →
      s.heap[h]? = some H → ∃ s1, ∃ k : Nat,
      scheduler_job_finished fuel s (x : Int) job_number time = .ok (s1, H.job_id) ∧
      s1.heap = (s.heap.set a (finished J time)).set h (dispatched H (x : Int) time) ∧
      s1.core_array = s.core_array.set x
        { core with active_job_id := H.job_id, active_job := some h } ∧
      Holds s1.queue rest ∧
      k ≤ lc.length ∧ Holds s1.completed_queue (lc.take k ++ some a :: lc.drop k) ∧
      s1.active_scheme = s.active_scheme ∧ s1.compare_func = s.compare_func ∧
      s1.m_num_cores = s.m_num_cores ∧
      s1.queue.m_size = s.queue.m_size ∧ s1.queue.compare_func = s.queue.compare_func ∧
      s1.completed_queue.m_size = s.completed_queue.m_size ∧
      s1.completed_queue.compare_func = s.completed_queue.compare_func) := by
  have hxlen : x < s.core_array.length := (List.getElem?_eq_some_iff.mp hx).1
  have halen : a < s.heap.length := (List.getElem?_eq_some_iff.mp hJ).1
  have hm1 : modify s.heap (some a)
      (fun j => { j with completion_time := time, core_id := -1, time_running := j.length, time_last_scheduled := time })
      = .ok (s.heap.set a (finished J time)) := by
    rw [modify_some _ _ _ _ hJ]; rfl
  have hv1 : AllValid (s.heap.set a (finished J time)) lc :=
    allValid_mono _ _ _ hcv (by simp)
  obtain ⟨q1, k, h1, _, h2, h3, hsz, hcf⟩ := offer_heap _ fuel s.completed_queue lc a hcq hcap hv1
    (by simp; exact halen)
  have hpeek := peek_holds s.queue lw hwq
  constructor
  · intro hlw
    subst hlw
    refine ⟨⟨_, s.active_scheme, _, s.m_num_cores, s.queue, q1, s.compare_func⟩, k,
      ?_, rfl, rfl, rfl, h2, h3, rfl, rfl, rfl, rfl, rfl, hsz, hcf⟩
    unfold scheduler_job_finished
    simp only [rd_eq_ok _ _ _ hx, ha, hm1, h1, wr_eq_ok _ _ _ hxlen, hpeek, bind, Except.bind,
      List.head?_nil, Option.getD_none, if_true, pure, Except.pure]
  · intro h rest H hlw hH
    subst hlw
    have hne : h ≠ a := by
      intro e; subst e; exact hna (by simp)
    obtain ⟨q2, hp1, hp2, hsz2, hcf2⟩ := poll_holds s.queue (some h) rest hwq
    have hH1 : (s.heap.set a (finished J time))[h]? = some H := by
      rw [List.getElem?_set_ne (fun e => hne e.symm), hH]
    have hh1 : h < (s.heap.set a (finished J time)).length :=
      (List.getElem?_eq_some_iff.mp hH1).1
    have hm2 := modify_some _ h H
      (fun j => { j with core_id := (x : Int), time_last_scheduled := time }) hH1
    have hst : stamp_first ((s.heap.set a (finished J time)).set h
          { H with core_id := (x : Int), time_last_scheduled := time }) (some h) time
        = .ok ((s.heap.set a (finished J time)).set h (dispatched H (x : Int) time)) := by
      rw [stamp_first_some _ h _ time (List.getElem?_set_self hh1), List.set_set]; rfl
    have hd : deref ((s.heap.set a (finished J time)).set h (dispatched H (x : Int) time))
        (some h) = .ok (dispatched H (x : Int) time) :=
      deref_some _ _ _ (List.getElem?_set_self hh1)
    have hrd1 : rd (s.core_array.set x { core with active_job := none, active_job_id := -1 })
        (x : Int) = .ok { core with active_job := none, active_job_id := -1 } :=
      rd_eq_ok _ _ _ (List.getElem?_set_self hxlen)
    have hwr1 := wr_eq_ok (s.core_array.set x { core with active_job := none, active_job_id := -1 })
      x { core with active_job_id := H.job_id, active_job := some h } (by simpa using hxlen)
    rw [List.set_set] at hwr1
    refine ⟨⟨_, s.active_scheme, _, s.m_num_cores, q2, q1, s.compare_func⟩, k,
      ?_, rfl, rfl, hp2, h2, h3, rfl, rfl, rfl, hsz2, hcf2, hsz, hcf⟩
    unfold scheduler_job_finished
    simp only [rd_eq_ok _ _ _ hx, ha, hm1, h1, wr_eq_ok _ _ _ hxlen, hpeek, bind, Except.bind,
      List.head?_cons, Option.getD_some, hp1, hm2, hst, hd, hrd1, pure, Except.pure]
    rw [if_neg (by simp)]
    simp only [dispatched]
    rw [hwr1]

/-- The rotation of `scheduler_quantum_expired` while the waiting
queue has two free slots or more: under RR, with job `J` on core `x` and `H` at
the head of the waiting queue. The job `J` gets the time since it was last
scheduled added to `time_running` and `time_last_scheduled = time` and goes to
the tail of the waiting queue; `H` leaves the queue for the core, with
`time_last_scheduled = time`, `core_id = x` and `time_first_scheduled = time`
when that was `-1`; the call returns the id of `H`; the other waiting jobs keep
their order. -/
theorem quantum_expired_within (fuel : Nat) (s : State) (x : Nat) (time : Int)
    (core : core_t) (a : Nat) (J : job_t) (h : Nat) (H : job_t) (rest : List (Option Nat))
    (hrr : s.queue.compare_func = .RR)
    (hx : s.core_array[x]? = some core) (ha : core.active_job = some a)
    (hJ : s.heap[a]? = some J)
    (hq : Holds s.queue (some h :: rest)) (hv : AllValid s.heap (some h :: rest))
    (hH : s.heap[h]? = some H) (hna : some a ∉ some h :: rest)
    (hcap : (rest.length : Int) + 3 ≤ s.queue.m_size) :
    ∃ s1, scheduler_quantum_expired fuel s (x : Int) time = .ok (s1, H.job_id) ∧
      s1.heap = (s.heap.set a (rotated J time)).set h (dispatched H (x : Int) time) ∧
      s1.core_array = s.core_array.set x
        { core with active_job := some h, active_job_id := H.job_id } ∧
      Holds s1.queue (rest ++ [some a]) ∧
      s1.completed_queue = s.completed_queue ∧ s1.active_scheme = s.active_scheme ∧
      s1.compare_func = s.compare_func ∧ s1.m_num_cores = s.m_num_cores ∧
      s1.queue.m_size = s.queue.m_size ∧ s1.queue.compare_func = s.queue.compare_func ∧
      s1.completed_queue.m_size = s.completed_queue.m_size ∧
      s1.completed_queue.compare_func = s.completed_queue.compare_func := by
  have hxlen : x < s.core_array.length := (List.getElem?_eq_some_iff.mp hx).1
  have halen : a < s.heap.length := (List.getElem?_eq_some_iff.mp hJ).1
  have hne : h ≠ a := by
    intro e; subst e; exact hna (by simp)
  have hpeek := peek_holds s.queue _ hq
  have hm1 : modify s.heap (some a)
      (fun j => { j with time_running := j.time_running + (time - j.time_last_scheduled), time_last_scheduled := time })
      = .ok (s.heap.set a (rotated J time)) := by
    rw [modify_some _ _ _ _ hJ]; rfl
  have hv1 : AllValid (s.heap.set a (rotated J time)) (some h :: rest) :=
    allValid_mono _ _ _ hv (by simp)
  obtain ⟨q1, k, h1, hk, _, h3, hsz, hcf⟩ := offer_heap _ fuel s.queue (some h :: rest) a hq
    (by simp only [List.length_cons]; push_cast; omega) hv1 (by simp; exact halen)
  have hk2 : k = (some h :: rest).length := by
    rw [hk]
    apply landing_of_nonneg
    intro e _
    simp [cmp_value, hrr, call_comparer, compare_RR, pure, Except.pure]
  rw [hk2] at h3
  have h3b : Holds q1 (some h :: (rest ++ [some a])) := by
    have e : List.take (some h :: rest).length (some h :: rest) ++ some a
        :: List.drop (some h :: rest).length (some h :: rest) = some h :: (rest ++ [some a]) := by
      simp
    rw [e] at h3; exact h3
  obtain ⟨q2, hp1, hp2, hsz2, hcf2⟩ := poll_holds q1 (some h) (rest ++ [some a]) h3b
  have hH1 : (s.heap.set a (rotated J time))[h]? = some H := by
    rw [List.getElem?_set_ne (fun e => hne e.symm), hH]
  have hd1 := deref_some _ _ _ hH1
  have hm2 := modify_some _ h H
    (fun j => { j with time_last_scheduled := time, core_id := (x : Int) }) hH1
  have hh1 : h < (s.heap.set a (rotated J time)).length := (List.getElem?_eq_some_iff.mp hH1).1
  have hst : stamp_first ((s.heap.set a (rotated J time)).set h
        { H with time_last_scheduled := time, core_id := (x : Int) }) (some h) time
      = .ok ((s.heap.set a (rotated J time)).set h (dispatched H (x : Int) time)) := by
    rw [stamp_first_some _ h _ time (List.getElem?_set_self hh1), List.set_set]; rfl
  have hd : deref ((s.heap.set a (rotated J time)).set h (dispatched H (x : Int) time))
      (some h) = .ok (dispatched H (x : Int) time) :=
    deref_some _ _ _ (List.getElem?_set_self hh1)
  have hrd1 : rd (s.core_array.set x { core with active_job := none, active_job_id := -1 })
      (x : Int) = .ok { core with active_job := none, active_job_id := -1 } :=
    rd_eq_ok _ _ _ (List.getElem?_set_self hxlen)
  have hwr1 := wr_eq_ok (s.core_array.set x { core with active_job := none, active_job_id := -1 })
    x { core with active_job := some h, active_job_id := H.job_id } (by simpa using hxlen)
  rw [List.set_set] at hwr1
  refine ⟨⟨_, s.active_scheme, _, s.m_num_cores, q2, s.completed_queue, s.compare_func⟩,
    ?_, rfl, rfl, hp2, rfl, rfl, rfl, rfl, hsz2.trans hsz, hcf2.trans hcf, rfl, rfl⟩
  unfold scheduler_quantum_expired
  simp only [hpeek, rd_eq_ok _ _ _ hx, bind, Except.bind, List.head?_cons, Option.getD_some]
  rw [if_neg (by simp), if_neg (by simp)]
  simp only [ha, wr_eq_ok _ _ _ hxlen, hm1, h1, hp1, hd1, hrd1, hwr1, hm2, hst, hd, bind,
    Except.bind, pure, Except.pure]
  simp only [dispatched]

end within

/-! ## The growth step of the queue, reached through the scheduler -/

set_option maxRecDepth 100000 in
/-- C5: one core under FCFS and 64 arrivals lead to a state with 63 waiting
jobs; the next arrival makes `priqueue_offer` fill the array of 64 slots, and
the call does not return for any amount of fuel: the copy into the replacement
buffer of two slots leaves the buffer. The fill loop that follows does not end
either, whatever the size of the buffer. -/
theorem C5_growth_never_returns : ∀ fuel : Nat,
    (∃ s ds, run fuel (arrivals 64) (scheduler_start_up 1 .FCFS) = .ok (s, ds) ∧
      s.queue.m_num_entries = 63 ∧
      scheduler_new_job fuel s 64 64 5 0 = .error .outOfBounds) ∧
    (∀ buf : List (Option Nat), 64 < buf.length →
      offer_fill 128 64 fuel buf = .error .outOfFuel) :=
  fun fuel => ⟨⟨_, _, rfl, rfl, rfl⟩,
    fun buf h => offer_fill_diverges 128 64 (by decide) (by decide) fuel buf (by simpa using h)⟩

set_option maxRecDepth 100000 in
/-- C3 at capacity: one core under PSJF, a job of length 1000 running and 63
longer jobs waiting. The arrival of a job of length 1 outranks the running job
(`compare_func(new, R) = -999`), the preemption offers the running job to the
full waiting queue, and the call does not return for any amount of fuel. -/
theorem C3_preemption_at_capacity : ∀ fuel : Nat,
    ∃ s ds, run fuel (long_jobs 63) (scheduler_start_up 1 .PSJF) = .ok (s, ds) ∧
      s.active_scheme = .PSJF ∧
      s.core_array = [{ core_id := 0, active_job_id := 0, active_job := some 0 }] ∧
      s.queue.m_num_entries = 63 ∧
      call_comparer (s.heap ++ [new_job_record 64 64 1 0]) s.compare_func
        (some s.heap.length) (some 0) = .ok (-999) ∧
      scheduler_new_job fuel s 64 64 1 0 = .error .outOfBounds :=
  fun _ => ⟨_, _, rfl, rfl, rfl, rfl, rfl, rfl⟩

set_option maxRecDepth 100000 in
/-- C4 at capacity: one core under FCFS, 63 jobs arrived and finished one after
the other, and job 63 running. When it finishes, `scheduler_job_finished` offers
it to the completed set, which fills its array of 64 slots, and the call does
not return for any amount of fuel. -/
theorem C4_completion_at_capacity : ∀ fuel : Nat,
    ∃ s ds, run fuel (one_by_one 63 ++ [event.new_job 63 126 1 0])
        (scheduler_start_up 1 .FCFS) = .ok (s, ds) ∧
      s.core_array = [{ core_id := 0, active_job_id := 63, active_job := some 63 }] ∧
      s.completed_queue.m_num_entries = 63 ∧
      s.queue.m_num_entries = 0 ∧
      scheduler_job_finished fuel s 0 63 127 = .error .outOfBounds :=
  fun _ => ⟨_, _, rfl, rfl, rfl, rfl, rfl⟩

set_option maxRecDepth 100000 in
/-- C7 at capacity: one busy core and 63 waiting jobs, under PPRI with equal
priorities (the new job does not outrank the running one,
`compare_func(new, R) = 64`) and under the non-preemptive SJF. The arrival
offers the new job to the full waiting queue and the call does not return for
any amount of fuel. -/
theorem C7_enqueue_at_capacity : ∀ fuel : Nat,
    (∃ s ds, run fuel (arrivals 64) (scheduler_start_up 1 .PPRI) = .ok (s, ds) ∧
      s.core_array = [{ core_id := 0, active_job_id := 0, active_job := some 0 }] ∧
      s.queue.m_num_entries = 63 ∧
      call_comparer (s.heap ++ [new_job_record 64 64 5 0]) s.compare_func
        (some s.heap.length) (some 0) = .ok 64 ∧
      scheduler_new_job fuel s 64 64 5 0 = .error .outOfBounds) ∧
    (∃ s ds, run fuel (arrivals 64) (scheduler_start_up 1 .SJF) = .ok (s, ds) ∧
      s.core_array = [{ core_id := 0, active_job_id := 0, active_job := some 0 }] ∧
      s.queue.m_num_entries = 63 ∧
      scheduler_new_job fuel s 64 64 5 0 = .error .outOfBounds) :=
  fun _ => ⟨⟨_, _, rfl, rfl, rfl, rfl, rfl⟩, ⟨_, _, rfl, rfl, rfl, rfl⟩⟩

set_option maxRecDepth 100000 in
/-- C8 at capacity: one core under RR, job 0 running and 63 jobs waiting. The
expiry of the quantum offers the running job to the full waiting queue and the
call does not return for any amount of fuel. -/
theorem C8_rotation_at_capacity : ∀ fuel : Nat,
    ∃ s ds, run fuel (arrivals 64) (scheduler_start_up 1 .RR) = .ok (s, ds) ∧
      s.active_scheme = .RR ∧
      s.core_array = [{ core_id := 0, active_job_id := 0, active_job := some 0 }] ∧
      s.queue.m_num_entries = 63 ∧
      scheduler_quantum_expired fuel s 0 64 = .error .outOfBounds :=
  fun _ => ⟨_, _, rfl, rfl, rfl, rfl, rfl⟩

/-! ## The claims at example inputs -/

theorem by_value_preorder : IsTotalPreorder by_value := by
  constructor
  · intro a b; unfold by_value; omega
  · intro a b d; unfold by_value; omega

theorem two_entries_holds : Holds two_entries [some 1, some 3] :=
  ⟨rfl, by decide, rfl⟩

theorem two_entries_sorted : SortedBy by_value [some 1, some 3] := by
  unfold SortedBy; decide

theorem C1_offer_keeps_sorted_witness :
    IsTotalPreorder by_value ∧ Holds two_entries [some 1, some 3] ∧
    SortedBy by_value [some 1, some 3] ∧
    ∃ q1 p k, priqueue_offer call_pure 0 two_entries (some 2) = .ok (q1, p) ∧
      k ≤ [some (1 : Int), some 3].length ∧
      contents q1 = [some (1 : Int), some 3].take k ++ some 2 :: [some (1 : Int), some 3].drop k ∧
      Holds q1 (contents q1) ∧
      priqueue_size q1 = priqueue_size two_entries + 1 ∧
      SortedBy by_value (contents q1) :=
  ⟨by_value_preorder, two_entries_holds, two_entries_sorted,
    (C1_offer_keeps_sorted by_value by_value_preorder 0 two_entries [some 1, some 3] (some 2)
      two_entries_holds rfl rfl (by decide) two_entries_sorted).1⟩

theorem C2_offer_position_witness :
    Holds two_entries [some 1, some 3] ∧
    ∃ q1, ∃ p : Nat, priqueue_offer call_pure 0 two_entries (some 1) = .ok (q1, (p : Int)) ∧
      priqueue_at q1 (p : Int) = .ok (some 1) ∧
      p ≤ [some (1 : Int), some 3].length ∧
      contents q1 = [some (1 : Int), some 3].take p ++ some 1 :: [some (1 : Int), some 3].drop p ∧
      (∀ e ∈ [some (1 : Int), some 3].drop p, by_value (some 1) e < 0) ∧
      (∀ e, ([some (1 : Int), some 3].take p).getLast? = some e → 0 ≤ by_value (some 1) e) ∧
      (∀ e ∈ [some (1 : Int), some 3].drop p, by_value (some 1) e ≠ 0) ∧
      ((∀ a b, by_value a b = 0) → p = [some (1 : Int), some 3].length) :=
  ⟨two_entries_holds,
    C2_offer_position by_value 0 two_entries [some 1, some 3] (some 1)
      two_entries_holds rfl rfl (by decide)⟩

theorem C9_quantum_expired_empty_queue_witness :
    busy_then_idle.queue.m_num_entries = 0 ∧
    scheduler_quantum_expired 0 busy_then_idle 0 4 = .ok (busy_then_idle, 7) ∧
    scheduler_quantum_expired 0 busy_then_idle 1 4 = .ok (busy_then_idle, -1) :=
  ⟨rfl,
    C9_quantum_expired_empty_queue 0 busy_then_idle 0 4
      { core_id := 0, active_job_id := 7, active_job := some 0 } rfl rfl,
    C9_quantum_expired_empty_queue 0 busy_then_idle 1 4
      { core_id := 1, active_job_id := -1, active_job := none } rfl rfl⟩

theorem two_done_holds : Holds two_done.completed_queue [some 0, some 1] :=
  ⟨rfl, by decide, rfl⟩

theorem C10_averages_witness :
    Holds two_done.completed_queue [some 0, some 1] ∧
    scheduler_average_waiting_time two_done = .ok (.exact (3 / 2)) ∧
    scheduler_average_turnaround_time two_done = .ok (.exact (11 / 2)) ∧
    scheduler_average_response_time two_done = .ok (.exact (3 / 2)) := by
  have h := C10_averages two_done [some 0, some 1] [done_one, done_two] two_done_holds
    (by decide) (List.Forall₂.cons rfl (List.Forall₂.cons rfl List.Forall₂.nil))
  refine ⟨two_done_holds, ?_, ?_, ?_⟩
  · rw [h.2.2.2.2.1 (by unfold fits32; decide)]; simp [done_one, done_two]
  · rw [h.2.2.2.2.2.1 (by unfold fits32; decide)]; simp [done_one, done_two]
  · rw [h.2.2.2.2.2.2 (by unfold fits32; decide)]; simp [done_one, done_two]

theorem one_core_busy (scheme : scheme_t) (i : Nat) (c : core_t)
    (h : (one_running scheme).core_array[i]? = some c) : c.active_job_id ≠ -1 := by
  cases i with
  | zero =>
    simp only [one_running, List.getElem?_cons_zero, Option.some.injEq] at h
    subst h; decide
  | succ n => simp [one_running] at h

theorem allValid_nil (heap : List job_t) : AllValid heap [] := by
  intro p hp; cases hp

theorem one_waiting_holds (scheme : scheme_t) : Holds (one_waiting scheme).queue [some 1] :=
  ⟨rfl, by simp [one_waiting, one_running, scheduler_start_up, priqueue_init], rfl⟩

theorem one_waiting_valid (scheme : scheme_t) : AllValid (one_waiting scheme).heap [some 1] := by
  intro p hp
  simp only [List.mem_singleton] at hp
  exact ⟨1, hp, by simp [one_waiting]⟩

/-- The preemption path at an example: under PSJF a job of length 3 arrives
while a job of length 50 runs on the only core. -/
theorem new_job_preempt_within_witness :
    ∃ s1, scheduler_new_job 0 (one_running .PSJF) 2 2 3 0 = .ok (s1, 0) ∧
      s1.heap = [preempted (placed (new_job_record 1 0 50 0) 0 0) 2,
                 placed (new_job_record 2 2 3 0) 0 2] ∧
      Holds s1.queue [some 0] := by
  obtain ⟨s1, k, h1, h2, _, h3, h4, _⟩ := new_job_preempt_within 0 (one_running .PSJF) 2 2 3 0 []
    0 { core_id := 0, active_job_id := 1, active_job := some 0 } 0
    (placed (new_job_record 1 0 50 0) 0 0) (-47) (Or.inr rfl) rfl (one_core_busy .PSJF)
    rfl rfl rfl (by rfl) (by decide) (fun i c hi _ => absurd hi (Nat.not_lt_zero i))
    (holds_init _) (allValid_nil _) (by decide)
  have hk : k = 0 := Nat.le_zero.mp h3
  subst hk
  exact ⟨s1, h1, h2, h4⟩

/-- The enqueue path at an example: under PSJF a job of length 80 arrives while
a job of length 50 runs on the only core. -/
theorem new_job_enqueue_within_witness :
    ∃ s1, scheduler_new_job 0 (one_running .PSJF) 2 2 80 0 = .ok (s1, -1) ∧
      s1.core_array = (one_running .PSJF).core_array ∧
      Holds s1.queue [some 1] := by
  obtain ⟨s1, k, h1, _, h2, h3, h4, _⟩ := new_job_enqueue_within 0 (one_running .PSJF) 2 2 80 0 []
    rfl (one_core_busy .PSJF)
    (Or.inr (by
      intro i c hc
      cases i with
      | zero =>
        simp only [one_running, List.getElem?_cons_zero, Option.some.injEq] at hc
        subst hc
        exact ⟨30, by rfl, by decide⟩
      | succ n => simp [one_running] at hc))
    (holds_init _) (allValid_nil _) (by decide)
  have hk : k = 0 := Nat.le_zero.mp h3
  subst hk
  exact ⟨s1, h1, h2, h4⟩

/-- The completion at an example: under FCFS job `1` finishes at time `5` while
job `2` waits. -/
theorem job_finished_within_witness :
    ∃ s1, scheduler_job_finished 0 (one_waiting .FCFS) 0 1 5 = .ok (s1, 2) ∧
      s1.heap = [finished (placed (new_job_record 1 0 50 0) 0 0) 5,
                 dispatched (new_job_record 2 2 3 0) 0 5] ∧
      Holds s1.queue [] ∧ Holds s1.completed_queue [some 0] := by
  obtain ⟨s1, k, h1, h2, _, h3, h4, h5, _⟩ := (job_finished_within 0 (one_waiting .FCFS) 0 1 5
    { core_id := 0, active_job_id := 1, active_job := some 0 } 0
    (placed (new_job_record 1 0 50 0) 0 0) [] [some 1] rfl rfl rfl
    (holds_init _) (allValid_nil _) (by decide) (one_waiting_holds .FCFS) (by decide)).2
    1 [] (new_job_record 2 2 3 0) rfl rfl
  have hk : k = 0 := Nat.le_zero.mp h4
  subst hk
  exact ⟨s1, h1, h2, h3, h5⟩

/-- The rotation at an example: under RR the quantum of job `1` expires at time
`4` while job `2` waits. -/
theorem quantum_expired_within_witness :
    ∃ s1, scheduler_quantum_expired 0 (one_waiting .RR) 0 4 = .ok (s1, 2) ∧
      s1.heap = [rotated (placed (new_job_record 1 0 50 0) 0 0) 4,
                 dispatched (new_job_record 2 2 3 0) 0 4] ∧
      Holds s1.queue [some 0] := by
  obtain ⟨s1, h1, h2, _, h3, _⟩ := quantum_expired_within 0 (one_waiting .RR) 0 4
    { core_id := 0, active_job_id := 1, active_job := some 0 } 0
    (placed (new_job_record 1 0 50 0) 0 0) 1 (new_job_record 2 2 3 0) [] rfl rfl rfl rfl
    (one_waiting_holds .RR) (one_waiting_valid .RR) rfl (by decide) (by decide)
  exact ⟨s1, h1, h2, h3⟩

/-! ## Peek, poll and positional access -/

/-- C16: on a queue with entries `priqueue_poll` returns the entry at position
`0`, the one `priqueue_peek` returns, and leaves the former entries `1..n-1` in
their order at the positions `0..n-2`, one entry less; on an empty queue both
return `NULL` and the queue stays empty. `priqueue_peek` only reads. -/
theorem C16_poll_and_peek {κ α : Type} (q : priqueue_t κ α) (l : List (Option α))
    (hq : Holds q l) :
    (l = [] → priqueue_peek q = .ok none ∧ priqueue_poll q = .ok (q, none) ∧
      priqueue_size q = 0) ∧
    (∀ a t, l = a :: t →
      priqueue_peek q = .ok a ∧ priqueue_at q 0 = .ok a ∧
      ∃ q1, priqueue_poll q = .ok (q1, a) ∧ Holds q1 t ∧ contents q1 = t ∧
        priqueue_size q1 = priqueue_size q - 1 ∧
        (∀ (i : Nat) (v : Option α), t[i]? = some v →
          priqueue_at q ((i : Int) + 1) = .ok v ∧ priqueue_at q1 (i : Int) = .ok v)) := by
  constructor
  · intro hl
    subst hl
    exact ⟨peek_holds q [] hq, poll_empty q hq, holds_size q [] hq⟩
  · intro a t hl
    subst hl
    obtain ⟨q1, h1, h2, _, _⟩ := poll_holds q a t hq
    have hat : priqueue_at q 0 = .ok a := by
      simpa using at_holds q _ hq 0 a (by simp)
    refine ⟨peek_holds q _ hq, hat, q1, h1, h2, holds_contents q1 t h2, ?_, ?_⟩
    · rw [holds_size q1 t h2, holds_size q _ hq]
      simp only [List.length_cons]; push_cast; omega
    · intro i v hv
      refine ⟨?_, at_holds q1 t h2 i v hv⟩
      have := at_holds q (a :: t) hq (i + 1) v (by simpa using hv)
      simpa using this

/-- C17: `priqueue_at` with a negative index reads in front of the array, and
with the index `m_num_entries` it reads the slot behind the last entry (the
test is `index > m_num_entries`); only an index beyond that yields `NULL`
without a read. Shown on the queue with the entries `1` and `3`. -/
theorem C17_at_off_by_one :
    priqueue_at two_entries (-1) = .error .outOfBounds ∧
    priqueue_at two_entries 2 = rd two_entries.m_array 2 ∧
    priqueue_at { two_entries with m_array := [some 1, some 3, some 9] } 2 = .ok (some 9) ∧
    priqueue_at two_entries 3 = .ok none ∧
    priqueue_at two_entries 0 = .ok (some 1) ∧ priqueue_at two_entries 1 = .ok (some 3) :=
  ⟨rfl, rfl, rfl, rfl, rfl, rfl⟩

/-! ## Removal -/

section removal_lemmas

variable {κ α : Type}

/-- The shift loop of `priqueue_remove_at` never ends when it is entered: the
counter stays below `m_num_entries` and every amount of fuel runs out. -/
theorem remove_at_shift_diverges (n x : Int) (hx : x < n) (h0 : 0 ≤ x) :
    ∀ (fuel : Nat) (arr : List (Option α)), (x + 1).toNat < arr.length →
      remove_at_shift n x fuel arr = .error .outOfFuel := by
  intro fuel
  induction fuel with
  | zero => intro arr _; simp [remove_at_shift, hx]
  | succ fuel ih =>
    intro arr harr
    rw [remove_at_shift, if_pos hx]
    have hr : rd arr (x + 1) = .ok arr[(x + 1).toNat] := by
      unfold rd
      rw [if_pos (by omega), List.getElem?_eq_getElem harr]
    have hw : wr arr x arr[(x + 1).toNat] = .ok (arr.set x.toNat arr[(x + 1).toNat]) := by
      unfold wr
      rw [if_pos ⟨h0, by omega⟩]
    simp only [hr, hw, bind, Except.bind]
    exact ih _ (by simpa using harr)

/-- The call `priqueue_remove_at` with the index of an entry never returns. -/
theorem remove_at_never_returns (fuel : Nat) (q : priqueue_t κ α) (l : List (Option α))
    (index : Int) (hq : Holds q l) (h0 : 0 ≤ index) (h1 : index < (l.length : Int)) :
    priqueue_remove_at fuel q index = .error .outOfFuel := by
  obtain ⟨hn, hs, harr⟩ := hq
  have hlen : q.m_array.length = q.m_size.toNat := by
    rw [harr]; simp; omega
  unfold priqueue_remove_at
  rw [if_neg (by omega)]
  have hr : rd q.m_array index = .ok q.m_array[index.toNat] := by
    unfold rd
    rw [if_pos h0, List.getElem?_eq_getElem (by omega)]
  have hd := remove_at_shift_diverges q.m_num_entries index (by omega) h0 fuel q.m_array
    (by omega)
  simp only [hr, hd, bind, Except.bind]

/-- The call `priqueue_remove_at` with an index beyond `m_num_entries` returns
`NULL` and leaves the queue as it was. -/
theorem remove_at_beyond (fuel : Nat) (q : priqueue_t κ α) (index : Int)
    (h : q.m_num_entries < index) : priqueue_remove_at fuel q index = .ok (q, none) := by
  unfold priqueue_remove_at
  rw [if_pos h]; rfl

end removal_lemmas

/-- C18: with the comparator that ranks all entries equal, the pointers `1`,
`2`, `1` are offered and `1` is removed. `priqueue_remove` counts only the run
of adjacent occurrences that starts at the first one: it returns `1`, not `2`,
and the queue keeps the entries `2`, `1`. -/
theorem C18_remove_misses_occurrences :
    run_calls call_pure 0 [.offer (some 1), .offer (some 2), .offer (some 1)]
      (priqueue_init all_equal) = .ok one_two_one ∧
    ∃ q1, priqueue_remove one_two_one (some 1) = .ok (q1, 1) ∧
      contents q1 = [some 2, some 1] ∧ priqueue_size q1 = 2 ∧ some 1 ∈ contents q1 :=
  ⟨rfl, _, rfl, rfl, rfl, by decide⟩

/-- C19: on the queue with the entries `1` and `3`, `priqueue_remove_at` with
the index `0` or `1` never returns: the loop that moves the later entries down
does not advance its counter, and every amount of fuel runs out. -/
theorem C19_remove_at_never_returns : ∀ fuel : Nat,
    priqueue_remove_at fuel two_entries 0 = .error .outOfFuel ∧
    priqueue_remove_at fuel two_entries 1 = .error .outOfFuel :=
  fun fuel =>
    ⟨remove_at_never_returns fuel two_entries [some 1, some 3] 0 ⟨rfl, by decide, rfl⟩
        (by decide) (by decide),
     remove_at_never_returns fuel two_entries [some 1, some 3] 1 ⟨rfl, by decide, rfl⟩
        (by decide) (by decide)⟩

/-- C20: on the queue with the entries `1` and `3`, `priqueue_remove_at` with
the index `2`, the number of entries, returns `NULL` but drops the last entry
and counts one entry less (the test is `index > m_num_entries`); with a
negative index it reads in front of the array; on the empty queue the index `0`
makes it write in front of the array. Only an index beyond the number of
entries leaves the queue as it was. -/
theorem C20_remove_at_index_n : ∀ fuel : Nat,
    (∃ q1, priqueue_remove_at fuel two_entries 2 = .ok (q1, none) ∧
      contents q1 = [some 1] ∧ priqueue_size q1 = 1) ∧
    priqueue_remove_at fuel two_entries (-1) = .error .outOfBounds ∧
    priqueue_remove_at fuel (priqueue_init all_equal : priqueue_t _ Int) 0
      = .error .outOfBounds ∧
    priqueue_remove_at fuel two_entries 3 = .ok (two_entries, none) := by
  intro fuel
  refine ⟨?_, rfl, ?_, rfl⟩
  · cases fuel <;> exact ⟨_, rfl, rfl, rfl⟩
  · cases fuel <;> rfl

/-! ## The averages without completed jobs -/

/-- C11 as stated fails: right after `scheduler_start_up` the completed set is
empty, and the three averages return the value of the division of zero by zero
and no error. -/
theorem C11_no_error_on_empty :
    scheduler_average_waiting_time (scheduler_start_up 1 .FCFS) = .ok .nan ∧
    scheduler_average_turnaround_time (scheduler_start_up 1 .FCFS) = .ok .nan ∧
    scheduler_average_response_time (scheduler_start_up 1 .FCFS) = .ok .nan ∧
    ¬ ∃ e, scheduler_average_waiting_time (scheduler_start_up 1 .FCFS) = .error e := by
  refine ⟨rfl, rfl, rfl, ?_⟩
  rintro ⟨e, he⟩
  have h : scheduler_average_waiting_time (scheduler_start_up 1 .FCFS) = .ok .nan := rfl
  rw [h] at he
  cases he

/-- C11 amended: with an empty completed set the three averages divide zero by
the job count zero and return the outcome of that division, not a number and
not an error. -/
theorem C11_empty_set_divides_by_zero (s : State)
    (h : s.completed_queue.m_num_entries = 0) :
    scheduler_average_waiting_time s = .ok (float_div 0 0) ∧
    scheduler_average_turnaround_time s = .ok (float_div 0 0) ∧
    scheduler_average_response_time s = .ok (float_div 0 0) ∧
    float_div 0 0 = .nan := by
  refine ⟨?_, ?_, ?_, rfl⟩
  · simp [scheduler_average_waiting_time, h, waiting_loop, bind, Except.bind, pure, Except.pure]
  · simp [scheduler_average_turnaround_time, h, turnaround_loop, bind, Except.bind, pure,
      Except.pure]
  · simp [scheduler_average_response_time, h, response_loop, bind, Except.bind, pure,
      Except.pure]

theorem C11_empty_set_divides_by_zero_witness :
    (scheduler_start_up 2 .RR).completed_queue.m_num_entries = 0 ∧
    scheduler_average_waiting_time (scheduler_start_up 2 .RR) = .ok (float_div 0 0) :=
  ⟨rfl, (C11_empty_set_divides_by_zero (scheduler_start_up 2 .RR) rfl).1⟩

theorem C16_poll_and_peek_witness :
    Holds two_entries [some 1, some 3] ∧
    priqueue_peek two_entries = .ok (some 1) ∧
    ∃ q1, priqueue_poll two_entries = .ok (q1, some 1) ∧ Holds q1 [some 3] := by
  obtain ⟨h1, _, q1, h2, h3, _⟩ :=
    (C16_poll_and_peek two_entries [some 1, some 3] two_entries_holds).2 (some 1) [some 3] rfl
  exact ⟨two_entries_holds, h1, q1, h2, h3⟩

/-! ## Round robin on one core -/

section round_robin

theorem job_id_at_set (heap : List job_t) (a b : Nat) (j j1 : job_t)
    (hj : heap[a]? = some j) (h1 : j1.job_id = j.job_id) :
    job_id_at (heap.set a j1) b = job_id_at heap b := by
  unfold job_id_at
  by_cases hab : a = b
  · subst hab
    rw [List.getElem?_set_self (List.getElem?_eq_some_iff.mp hj).1, hj]
    exact h1
  · rw [List.getElem?_set_ne hab]

theorem job_id_at_some (heap : List job_t) (a : Nat) (j : job_t) (hj : heap[a]? = some j) :
    job_id_at heap a = j.job_id := by
  simp [job_id_at, hj]

/-- Successive quantum expiries on core `0` under RR: with job `a` running and
the jobs `q` waiting, `ts.length ≤ q.length + 1` expiries return the ids of the
first `ts.length` jobs of `q ++ [a]`, and leave the ring of jobs turned by that
many places. -/
theorem rr_steps (fuel : Nat) : ∀ (ts : List Int) (s : State) (core : core_t) (a : Nat)
    (q : List Nat),
    s.queue.compare_func = .RR → s.queue.m_size = 64 →
    s.core_array[0]? = some core → core.active_job = some a →
    Holds s.queue (q.map some) → q ≠ [] → q.length ≤ 62 →
    (a :: q).Nodup → (∀ b ∈ a :: q, b < s.heap.length) →
    ts.length ≤ q.length + 1 →
    ∃ s1 core1 b, run fuel (quanta ts) s
        = .ok (s1, ((q ++ [a]).take ts.length).map (job_id_at s.heap)) ∧
      (a :: q).rotate ts.length = b :: ((a :: q).rotate ts.length).tail ∧
      s1.core_array[0]? = some core1 ∧ core1.active_job = some b ∧
      Holds s1.queue ((((a :: q).rotate ts.length).tail).map some) := by
  intro ts
  induction ts with
  | nil =>
    intro s core a q _ _ hx ha hq _ _ _ _ _
    exact ⟨s, core, a, rfl, by simp, hx, ha, by simpa using hq⟩
  | cons t ts ih =>
    intro s core a q hrr h64 hx ha hq hne h62 hnd hv hlen
    obtain ⟨h, rest, rfl⟩ : ∃ h rest, q = h :: rest := by
      cases q with
      | nil => exact absurd rfl hne
      | cons h rest => exact ⟨h, rest, rfl⟩
    obtain ⟨J, hJ⟩ : ∃ J, s.heap[a]? = some J :=
      ⟨_, List.getElem?_eq_getElem (hv a (by simp))⟩
    obtain ⟨H, hH⟩ : ∃ H, s.heap[h]? = some H :=
      ⟨_, List.getElem?_eq_getElem (hv h (by simp))⟩
    have hvalid : AllValid s.heap (some h :: rest.map some) := by
      intro p hp
      rcases List.mem_cons.mp hp with h1 | h1
      · exact ⟨h, h1, hv h (by simp)⟩
      · obtain ⟨b, hb, rfl⟩ := List.mem_map.mp h1
        exact ⟨b, rfl, hv b (by simp [hb])⟩
    have hna : some a ∉ some h :: rest.map some := by
      intro hmem
      have : a ∈ h :: rest := by
        rcases List.mem_cons.mp hmem with h1 | h1
        · simp only [Option.some.injEq] at h1; simp [h1]
        · obtain ⟨b, hb, hb2⟩ := List.mem_map.mp h1
          simp only [Option.some.injEq] at hb2; subst hb2; simp [hb]
      exact (List.nodup_cons.mp hnd).1 this
    obtain ⟨s1, h1, h2, h3, h4, _, _, _, _, h5, h6, _⟩ := quantum_expired_within fuel s 0 t core a
      J h H (rest.map some) hrr hx ha hJ (by simpa using hq) hvalid hH hna
      (by simp only [List.length_map]; simp only [List.length_cons] at h62; omega)
    -- the ring after the first expiry is `h :: rest ++ [a]`
    have hids : ∀ b, job_id_at s1.heap b = job_id_at s.heap b := by
      intro b
      rw [h2]
      have hH1 : (s.heap.set a (rotated J t))[h]? = some H := by
        have hne2 : a ≠ h := by
          intro e; subst e; exact (List.nodup_cons.mp hnd).1 (by simp)
        rw [List.getElem?_set_ne hne2, hH]
      rw [job_id_at_set _ h b H (dispatched H _ t) hH1 rfl,
        job_id_at_set _ a b J (rotated J t) hJ rfl]
    have hx1 : s1.core_array[0]? = some ⟨core.core_id, H.job_id, some h⟩ := by
      rw [h3]
      exact List.getElem?_set_self (List.getElem?_eq_some_iff.mp hx).1
    have hq1 : Holds s1.queue ((rest ++ [a]).map some) := by simpa using h4
    have hnd1 : (h :: (rest ++ [a])).Nodup := by
      have : (h :: (rest ++ [a])).Perm (a :: h :: rest) := by
        have := (List.perm_append_singleton a (h :: rest))
        simpa using this
      exact this.nodup_iff.mpr hnd
    have hlen1 : s1.heap.length = s.heap.length := by rw [h2]; simp
    have hv1 : ∀ b ∈ h :: (rest ++ [a]), b < s1.heap.length := by
      intro b hb
      rw [hlen1]
      apply hv
      simp only [List.mem_cons, List.mem_append, List.mem_singleton] at hb ⊢
      tauto
    obtain ⟨s2, core2, b, r1, r2, r3, r4, r5⟩ := ih s1 _ h (rest ++ [a]) (h6.trans hrr)
      (h5.trans h64) hx1 rfl hq1 (by simp) (by simp at h62 ⊢; omega) hnd1 hv1
      (by simp at hlen ⊢; omega)
    have hrot : (a :: h :: rest).rotate ((t :: ts).length) = (h :: (rest ++ [a])).rotate ts.length := by
      simp only [List.length_cons, List.rotate_cons_succ]
      simp
    refine ⟨s2, core2, b, ?_, by rw [hrot]; exact r2, r3, r4, by rw [hrot]; exact r5⟩
    have hstep : step fuel s (event.quantum_expired 0 t) = .ok (s1, H.job_id) := h1
    have htake : ((h :: rest ++ [a]).take (t :: ts).length).map (job_id_at s.heap)
        = H.job_id :: ((rest ++ [a] ++ [h]).take ts.length).map (job_id_at s1.heap) := by
      have e1 : (rest ++ [a] ++ [h]).take ts.length = (rest ++ [a]).take ts.length := by
        apply List.take_append_of_le_length
        simp at hlen ⊢; omega
      rw [e1]
      simp only [List.length_cons, List.cons_append, List.take_succ_cons, List.map_cons,
        job_id_at_some _ _ _ hH, List.cons.injEq, true_and]
      apply List.map_congr_left
      intro b _
      exact (hids b).symm
    simp only [quanta, List.map_cons, run, hstep, bind, Except.bind]
    have r1b : run fuel (List.map (fun t => event.quantum_expired 0 t) ts) s1
        = .ok (s2, ((rest ++ [a] ++ [h]).take ts.length).map (job_id_at s1.heap)) := r1
    rw [r1b, htake]
    rfl

end round_robin

/-- C15: under RR, with job `a` running on core `0` and the jobs `rest` (at
least one, fewer than 62) waiting in this order, as many quantum expiries as
there are jobs return the ids of the waiting jobs in their order and then the
id of `a`; after them `a` runs again and the queue holds `rest` in the same
order. -/
theorem C15_round_robin_cycle (fuel : Nat) (s : State) (core : core_t) (a : Nat)
    (rest : List Nat) (ts : List Int)
    (hrr : s.queue.compare_func = .RR) (h64 : s.queue.m_size = 64)
    (hx : s.core_array[0]? = some core) (ha : core.active_job = some a)
    (hq : Holds s.queue (rest.map some)) (h1 : 1 ≤ rest.length) (h62 : rest.length < 62)
    (hnd : (a :: rest).Nodup) (hv : ∀ b ∈ a :: rest, b < s.heap.length)
    (hts : ts.length = rest.length + 1) :
    ∃ s1 core1, run fuel (quanta ts) s = .ok (s1, (rest ++ [a]).map (job_id_at s.heap)) ∧
      s1.core_array[0]? = some core1 ∧ core1.active_job = some a ∧
      Holds s1.queue (rest.map some) := by
  have hne : rest ≠ [] := by
    intro h; subst h; simp at h1
  obtain ⟨s1, core1, b, r1, r2, r3, r4, r5⟩ := rr_steps fuel ts s core a rest hrr h64 hx ha hq
    hne (by omega) hnd hv (by omega)
  have hrot : (a :: rest).rotate ts.length = a :: rest := by
    rw [hts]
    have : rest.length + 1 = (a :: rest).length := by simp
    rw [this, List.rotate_length]
  rw [hrot] at r2 r5
  simp only [List.tail_cons, List.cons.injEq] at r2 r5
  have htake : (rest ++ [a]).take ts.length = rest ++ [a] := by
    apply List.take_of_length_le; simp; omega
  rw [htake] at r1
  exact ⟨s1, core1, r1, r3, by rw [r4, ← r2.1], r5⟩

/-! ## Every path of the three event handlers -/

section paths

theorem rd_ok_iff {β : Type} (arr : List β) (i : Int) (v : β) :
    rd arr i = .ok v ↔ ∃ x : Nat, i = (x : Int) ∧ arr[x]? = some v := by
  constructor
  · intro h
    unfold rd at h
    by_cases h0 : 0 ≤ i
    · rw [if_pos h0] at h
      refine ⟨i.toNat, by omega, ?_⟩
      cases hx : arr[i.toNat]? with
      | none => simp [hx] at h
      | some w => simp only [hx, Except.ok.injEq] at h; rw [h]
    · rw [if_neg h0] at h; cases h
  · rintro ⟨x, rfl, hx⟩
    exact rd_eq_ok arr x v hx

theorem split_at {β : Type} (l : List β) (x : Nat) (c : β) (h : l[x]? = some c) :
    ∃ pre post, l = pre ++ c :: post ∧ pre.length = x := by
  have hx : x < l.length := (List.getElem?_eq_some_iff.mp h).1
  refine ⟨l.take x, l.drop (x + 1), ?_, by simp; omega⟩
  have hc : l[x] = c := by
    have := List.getElem?_eq_getElem hx
    rw [h] at this; exact (Option.some.inj this).symm
  rw [← hc]
  calc l = l.take x ++ l.drop x := (List.take_append_drop x l).symm
    _ = l.take x ++ l[x] :: l.drop (x + 1) := by rw [List.drop_eq_getElem_cons hx]

/-- The first loop of `scheduler_new_job` over all cores: it ends with the
core of lowest index that has `active_job_id == -1`, or with none. -/
theorem idle_scan_total (core_array : List core_t) :
    (new_job_idle_scan core_array core_array.length 0 = .ok none ∧
      ∀ (i : Nat) (c : core_t), core_array[i]? = some c → c.active_job_id ≠ -1) ∨
    (∃ x core, new_job_idle_scan core_array core_array.length 0 = .ok (some x) ∧
      core_array[x]? = some core ∧ core.active_job_id = -1 ∧
      ∀ (i : Nat) (c : core_t), i < x → core_array[i]? = some c → c.active_job_id ≠ -1) := by
  classical
  by_cases h : ∃ x : Nat, ∃ c : core_t, core_array[x]? = some c ∧ c.active_job_id = -1
  · right
    obtain ⟨c, hc, hid⟩ := Nat.find_spec h
    have hmin : ∀ (i : Nat) (c : core_t), i < Nat.find h → core_array[i]? = some c →
        c.active_job_id ≠ -1 := by
      intro i c hi hc hid
      exact Nat.find_min h hi ⟨c, hc, hid⟩
    refine ⟨Nat.find h, c, ?_, hc, hid, hmin⟩
    apply idle_scan_finds core_array _ c hc hid _ 0 (Nat.zero_le _)
    · simpa using (List.getElem?_eq_some_iff.mp hc).1
    · intro i c _ hi hc; exact hmin i c hi hc
  · left
    have hall : ∀ (i : Nat) (c : core_t), core_array[i]? = some c → c.active_job_id ≠ -1 := by
      intro i c hc hid; exact h ⟨i, c, hc, hid⟩
    exact ⟨idle_scan_none core_array _ 0 (by simp) (fun i c _ hc => hall i c hc), hall⟩

/-- The second loop of `scheduler_new_job` over all cores, when every call of
the comparer returns: it ends with the core of lowest index whose job the new
job outranks, or with none. -/
theorem preempt_scan_total (heap : List job_t) (f : comparer_t) (core_array : List core_t)
    (new_job : Option Nat)
    (hok : ∀ (i : Nat) (c : core_t), core_array[i]? = some c →
      ∃ w, call_comparer heap f new_job c.active_job = .ok w) :
    (new_job_preempt_scan heap f core_array new_job core_array.length 0 = .ok none ∧
      ∀ (i : Nat) (c : core_t), core_array[i]? = some c →
        ∃ w, call_comparer heap f new_job c.active_job = .ok w ∧ 0 ≤ w) ∨
    (∃ x core v, new_job_preempt_scan heap f core_array new_job core_array.length 0
        = .ok (some x) ∧
      core_array[x]? = some core ∧ call_comparer heap f new_job core.active_job = .ok v ∧
      v < 0 ∧
      ∀ (i : Nat) (c : core_t), i < x → core_array[i]? = some c →
        ∃ w, call_comparer heap f new_job c.active_job = .ok w ∧ 0 ≤ w) := by
  classical
  by_cases h : ∃ x : Nat, ∃ (c : core_t) (v : Int), core_array[x]? = some c ∧
      call_comparer heap f new_job c.active_job = .ok v ∧ v < 0
  · right
    obtain ⟨c, v, hc, hv, hneg⟩ := Nat.find_spec h
    have hmin : ∀ (i : Nat) (c : core_t), i < Nat.find h → core_array[i]? = some c →
        ∃ w, call_comparer heap f new_job c.active_job = .ok w ∧ 0 ≤ w := by
      intro i c hi hc
      obtain ⟨w, hw⟩ := hok i c hc
      refine ⟨w, hw, ?_⟩
      by_contra hcon
      exact Nat.find_min h hi ⟨c, w, hc, hw, by omega⟩
    refine ⟨Nat.find h, c, v, ?_, hc, hv, hneg, hmin⟩
    apply preempt_scan_finds heap f core_array new_job _ c v hc hv hneg _ 0 (Nat.zero_le _)
    · simpa using (List.getElem?_eq_some_iff.mp hc).1
    · intro i c _ hi hc; exact hmin i c hi hc
  · left
    have hall : ∀ (i : Nat) (c : core_t), core_array[i]? = some c →
        ∃ w, call_comparer heap f new_job c.active_job = .ok w ∧ 0 ≤ w := by
      intro i c hc
      obtain ⟨w, hw⟩ := hok i c hc
      refine ⟨w, hw, ?_⟩
      by_contra hcon
      exact h ⟨i, c, w, hc, hw, by omega⟩
    exact ⟨preempt_scan_none heap f core_array new_job _ 0 (by simp)
      (fun i c _ hc => hall i c hc), hall⟩

/-- The placement path of `scheduler_new_job`: the new job goes to the core `x`
of lowest index with `active_job_id == -1`. -/
theorem new_job_idle_within (fuel : Nat) (s : State)
    (job_number time running_time priority : Int) (x : Nat) (core : core_t)
    (hn : s.m_num_cores = (s.core_array.length : Int))
    (hx : s.core_array[x]? = some core) (hidle : core.active_job_id = -1)
    (hlow : ∀ (i : Nat) (c : core_t), i < x → s.core_array[i]? = some c →
      c.active_job_id ≠ -1) :
    ∃ s1, scheduler_new_job fuel s job_number time running_time priority = .ok (s1, (x : Int)) ∧
      s1.heap = s.heap
        ++ [placed (new_job_record job_number time running_time priority) (x : Int) time] ∧
      s1.core_array = s.core_array.set x ⟨core.core_id, job_number, some s.heap.length⟩ ∧
      s1.queue = s.queue ∧ s1.completed_queue = s.completed_queue ∧
      s1.active_scheme = s.active_scheme ∧ s1.compare_func = s.compare_func ∧
      s1.m_num_cores = s.m_num_cores := by
  have hxlen : x < s.core_array.length := (List.getElem?_eq_some_iff.mp hx).1
  have hscan : new_job_idle_scan s.core_array s.m_num_cores.toNat 0 = .ok (some x) := by
    apply idle_scan_finds s.core_array x core hx hidle _ 0 (Nat.zero_le _)
    · rw [hn]; simp; exact hxlen
    · intro i c _ hi hc; exact hlow i c hi hc
  refine ⟨⟨_, s.active_scheme, _, s.m_num_cores, s.queue, s.completed_queue, s.compare_func⟩,
    ?_, rfl, rfl, rfl, rfl, rfl, rfl, rfl⟩
  unfold scheduler_new_job
  simp only [hscan, bind, Except.bind, rd_eq_ok _ _ _ hx, wr_eq_ok _ _ _ hxlen,
    modify_last, pure, Except.pure]
  rfl

/-- The step `priqueue_offer(q, job)` of the scheduler on a queue of 63 valid
job pointers in 64 slots does not return. -/
theorem offer_heap_at_capacity (heap : List job_t) (fuel : Nat) (q : priqueue_t comparer_t Nat)
    (l : List (Option Nat)) (a : Nat) (hq : Holds q l)
    (hcap : (l.length : Int) + 1 = q.m_size) (h2 : 2 ≤ l.length)
    (hv : AllValid heap l) (ha : a < heap.length) :
    priqueue_offer (call_comparer heap) fuel q (some a) = .error .outOfBounds := by
  have hc : ∀ e ∈ l, call_comparer heap q.compare_func (some a) e
      = .ok (cmp_value heap q.compare_func (some a) e) := by
    intro e he
    obtain ⟨b, rfl, hb⟩ := hv e he
    exact call_comparer_value heap _ a b ha hb
  exact offer_at_capacity (call_comparer heap) (cmp_value heap q.compare_func) fuel q l (some a)
    hq hcap h2 hc

/-- The enqueue path of `scheduler_new_job` with 63 jobs waiting does not return. -/
theorem new_job_enqueue_at_capacity (fuel : Nat) (s : State)
    (job_number time running_time priority : Int) (l : List (Option Nat))
    (hn : s.m_num_cores = (s.core_array.length : Int))
    (hbusy : ∀ (i : Nat) (c : core_t), s.core_array[i]? = some c → c.active_job_id ≠ -1)
    (hnp : ¬ (s.active_scheme = .PPRI ∨ s.active_scheme = .PSJF) ∨
      (∀ (i : Nat) (c : core_t), s.core_array[i]? = some c →
        ∃ w, call_comparer (s.heap ++ [new_job_record job_number time running_time priority])
          s.compare_func (some s.heap.length) c.active_job = .ok w ∧ 0 ≤ w))
    (hq : Holds s.queue l) (hv : AllValid s.heap l)
    (hcap : (l.length : Int) + 1 = s.queue.m_size) (h2 : 2 ≤ l.length) :
    scheduler_new_job fuel s job_number time running_time priority = .error .outOfBounds := by
  have hscan : new_job_idle_scan s.core_array s.m_num_cores.toNat 0 = .ok none := by
    apply idle_scan_none s.core_array _ 0
    · rw [hn]; simp
    · intro i c _ hc; exact hbusy i c hc
  have hv0 : AllValid (s.heap ++ [new_job_record job_number time running_time priority]) l :=
    allValid_mono _ _ _ hv (by simp)
  have h1 := offer_heap_at_capacity
    (s.heap ++ [new_job_record job_number time running_time priority]) fuel s.queue l
    s.heap.length hq hcap h2 hv0 (by simp)
  unfold scheduler_new_job
  simp only [hscan, bind, Except.bind]
  by_cases hs : s.active_scheme = .PPRI ∨ s.active_scheme = .PSJF
  · rcases hnp with hnp | hnp
    · exact absurd hs hnp
    · have hp : new_job_preempt_scan
          (s.heap ++ [new_job_record job_number time running_time priority]) s.compare_func
          s.core_array (some s.heap.length) s.m_num_cores.toNat 0 = .ok none := by
        apply preempt_scan_none _ _ _ _ _ 0
        · rw [hn]; simp
        · intro i c _ hc; exact hnp i c hc
      rw [if_pos hs]
      simp only [hp, h1]
  · rw [if_neg hs]
    simp only [h1]

/-- The preemption path of `scheduler_new_job` with 63 jobs waiting does not return. -/
theorem new_job_preempt_at_capacity (fuel : Nat) (s : State)
    (job_number time running_time priority : Int) (l : List (Option Nat))
    (x : Nat) (core : core_t) (r : Nat) (R : job_t) (v : Int)
    (hs : s.active_scheme = .PPRI ∨ s.active_scheme = .PSJF)
    (hn : s.m_num_cores = (s.core_array.length : Int))
    (hbusy : ∀ (i : Nat) (c : core_t), s.core_array[i]? = some c → c.active_job_id ≠ -1)
    (hx : s.core_array[x]? = some core) (hr : core.active_job = some r)
    (hR : s.heap[r]? = some R)
    (hcmp : call_comparer (s.heap ++ [new_job_record job_number time running_time priority])
      s.compare_func (some s.heap.length) (some r) = .ok v) (hneg : v < 0)
    (hlow : ∀ (i : Nat) (c : core_t), i < x → s.core_array[i]? = some c →
      ∃ w, call_comparer (s.heap ++ [new_job_record job_number time running_time priority])
        s.compare_func (some s.heap.length) c.active_job = .ok w ∧ 0 ≤ w)
    (hq : Holds s.queue l) (hv : AllValid s.heap l)
    (hcap : (l.length : Int) + 1 = s.queue.m_size) (h2 : 2 ≤ l.length) :
    scheduler_new_job fuel s job_number time running_time priority = .error .outOfBounds := by
  have hxlen : x < s.core_array.length := (List.getElem?_eq_some_iff.mp hx).1
  have hrlen : r < s.heap.length := (List.getElem?_eq_some_iff.mp hR).1
  have hscan : new_job_idle_scan s.core_array s.m_num_cores.toNat 0 = .ok none := by
    apply idle_scan_none s.core_array _ 0
    · rw [hn]; simp
    · intro i c _ hc; exact hbusy i c hc
  have hp : new_job_preempt_scan
      (s.heap ++ [new_job_record job_number time running_time priority]) s.compare_func
      s.core_array (some s.heap.length) s.m_num_cores.toNat 0 = .ok (some x) := by
    apply preempt_scan_finds _ _ _ _ x core v hx (by rw [hr]; exact hcmp) hneg _ 0 (Nat.zero_le _)
    · rw [hn]; simp; exact hxlen
    · intro i c _ hi hc; exact hlow i c hi hc
  have hR0 : (s.heap ++ [new_job_record job_number time running_time priority])[r]? = some R := by
    rw [List.getElem?_append_left hrlen, hR]
  have hm1 : modify (s.heap ++ [new_job_record job_number time running_time priority]) (some r)
      (fun j => { j with time_running := j.time_running + (time - j.time_last_scheduled), core_id := -1 })
      = .ok (s.heap.set r (preempted R time)
          ++ [new_job_record job_number time running_time priority]) := by
    rw [modify_some _ _ _ _ hR0, List.set_append_left _ _ hrlen]; rfl
  have hv1 : AllValid (s.heap.set r (preempted R time)
      ++ [new_job_record job_number time running_time priority]) l :=
    allValid_mono _ _ _ hv (by simp)
  have h1 := offer_heap_at_capacity _ fuel s.queue l r hq hcap h2 hv1 (by simp; omega)
  unfold scheduler_new_job
  simp only [hscan, bind, Except.bind]
  rw [if_pos hs]
  simp only [hp, rd_eq_ok _ _ _ hx, hr, hm1, h1]

/-- The call `scheduler_job_finished` with 63 completed jobs does not return. -/
theorem job_finished_at_capacity (fuel : Nat) (s : State) (x : Nat) (job_number time : Int)
    (core : core_t) (a : Nat) (J : job_t) (lc : List (Option Nat))
    (hx : s.core_array[x]? = some core) (ha : core.active_job = some a)
    (hJ : s.heap[a]? = some J)
    (hcq : Holds s.completed_queue lc) (hcv : AllValid s.heap lc)
    (hcap : (lc.length : Int) + 1 = s.completed_queue.m_size) (h2 : 2 ≤ lc.length) :
    scheduler_job_finished fuel s (x : Int) job_number time = .error .outOfBounds := by
  have halen : a < s.heap.length := (List.getElem?_eq_some_iff.mp hJ).1
  have hm1 : modify s.heap (some a)
      (fun j => { j with completion_time := time, core_id := -1, time_running := j.length, time_last_scheduled := time })
      = .ok (s.heap.set a (finished J time)) := by
    rw [modify_some _ _ _ _ hJ]; rfl
  have hv1 : AllValid (s.heap.set a (finished J time)) lc :=
    allValid_mono _ _ _ hcv (by simp)
  have h1 := offer_heap_at_capacity _ fuel s.completed_queue lc a hcq hcap h2 hv1
    (by simp; exact halen)
  unfold scheduler_job_finished
  simp only [rd_eq_ok _ _ _ hx, ha, hm1, h1, bind, Except.bind]

/-- The rotation of `scheduler_quantum_expired` with 63 jobs waiting does not return. -/
theorem quantum_expired_at_capacity (fuel : Nat) (s : State) (x : Nat) (time : Int)
    (core : core_t) (a : Nat) (J : job_t) (h : Nat) (rest : List (Option Nat))
    (hx : s.core_array[x]? = some core) (ha : core.active_job = some a)
    (hJ : s.heap[a]? = some J)
    (hq : Holds s.queue (some h :: rest)) (hv : AllValid s.heap (some h :: rest))
    (hcap : (rest.length : Int) + 2 = s.queue.m_size) (h2 : 1 ≤ rest.length) :
    scheduler_quantum_expired fuel s (x : Int) time = .error .outOfBounds := by
  have hxlen : x < s.core_array.length := (List.getElem?_eq_some_iff.mp hx).1
  have halen : a < s.heap.length := (List.getElem?_eq_some_iff.mp hJ).1
  have hpeek := peek_holds s.queue _ hq
  have hm1 : modify s.heap (some a)
      (fun j => { j with time_running := j.time_running + (time - j.time_last_scheduled), time_last_scheduled := time })
      = .ok (s.heap.set a (rotated J time)) := by
    rw [modify_some _ _ _ _ hJ]; rfl
  have hv1 : AllValid (s.heap.set a (rotated J time)) (some h :: rest) :=
    allValid_mono _ _ _ hv (by simp)
  have h1 := offer_heap_at_capacity _ fuel s.queue (some h :: rest) a hq
    (by simp only [List.length_cons]; push_cast; omega) (by simp; omega) hv1
    (by simp; exact halen)
  unfold scheduler_quantum_expired
  simp only [hpeek, rd_eq_ok _ _ _ hx, bind, Except.bind, List.head?_cons, Option.getD_some]
  rw [if_neg (by simp), if_neg (by simp)]
  simp only [ha, wr_eq_ok _ _ _ hxlen, hm1, h1, bind, Except.bind]

/-- The early return of `scheduler_quantum_expired`: with nothing waiting the
state stays and the id recorded for the core is returned. -/
theorem quantum_expired_keep (fuel : Nat) (s : State) (c time : Int) (core : core_t)
    (hq : s.queue.m_num_entries = 0) (hc : rd s.core_array c = .ok core) :
    scheduler_quantum_expired fuel s c time = .ok (s, core.active_job_id) := by
  have hpeek : priqueue_peek s.queue = .ok none := by
    unfold priqueue_peek; rw [if_pos hq.symm]; rfl
  unfold scheduler_quantum_expired
  simp only [hpeek, hc, bind, Except.bind, true_and]
  by_cases h : -1 = core.active_job_id
  · rw [if_pos h, ← h]; rfl
  · rw [if_neg h, if_pos h]; rfl

/-- The rotation of `scheduler_quantum_expired` under any comparer, while the
waiting queue has two free slots or more. The running job `J` is offered to the
queue. When it lands at the front it is polled again and stays on the core;
otherwise the head `H` of the queue takes the core. -/
theorem quantum_expired_any (fuel : Nat) (s : State) (x : Nat) (time : Int)
    (core : core_t) (a : Nat) (J : job_t) (h : Nat) (H : job_t) (rest : List (Option Nat))
    (hx : s.core_array[x]? = some core) (ha : core.active_job = some a)
    (hJ : s.heap[a]? = some J)
    (hq : Holds s.queue (some h :: rest)) (hv : AllValid s.heap (some h :: rest))
    (hH : s.heap[h]? = some H) (hna : some a ∉ some h :: rest)
    (hcap : (rest.length : Int) + 3 ≤ s.queue.m_size) :
    (∃ s1, scheduler_quantum_expired fuel s (x : Int) time = .ok (s1, J.job_id) ∧
      s1.heap = s.heap.set a (dispatched (rotated J time) (x : Int) time) ∧
      s1.core_array = s.core_array.set x ⟨core.core_id, J.job_id, some a⟩ ∧
      Holds s1.queue (some h :: rest) ∧
      s1.completed_queue = s.completed_queue ∧ s1.active_scheme = s.active_scheme ∧
      s1.compare_func = s.compare_func ∧ s1.m_num_cores = s.m_num_cores ∧
      s1.queue.m_size = s.queue.m_size ∧ s1.queue.compare_func = s.queue.compare_func) ∨
    (∃ s1, ∃ k : Nat, scheduler_quantum_expired fuel s (x : Int) time = .ok (s1, H.job_id) ∧
      s1.heap = (s.heap.set a (rotated J time)).set h (dispatched H (x : Int) time) ∧
      s1.core_array = s.core_array.set x ⟨core.core_id, H.job_id, some h⟩ ∧
      k ≤ rest.length ∧ Holds s1.queue (rest.take k ++ some a :: rest.drop k) ∧
      s1.completed_queue = s.completed_queue ∧ s1.active_scheme = s.active_scheme ∧
      s1.compare_func = s.compare_func ∧ s1.m_num_cores = s.m_num_cores ∧
      s1.queue.m_size = s.queue.m_size ∧ s1.queue.compare_func = s.queue.compare_func) := by
  have hxlen : x < s.core_array.length := (List.getElem?_eq_some_iff.mp hx).1
  have halen : a < s.heap.length := (List.getElem?_eq_some_iff.mp hJ).1
  have hne : h ≠ a := by
    intro e; subst e; exact hna (by simp)
  have hpeek := peek_holds s.queue _ hq
  have hm1 : modify s.heap (some a)
      (fun j => { j with time_running := j.time_running + (time - j.time_last_scheduled), time_last_scheduled := time })
      = .ok (s.heap.set a (rotated J time)) := by
    rw [modify_some _ _ _ _ hJ]; rfl
  have hv1 : AllValid (s.heap.set a (rotated J time)) (some h :: rest) :=
    allValid_mono _ _ _ hv (by simp)
  obtain ⟨q1, k, h1, _, hkle, h3, hsz, hcf⟩ := offer_heap _ fuel s.queue (some h :: rest) a hq
    (by simp only [List.length_cons]; push_cast; omega) hv1 (by simp; exact halen)
  have hrd1 : rd (s.core_array.set x { core with active_job := none, active_job_id := -1 })
      (x : Int) = .ok { core with active_job := none, active_job_id := -1 } :=
    rd_eq_ok _ _ _ (List.getElem?_set_self hxlen)
  have hlen1 : a < (s.heap.set a (rotated J time)).length := by simpa using halen
  cases k with
  | zero =>
    left
    have h3b : Holds q1 (some a :: some h :: rest) := by simpa using h3
    obtain ⟨q2, hp1, hp2, hsz2, hcf2⟩ := poll_holds q1 (some a) (some h :: rest) h3b
    have hJ1 : (s.heap.set a (rotated J time))[a]? = some (rotated J time) :=
      List.getElem?_set_self halen
    have hd1 := deref_some _ _ _ hJ1
    have hm2 := modify_some _ a (rotated J time)
      (fun j => { j with time_last_scheduled := time, core_id := (x : Int) }) hJ1
    have hst : stamp_first ((s.heap.set a (rotated J time)).set a
          { rotated J time with time_last_scheduled := time, core_id := (x : Int) })
          (some a) time
        = .ok (s.heap.set a (dispatched (rotated J time) (x : Int) time)) := by
      rw [stamp_first_some _ a _ time (List.getElem?_set_self hlen1), List.set_set,
        List.set_set]
      rfl
    have hd : deref (s.heap.set a (dispatched (rotated J time) (x : Int) time)) (some a)
        = .ok (dispatched (rotated J time) (x : Int) time) :=
      deref_some _ _ _ (List.getElem?_set_self halen)
    have hwr1 := wr_eq_ok
      (s.core_array.set x { core with active_job := none, active_job_id := -1 })
      x ⟨core.core_id, J.job_id, some a⟩ (by simpa using hxlen)
    rw [List.set_set] at hwr1
    refine ⟨⟨_, s.active_scheme, _, s.m_num_cores, q2, s.completed_queue, s.compare_func⟩,
      ?_, rfl, rfl, hp2, rfl, rfl, rfl, rfl, hsz2.trans hsz, hcf2.trans hcf⟩
    unfold scheduler_quantum_expired
    simp only [hpeek, rd_eq_ok _ _ _ hx, bind, Except.bind, List.head?_cons, Option.getD_some]
    rw [if_neg (by simp), if_neg (by simp)]
    simp only [ha, wr_eq_ok _ _ _ hxlen, hm1, h1, hp1, hd1, hrd1, hm2, hst, hd, bind,
      Except.bind, pure, Except.pure]
    simp only [dispatched, rotated]
    rw [hwr1]
  | succ k =>
    right
    have hk : k ≤ rest.length := by simpa using hkle
    have h3b : Holds q1 (some h :: (rest.take k ++ some a :: rest.drop k)) := by
      simpa using h3
    obtain ⟨q2, hp1, hp2, hsz2, hcf2⟩ := poll_holds q1 (some h) _ h3b
    have hH1 : (s.heap.set a (rotated J time))[h]? = some H := by
      rw [List.getElem?_set_ne (fun e => hne e.symm), hH]
    have hd1 := deref_some _ _ _ hH1
    have hm2 := modify_some _ h H
      (fun j => { j with time_last_scheduled := time, core_id := (x : Int) }) hH1
    have hh1 : h < (s.heap.set a (rotated J time)).length :=
      (List.getElem?_eq_some_iff.mp hH1).1
    have hst : stamp_first ((s.heap.set a (rotated J time)).set h
          { H with time_last_scheduled := time, core_id := (x : Int) }) (some h) time
        = .ok ((s.heap.set a (rotated J time)).set h (dispatched H (x : Int) time)) := by
      rw [stamp_first_some _ h _ time (List.getElem?_set_self hh1), List.set_set]; rfl
    have hd : deref ((s.heap.set a (rotated J time)).set h (dispatched H (x : Int) time))
        (some h) = .ok (dispatched H (x : Int) time) :=
      deref_some _ _ _ (List.getElem?_set_self hh1)
    have hwr1 := wr_eq_ok
      (s.core_array.set x { core with active_job := none, active_job_id := -1 })
      x ⟨core.core_id, H.job_id, some h⟩ (by simpa using hxlen)
    rw [List.set_set] at hwr1
    refine ⟨⟨_, s.active_scheme, _, s.m_num_cores, q2, s.completed_queue, s.compare_func⟩, k,
      ?_, rfl, rfl, hk, hp2, rfl, rfl, rfl, rfl, hsz2.trans hsz, hcf2.trans hcf⟩
    unfold scheduler_quantum_expired
    simp only [hpeek, rd_eq_ok _ _ _ hx, bind, Except.bind, List.head?_cons, Option.getD_some]
    rw [if_neg (by simp), if_neg (by simp)]
    simp only [ha, wr_eq_ok _ _ _ hxlen, hm1, h1, hp1, hd1, hrd1, hm2, hst, hd, bind,
      Except.bind, pure, Except.pure]
    simp only [dispatched]
    rw [hwr1]

end paths

/-! ## From the code to the moves -/

section to_moves

theorem holds_unique {κ α : Type} (q : priqueue_t κ α) (l : List (Option α)) (h : Holds q l) :
    Holds q (contents q) := by
  rw [holds_contents q l h]; exact h

theorem mem_busy (s : State) (i : Nat) (c : core_t) (a : Nat)
    (hc : s.core_array[i]? = some c) (ha : c.active_job = some a) : some a ∈ busy s := by
  unfold busy
  rw [List.mem_filter]
  refine ⟨?_, rfl⟩
  rw [List.mem_map]
  exact ⟨c, List.getElem?_mem hc, ha⟩

theorem mem_held_busy (s : State) (p : Option Nat) (h : p ∈ busy s) : p ∈ held s := by
  unfold held; simp [h]

theorem mem_held_waiting (s : State) (p : Option Nat) (h : p ∈ contents s.queue) :
    p ∈ held s := by
  unfold held; simp [h]

theorem mem_held_completed (s : State) (p : Option Nat) (h : p ∈ contents s.completed_queue) :
    p ∈ held s := by
  unfold held; simp [h]

theorem inv_waiting_valid (s : State) (hi : Inv s) : AllValid s.heap (contents s.queue) :=
  fun p hp => hi.valid p (mem_held_waiting s p hp)

theorem inv_completed_valid (s : State) (hi : Inv s) :
    AllValid s.heap (contents s.completed_queue) :=
  fun p hp => hi.valid p (mem_held_completed s p hp)

theorem inv_not_waiting (s : State) (hi : Inv s) (i : Nat) (c : core_t) (a : Nat)
    (hc : s.core_array[i]? = some c) (ha : c.active_job = some a) :
    some a ∉ contents s.queue := by
  intro hmem
  have hb := mem_busy s i c a hc ha
  have hnd := hi.nodup
  unfold held at hnd
  rw [List.append_assoc] at hnd
  exact (List.nodup_append.mp hnd).2.2 hb (List.mem_append_left _ hmem) 

/-- The comparer returns on the new job and the job of every core when no core
is idle. -/
theorem inv_compare_ok (s : State) (hi : Inv s) (rec : job_t)
    (hbusy : ∀ (i : Nat) (c : core_t), s.core_array[i]? = some c → c.active_job_id ≠ -1)
    (i : Nat) (c : core_t) (hc : s.core_array[i]? = some c) :
    ∃ r, c.active_job = some r ∧ r < s.heap.length ∧
      ∃ w, call_comparer (s.heap ++ [rec]) s.compare_func (some s.heap.length)
        c.active_job = .ok w := by
  cases hj : c.active_job with
  | none => exact absurd (hi.idle_id i c hc hj) (hbusy i c hc)
  | some r =>
    obtain ⟨a, ha, hlt⟩ := hi.valid (some r) (mem_held_busy s _ (mem_busy s i c r hc hj))
    simp only [Option.some.injEq] at ha; subst ha
    refine ⟨r, rfl, hlt, ?_⟩
    exact call_comparer_ok _ _ _ _ (by simp) (by simp; omega)

theorem moves_new_job (fuel : Nat) (s s1 : State) (hi : Inv s)
    (job_number time running_time priority r : Int)
    (h : scheduler_new_job fuel s job_number time running_time priority = .ok (s1, r)) :
    Moves s (.new_job job_number time running_time priority) s1 r := by
  have hw := hi.waiting
  have hwlt : ((contents s.queue).length : Int) < 64 := by
    have := hw.2.1; rw [hi.waiting_size] at this; exact this
  rcases idle_scan_total s.core_array with ⟨_, hbusy⟩ | ⟨x, core, _, hx, hidle, hlow⟩
  · -- no idle core
    have hok : ∀ (i : Nat) (c : core_t), s.core_array[i]? = some c →
        ∃ w, call_comparer (s.heap ++ [new_job_record job_number time running_time priority])
          s.compare_func (some s.heap.length) c.active_job = .ok w := by
      intro i c hc
      obtain ⟨_, _, _, hw⟩ := inv_compare_ok s hi _ hbusy i c hc
      exact hw
    have enq : ∀ (hnp : ¬ (s.active_scheme = .PPRI ∨ s.active_scheme = .PSJF) ∨
        (∀ (i : Nat) (c : core_t), s.core_array[i]? = some c →
          ∃ w, call_comparer (s.heap ++ [new_job_record job_number time running_time priority])
            s.compare_func (some s.heap.length) c.active_job = .ok w ∧ 0 ≤ w)),
        Moves s (.new_job job_number time running_time priority) s1 r := by
      intro hnp
      by_cases hcap : (contents s.queue).length ≤ 62
      · obtain ⟨s2, k, e1, e2, e3, e4, e5, e6, e7, e8, e9, e10, e11, e12, e13, e14⟩ :=
          new_job_enqueue_within fuel s job_number time running_time priority _ hi.cores hbusy
            hnp hw (inv_waiting_valid s hi) (by rw [hi.waiting_size]; omega)
        rw [e1] at h
        simp only [Except.ok.injEq, Prod.mk.injEq] at h
        obtain ⟨rfl, rfl⟩ := h
        exact Moves.enqueue _ _ _ _ k _ hbusy hnp e4 e14 e2 e3 e5 e6
          ⟨e7, e8, e9, e10, e11, e12, e13⟩
      · have e1 := new_job_enqueue_at_capacity fuel s job_number time running_time priority _
          hi.cores hbusy hnp hw (inv_waiting_valid s hi) (by rw [hi.waiting_size]; omega)
          (by omega)
        rw [e1] at h; cases h
    by_cases hs : s.active_scheme = .PPRI ∨ s.active_scheme = .PSJF
    · rcases preempt_scan_total _ s.compare_func s.core_array (some s.heap.length) hok with
        ⟨_, hnone⟩ | ⟨x, core, v, _, hx, hcmp, hneg, hlow⟩
      · exact enq (Or.inr hnone)
      · obtain ⟨r0, hr, hrlt, _⟩ := inv_compare_ok s hi
          (new_job_record job_number time running_time priority) hbusy x core hx
        obtain ⟨R, hR⟩ : ∃ R, s.heap[r0]? = some R := ⟨_, List.getElem?_eq_getElem hrlt⟩
        rw [hr] at hcmp
        by_cases hcap : (contents s.queue).length ≤ 62
        · obtain ⟨s2, k, e1, e2, e3, e4, e5, e6, e7, e8, e9, e10, e11, e12, e13⟩ :=
            new_job_preempt_within fuel s job_number time running_time priority _ x core r0 R v
              hs hi.cores hbusy hx hr hR hcmp hneg hlow hw (inv_waiting_valid s hi)
              (by rw [hi.waiting_size]; omega)
          rw [e1] at h
          simp only [Except.ok.injEq, Prod.mk.injEq] at h
          obtain ⟨rfl, rfl⟩ := h
          exact Moves.preempt _ _ _ _ x core r0 R v k _ hs hbusy hx hr hR hcmp hneg hlow e4 e2
            e3 e5 e6 ⟨e7, e8, e9, e10, e11, e12, e13⟩
        · have e1 := new_job_preempt_at_capacity fuel s job_number time running_time priority _
            x core r0 R v hs hi.cores hbusy hx hr hR hcmp hneg hlow hw (inv_waiting_valid s hi)
            (by rw [hi.waiting_size]; omega) (by omega)
          rw [e1] at h; cases h
    · exact enq (Or.inl hs)
  · obtain ⟨s2, e1, e2, e3, e4, e5, e6, e7, e8⟩ := new_job_idle_within fuel s job_number time
      running_time priority x core hi.cores hx hidle hlow
    rw [e1] at h
    simp only [Except.ok.injEq, Prod.mk.injEq] at h
    obtain ⟨rfl, rfl⟩ := h
    exact Moves.place _ _ _ _ x core _ hx hidle hlow e2 e3 e4 e5
      ⟨e6, e7, e8, by rw [e4], by rw [e4], by rw [e5], by rw [e5]⟩

theorem moves_job_finished (fuel : Nat) (s s1 : State) (hi : Inv s)
    (core_id job_number time r : Int)
    (h : scheduler_job_finished fuel s core_id job_number time = .ok (s1, r)) :
    Moves s (.job_finished core_id job_number time) s1 r := by
  cases hrd : rd s.core_array core_id with
  | error e =>
    unfold scheduler_job_finished at h
    simp [hrd, bind, Except.bind] at h
  | ok core =>
    obtain ⟨x, rfl, hx⟩ := (rd_ok_iff _ _ _).mp hrd
    cases ha : core.active_job with
    | none =>
      unfold scheduler_job_finished at h
      simp [hrd, ha, modify, bind, Except.bind] at h
    | some a =>
      obtain ⟨a1, ha1, hlt⟩ := hi.valid (some a) (mem_held_busy s _ (mem_busy s x core a hx ha))
      simp only [Option.some.injEq] at ha1; subst ha1
      obtain ⟨J, hJ⟩ : ∃ J, s.heap[a]? = some J := ⟨_, List.getElem?_eq_getElem hlt⟩
      have hc := hi.completed
      have hclt : ((contents s.completed_queue).length : Int) < 64 := by
        have := hc.2.1; rw [hi.completed_size] at this; exact this
      by_cases hcap : (contents s.completed_queue).length ≤ 62
      · have hboth := job_finished_within fuel s x job_number time core a J
          (contents s.completed_queue) (contents s.queue) hx ha hJ hc
          (inv_completed_valid s hi) (by rw [hi.completed_size]; omega) hi.waiting
          (inv_not_waiting s hi x core a hx ha)
        cases hw : contents s.queue with
        | nil =>
          obtain ⟨s2, k, e1, e2, e3, e4, e5, e6, e7, e8, e9, e10, e11, e12, e13⟩ := hboth.1 hw
          rw [e1] at h
          simp only [Except.ok.injEq, Prod.mk.injEq] at h
          obtain ⟨rfl, rfl⟩ := h
          exact Moves.finish_idle x _ _ core a J k _ hx ha hJ hw e5 e2 e3 e4 e6
            ⟨e7, e8, e9, e10, e11, e12, e13⟩
        | cons p rest =>
          obtain ⟨b, hb, hblt⟩ := inv_waiting_valid s hi p (by rw [hw]; simp)
          subst hb
          obtain ⟨H, hH⟩ : ∃ H, s.heap[b]? = some H := ⟨_, List.getElem?_eq_getElem hblt⟩
          obtain ⟨s2, k, e1, e2, e3, e4, e5, e6, e7, e8, e9, e10, e11, e12, e13⟩ :=
            hboth.2 b rest H hw hH
          rw [e1] at h
          simp only [Except.ok.injEq, Prod.mk.injEq] at h
          obtain ⟨rfl, rfl⟩ := h
          exact Moves.finish_next x _ _ core a J b H rest k _ hx ha hJ hw hH e5 e2 e3 e4 e6
            ⟨e7, e8, e9, e10, e11, e12, e13⟩
      · have e1 := job_finished_at_capacity fuel s x job_number time core a J _ hx ha hJ hc
          (inv_completed_valid s hi) (by rw [hi.completed_size]; omega) (by omega)
        rw [e1] at h; cases h

theorem moves_quantum_expired (fuel : Nat) (s s1 : State) (hi : Inv s)
    (core_id time r : Int)
    (h : scheduler_quantum_expired fuel s core_id time = .ok (s1, r)) :
    Moves s (.quantum_expired core_id time) s1 r := by
  have hq := hi.waiting
  have hpeek := peek_holds s.queue _ hq
  cases hrd : rd s.core_array core_id with
  | error e =>
    unfold scheduler_quantum_expired at h
    simp [hrd, hpeek, bind, Except.bind] at h
  | ok core =>
    obtain ⟨x, rfl, hx⟩ := (rd_ok_iff _ _ _).mp hrd
    have hqlt : ((contents s.queue).length : Int) < 64 := by
      have := hq.2.1; rw [hi.waiting_size] at this; exact this
    cases hw : contents s.queue with
    | nil =>
      have hn : s.queue.m_num_entries = 0 := by
        have := hq.1; rw [hw] at this; simpa using this
      rw [quantum_expired_keep fuel s _ time core hn hrd] at h
      simp only [Except.ok.injEq, Prod.mk.injEq] at h
      obtain ⟨rfl, rfl⟩ := h
      exact Moves.keep x time core hx hw
    | cons p rest =>
      obtain ⟨b, hb, hblt⟩ := inv_waiting_valid s hi p (by rw [hw]; simp)
      subst hb
      obtain ⟨H, hH⟩ : ∃ H, s.heap[b]? = some H := ⟨_, List.getElem?_eq_getElem hblt⟩
      rw [hw] at hq hpeek hqlt
      have hvalid : AllValid s.heap (some b :: rest) := by
        have := inv_waiting_valid s hi; rw [hw] at this; exact this
      cases ha : core.active_job with
      | none =>
        have hxlen : x < s.core_array.length := (List.getElem?_eq_some_iff.mp hx).1
        unfold scheduler_quantum_expired at h
        simp [hrd, hpeek, ha, modify, wr_eq_ok _ _ _ hxlen, bind, Except.bind] at h
      | some a =>
        obtain ⟨a1, ha1, hlt⟩ := hi.valid (some a)
          (mem_held_busy s _ (mem_busy s x core a hx ha))
        simp only [Option.some.injEq] at ha1; subst ha1
        obtain ⟨J, hJ⟩ : ∃ J, s.heap[a]? = some J := ⟨_, List.getElem?_eq_getElem hlt⟩
        have hna : some a ∉ some b :: rest := by
          have := inv_not_waiting s hi x core a hx ha; rw [hw] at this; exact this
        simp only [List.length_cons] at hqlt
        push_cast at hqlt
        by_cases hcap : rest.length ≤ 61
        · rcases quantum_expired_any fuel s x time core a J b H rest hx ha hJ hq hvalid hH hna
            (by rw [hi.waiting_size]; omega) with
            ⟨s2, e1, e2, e3, e4, e5, e6, e7, e8, e9, e10⟩ |
            ⟨s2, k, e1, e2, e3, e4, e5, e6, e7, e8, e9, e10, e11⟩
          · rw [e1] at h
            simp only [Except.ok.injEq, Prod.mk.injEq] at h
            obtain ⟨rfl, rfl⟩ := h
            exact Moves.rotate_back x time core a J _ hx ha hJ (by rw [hw]; simp) e2 e3
              (by rw [hw]; exact e4) e5 ⟨e6, e7, e8, e9, e10, by rw [e5], by rw [e5]⟩
          · rw [e1] at h
            simp only [Except.ok.injEq, Prod.mk.injEq] at h
            obtain ⟨rfl, rfl⟩ := h
            exact Moves.rotate x time core a J b H rest k _ hx ha hJ hw hH e4 e2 e3 e5 e6
              ⟨e7, e8, e9, e10, e11, by rw [e6], by rw [e6]⟩
        · have e1 := quantum_expired_at_capacity fuel s x time core a J b rest hx ha hJ hq
            hvalid (by rw [hi.waiting_size]; omega) (by omega)
          rw [e1] at h; cases h

/-- Every call of an event handler that returns, from a state of the shape
`Inv`, is one of the moves. -/
theorem moves_of_step (fuel : Nat) (s s1 : State) (hi : Inv s) (e : event) (r : Int)
    (h : step fuel s e = .ok (s1, r)) : Moves s e s1 r := by
  cases e with
  | new_job j t rt p => exact moves_new_job fuel s s1 hi j t rt p r h
  | job_finished c j t => exact moves_job_finished fuel s s1 hi c j t r h
  | quantum_expired c t => exact moves_quantum_expired fuel s s1 hi c t r h

end to_moves

/-! ## The shape `Inv` is kept -/

section invariant

theorem map_set_same {β γ : Type} (g : β → γ) (l : List β) (a : Nat) (J J1 : β)
    (h : l[a]? = some J) (hg : g J1 = g J) : (l.set a J1).map g = l.map g := by
  rw [List.map_set, hg]
  apply List.ext_getElem?
  intro i
  rw [List.getElem?_set]
  by_cases hi : a = i
  · subst hi
    obtain ⟨ha, he⟩ := List.getElem?_eq_some_iff.mp h
    simp [ha, he]
  · simp [hi]

theorem origin_placed (j : job_t) (x t : Int) : origin (placed j x t) = origin j := rfl
theorem origin_preempted (j : job_t) (t : Int) : origin (preempted j t) = origin j := rfl
theorem origin_finished (j : job_t) (t : Int) : origin (finished j t) = origin j := rfl
theorem origin_dispatched (j : job_t) (x t : Int) : origin (dispatched j x t) = origin j := rfl
theorem origin_rotated (j : job_t) (t : Int) : origin (rotated j t) = origin j := rfl

theorem arrived_append (l1 l2 : List event) : arrived (l1 ++ l2) = arrived l1 ++ arrived l2 := by
  induction l1 with
  | nil => rfl
  | cons e t ih => cases e <;> simp [arrived, ih]

/-- The records of the heap keep their ids and arrival times, and an arrival
adds one record. -/
theorem moves_heap (s s1 : State) (e : event) (r : Int) (hm : Moves s e s1 r) :
    s1.heap.map origin = s.heap.map origin ++ arrived [e] := by
  cases hm with
  | place job_number time running_time priority x core _ hx hidle hlow hheap hcores hq hc hf =>
    rw [hheap]; simp [arrived, origin_placed]; rfl
  | preempt job_number time running_time priority x core r0 R v k _ hs hbusy hx hr hR hcmp hneg
      hlow hk hheap hcores hq hc hf =>
    rw [hheap, List.map_append, map_set_same origin _ _ R _ hR (origin_preempted R time)]
    simp [arrived, origin_placed]; rfl
  | enqueue job_number time running_time priority k _ hbusy hnp hk hland hheap hcores hq hc hf =>
    rw [hheap]; simp [arrived]; rfl
  | finish_idle x job_number time core a J k _ hx ha hJ hw hk hheap hcores hq hc hf =>
    rw [hheap, map_set_same origin _ _ J _ hJ (origin_finished J time)]; simp [arrived]
  | finish_next x job_number time core a J h H rest k _ hx ha hJ hw hH hk hheap hcores hq hc hf =>
    have hH1 : ∃ H1, (s.heap.set a (finished J time))[h]? = some H1 ∧ origin H1 = origin H := by
      rw [List.getElem?_set]
      by_cases hah : a = h
      · subst hah
        rw [hJ] at hH; cases hH
        have := (List.getElem?_eq_some_iff.mp hJ).1
        exact ⟨finished J time, by simp [this], origin_finished _ _⟩
      · exact ⟨H, by simp [hah, hH], rfl⟩
    obtain ⟨H1, hH1, ho⟩ := hH1
    rw [hheap, map_set_same origin _ _ H1 _ hH1 (by rw [origin_dispatched, ho]),
      map_set_same origin _ _ J _ hJ (origin_finished J time)]
    simp [arrived]
  | keep x time core hx hw => simp [arrived]
  | rotate_back x time core a J _ hx ha hJ hw hheap hcores hq hc hf =>
    rw [hheap, map_set_same origin _ _ J _ hJ (by rw [origin_dispatched, origin_rotated])]
    simp [arrived]
  | rotate x time core a J h H rest k _ hx ha hJ hw hH hk hheap hcores hq hc hf =>
    have hH1 : ∃ H1, (s.heap.set a (rotated J time))[h]? = some H1 ∧ origin H1 = origin H := by
      rw [List.getElem?_set]
      by_cases hah : a = h
      · subst hah
        rw [hJ] at hH; cases hH
        have := (List.getElem?_eq_some_iff.mp hJ).1
        exact ⟨rotated J time, by simp [this], origin_rotated _ _⟩
      · exact ⟨H, by simp [hah, hH], rfl⟩
    obtain ⟨H1, hH1, ho⟩ := hH1
    rw [hheap, map_set_same origin _ _ H1 _ hH1 (by rw [origin_dispatched, ho]),
      map_set_same origin _ _ J _ hJ (origin_rotated J time)]
    simp [arrived]

theorem moves_frame (s s1 : State) (e : event) (r : Int) (hm : Moves s e s1 r) :
    Frame s s1 := by
  cases hm <;> first | assumption | exact ⟨rfl, rfl, rfl, rfl, rfl, rfl, rfl⟩

theorem perm_of_coe {β : Type} {l1 l2 : List β} (h : (l1 : Multiset β) = (l2 : Multiset β)) :
    l1.Perm l2 := Multiset.coe_eq_coe.mp h

theorem take_drop_split {β : Type} (l : List β) (k : Nat) :
    ∃ T D, l = T ++ D ∧ l.take k = T ∧ l.drop k = D :=
  ⟨l.take k, l.drop k, (List.take_append_drop k l).symm, rfl, rfl⟩

theorem filter_cons_split {β : Type} (p : β → Bool) (a : β) (l : List β) :
    (a :: l).filter p = [a].filter p ++ l.filter p := by
  rw [← List.filter_append]; rfl

theorem busy_split (s s1 : State) (x : Nat) (core c1 : core_t)
    (hx : s.core_array[x]? = some core) (h1 : s1.core_array = s.core_array.set x c1) :
    ∃ A B, busy s = A ++ ([core.active_job].filter (fun p => p.isSome) ++ B) ∧
      busy s1 = A ++ ([c1.active_job].filter (fun p => p.isSome) ++ B) := by
  obtain ⟨pre, post, hl, hlen⟩ := split_at _ _ _ hx
  refine ⟨(pre.map (fun c => c.active_job)).filter (fun p => p.isSome),
    (post.map (fun c => c.active_job)).filter (fun p => p.isSome), ?_, ?_⟩
  · unfold busy
    rw [hl, List.map_append, List.filter_append, List.map_cons, filter_cons_split]
  · unfold busy
    have hset : s.core_array.set x c1 = pre ++ c1 :: post := by
      rw [hl, ← hlen]; simp
    rw [h1, hset, List.map_append, List.filter_append, List.map_cons, filter_cons_split]

/-- What a move does to the pointers the scheduler holds: an arrival adds the
new record, nothing else comes in, and nothing goes out unless the arrival was
placed over a running job. -/
theorem moves_held (s s1 : State) (e : event) (r : Int) (hi : Inv s) (hm : Moves s e s1 r) :
    ∃ L, L.Sublist (held s) ∧
      (held s1).Perm ((arrived [e]).map (fun _ => some s.heap.length) ++ L) ∧
      ((∀ j ∈ s.heap, j.job_id ≠ -1) → L.Perm (held s)) := by
  cases hm with
  | place job_number time running_time priority x core _ hx hidle hlow hheap hcores hq hc hf =>
    obtain ⟨A, B, hb, hb1⟩ := busy_split s s1 x core _ hx hcores
    simp only [List.filter_cons, Option.isSome_some, if_true, List.filter_nil] at hb1
    refine ⟨A ++ (B ++ (contents s.queue ++ contents s.completed_queue)), ?_, ?_, ?_⟩
    · unfold held
      rw [hb]
      simp only [List.append_assoc]
      exact (List.Sublist.refl A).append (List.sublist_append_right _ _)
    · unfold held
      rw [hb1, hq, hc]
      apply perm_of_coe
      simp only [arrived, List.map_cons, List.map_nil, ← Multiset.coe_add, ← Multiset.cons_coe,
        ← Multiset.singleton_add, Multiset.coe_nil]
      abel
    · intro hid
      have hnone : core.active_job = none := by
        cases hj : core.active_job with
        | none => rfl
        | some a =>
          obtain ⟨j, hj1, hj2⟩ := hi.busy_id x core a hx hj
          exact absurd (hj2.symm.trans hidle) (hid j (List.getElem?_mem hj1))
      unfold held
      rw [hb, hnone]
      simp
  | preempt job_number time running_time priority x core r0 R v k _ hs hbusy hx hr hR hcmp hneg
      hlow hk hheap hcores hq hc hf =>
    obtain ⟨A, B, hb, hb1⟩ := busy_split s s1 x core _ hx hcores
    rw [hr] at hb
    simp only [List.filter_cons, Option.isSome_some, if_true, List.filter_nil] at hb hb1
    obtain ⟨T, D, hTD, hT, hD⟩ := take_drop_split (contents s.queue) k
    rw [hT, hD] at hq
    refine ⟨held s, List.Sublist.refl _, ?_, fun _ => List.Perm.refl _⟩
    unfold held
    rw [hb1, hb, holds_contents _ _ hq, hc, hTD]
    apply perm_of_coe
    simp only [arrived, List.map_cons, List.map_nil, ← Multiset.coe_add, ← Multiset.cons_coe,
      ← Multiset.singleton_add, Multiset.coe_nil]
    abel
  | enqueue job_number time running_time priority k _ hbusy hnp hk hland hheap hcores hq hc hf =>
    obtain ⟨T, D, hTD, hT, hD⟩ := take_drop_split (contents s.queue) k
    rw [hT, hD] at hq
    refine ⟨held s, List.Sublist.refl _, ?_, fun _ => List.Perm.refl _⟩
    unfold held busy
    rw [hcores, holds_contents _ _ hq, hc, hTD]
    apply perm_of_coe
    simp only [arrived, List.map_cons, List.map_nil, ← Multiset.coe_add, ← Multiset.cons_coe,
      ← Multiset.singleton_add, Multiset.coe_nil]
    abel
  | finish_idle x job_number time core a J k _ hx ha hJ hw hk hheap hcores hq hc hf =>
    obtain ⟨A, B, hb, hb1⟩ := busy_split s s1 x core _ hx hcores
    rw [ha] at hb
    simp only [List.filter_cons, Option.isSome_some, Option.isSome_none, if_true,
      List.filter_nil] at hb hb1
    obtain ⟨T, D, hTD, hT, hD⟩ := take_drop_split (contents s.completed_queue) k
    rw [hT, hD] at hc
    refine ⟨held s, List.Sublist.refl _, ?_, fun _ => List.Perm.refl _⟩
    unfold held
    rw [hb1, hb, holds_contents _ _ hc, hq, hTD]
    apply perm_of_coe
    simp only [arrived, List.map_cons, List.map_nil, ← Multiset.coe_add, ← Multiset.cons_coe,
      ← Multiset.singleton_add, Multiset.coe_nil]
    abel
  | finish_next x job_number time core a J h H rest k _ hx ha hJ hw hH hk hheap hcores hq hc hf =>
    obtain ⟨A, B, hb, hb1⟩ := busy_split s s1 x core _ hx hcores
    rw [ha] at hb
    simp only [List.filter_cons, Option.isSome_some, Option.isSome_none, if_true,
      List.filter_nil] at hb hb1
    obtain ⟨T, D, hTD, hT, hD⟩ := take_drop_split (contents s.completed_queue) k
    rw [hT, hD] at hc
    refine ⟨held s, List.Sublist.refl _, ?_, fun _ => List.Perm.refl _⟩
    unfold held
    rw [hb1, hb, holds_contents _ _ hc, holds_contents _ _ hq, hw, hTD]
    apply perm_of_coe
    simp only [arrived, List.map_cons, List.map_nil, ← Multiset.coe_add, ← Multiset.cons_coe,
      ← Multiset.singleton_add, Multiset.coe_nil]
    abel
  | keep x time core hx hw =>
    exact ⟨held s, List.Sublist.refl _, by simp [arrived], fun _ => List.Perm.refl _⟩
  | rotate_back x time core a J _ hx ha hJ hw hheap hcores hq hc hf =>
    obtain ⟨A, B, hb, hb1⟩ := busy_split s s1 x core _ hx hcores
    rw [ha] at hb
    simp only [List.filter_cons, Option.isSome_some, Option.isSome_none, if_true,
      List.filter_nil] at hb hb1
    refine ⟨held s, List.Sublist.refl _, ?_, fun _ => List.Perm.refl _⟩
    unfold held
    rw [hb1, hb, holds_contents _ _ hq, hc]
    simp [arrived]
  | rotate x time core a J h H rest k _ hx ha hJ hw hH hk hheap hcores hq hc hf =>
    obtain ⟨A, B, hb, hb1⟩ := busy_split s s1 x core _ hx hcores
    rw [ha] at hb
    simp only [List.filter_cons, Option.isSome_some, Option.isSome_none, if_true,
      List.filter_nil] at hb hb1
    obtain ⟨T, D, hTD, hT, hD⟩ := take_drop_split rest k
    rw [hT, hD] at hq
    refine ⟨held s, List.Sublist.refl _, ?_, fun _ => List.Perm.refl _⟩
    unfold held
    rw [hb1, hb, holds_contents _ _ hq, hc, hw, hTD]
    apply perm_of_coe
    simp only [arrived, List.map_cons, List.map_nil, ← Multiset.coe_add, ← Multiset.cons_coe,
      ← Multiset.singleton_add, Multiset.coe_nil]
    abel

theorem heap_keeps (h1 h : List job_t) (L : List (Int × Int))
    (hm : h1.map origin = h.map origin ++ L) (a : Nat) (j : job_t) (hj : h[a]? = some j) :
    ∃ j1, h1[a]? = some j1 ∧ origin j1 = origin j := by
  have hlt : a < h.length := (List.getElem?_eq_some_iff.mp hj).1
  have h2 : (h1.map origin)[a]? = some (origin j) := by
    rw [hm, List.getElem?_append_left (by simpa using hlt)]
    simp [hj]
  rw [List.getElem?_map] at h2
  cases h1a : h1[a]? with
  | none => simp [h1a] at h2
  | some j1 => exact ⟨j1, rfl, by simpa [h1a] using h2⟩

theorem heap_length (h1 h : List job_t) (L : List (Int × Int))
    (hm : h1.map origin = h.map origin ++ L) : h1.length = h.length + L.length := by
  have := congrArg List.length hm
  simpa using this

/-- What `Inv` says of one core slot. -/
theorem core_kept (s s1 : State) (hi : Inv s) (L : List (Int × Int))
    (hheap : s1.heap.map origin = s.heap.map origin ++ L)
    (hall : contents s1.queue ≠ [] →
      ∀ (i : Nat) (c : core_t), s.core_array[i]? = some c → c.active_job ≠ none)
    (i : Nat) (c : core_t) (hc : s.core_array[i]? = some c) :
    (c.active_job = none → c.active_job_id = -1) ∧
    (∀ a, c.active_job = some a → ∃ j, s1.heap[a]? = some j ∧ c.active_job_id = j.job_id) ∧
    (contents s1.queue ≠ [] → c.active_job ≠ none) := by
  refine ⟨hi.idle_id i c hc, ?_, fun hne => hall hne i c hc⟩
  intro a ha
  obtain ⟨j, hj, hid⟩ := hi.busy_id i c a hc ha
  obtain ⟨j1, hj1, ho⟩ := heap_keeps _ _ L hheap a j hj
  refine ⟨j1, hj1, ?_⟩
  rw [hid]
  exact (congrArg Prod.fst ho).symm

theorem busy_not_idle (s : State) (hi : Inv s)
    (hbusy : ∀ (i : Nat) (c : core_t), s.core_array[i]? = some c → c.active_job_id ≠ -1)
    (i : Nat) (c : core_t) (hc : s.core_array[i]? = some c) : c.active_job ≠ none :=
  fun hn => hbusy i c hc (hi.idle_id i c hc hn)

/-- After a move every core slot is idle with id `-1`, or holds a job of the
heap with its id; and no slot is idle while a job waits. -/
theorem moves_cores (s s1 : State) (e : event) (r : Int) (hi : Inv s) (hm : Moves s e s1 r) :
    s1.core_array.length = s.core_array.length ∧
    ∀ (i : Nat) (c : core_t), s1.core_array[i]? = some c →
      (c.active_job = none → c.active_job_id = -1) ∧
      (∀ a, c.active_job = some a → ∃ j, s1.heap[a]? = some j ∧ c.active_job_id = j.job_id) ∧
      (contents s1.queue ≠ [] → c.active_job ≠ none) := by
  have hheap0 := moves_heap s s1 e r hm
  cases hm with
  | place job_number time running_time priority x core _ hx hidle hlow hheap hcores hq hc hf =>
    refine ⟨by rw [hcores]; simp, ?_⟩
    intro i c hic
    rw [hcores, List.getElem?_set] at hic
    have hall : contents s1.queue ≠ [] →
        ∀ (i : Nat) (c : core_t), s.core_array[i]? = some c → c.active_job ≠ none := by
      rw [hq]; exact hi.no_wait_idle
    split_ifs at hic with h1 h2
    · cases hic
      refine ⟨by simp, ?_, by simp⟩
      intro a ha
      simp only [Option.some.injEq] at ha; subst ha
      have hnew : s1.heap[s.heap.length]?
          = some (placed (new_job_record job_number time running_time priority) (x : Int) time) := by
        rw [hheap]; simp
      exact ⟨_, hnew, rfl⟩
    · exact core_kept s s1 hi _ hheap0 hall i c hic
  | preempt job_number time running_time priority x core r0 R v k _ hs hbusy hx hr hR hcmp hneg
      hlow hk hheap hcores hq hc hf =>
    refine ⟨by rw [hcores]; simp, ?_⟩
    intro i c hic
    rw [hcores, List.getElem?_set] at hic
    have hall : contents s1.queue ≠ [] →
        ∀ (i : Nat) (c : core_t), s.core_array[i]? = some c → c.active_job ≠ none :=
      fun _ => busy_not_idle s hi hbusy
    split_ifs at hic with h1 h2
    · cases hic
      refine ⟨by simp, ?_, by simp⟩
      intro a ha
      simp only [Option.some.injEq] at ha; subst ha
      have hnew : s1.heap[s.heap.length]?
          = some (placed (new_job_record job_number time running_time priority) (x : Int) time) := by
        rw [hheap]; simp
      exact ⟨_, hnew, rfl⟩
    · exact core_kept s s1 hi _ hheap0 hall i c hic
  | enqueue job_number time running_time priority k _ hbusy hnp hk hland hheap hcores hq hc hf =>
    refine ⟨by rw [hcores], ?_⟩
    intro i c hic
    rw [hcores] at hic
    exact core_kept s s1 hi _ hheap0 (fun _ => busy_not_idle s hi hbusy) i c hic
  | finish_idle x job_number time core a J k _ hx ha hJ hw hk hheap hcores hq hc hf =>
    refine ⟨by rw [hcores]; simp, ?_⟩
    intro i c hic
    rw [hcores, List.getElem?_set] at hic
    have hall : contents s1.queue ≠ [] →
        ∀ (i : Nat) (c : core_t), s.core_array[i]? = some c → c.active_job ≠ none := by
      rw [hq]; exact hi.no_wait_idle
    split_ifs at hic with h1 h2
    · cases hic
      refine ⟨by simp, by simp, ?_⟩
      rw [hq, hw]; simp
    · exact core_kept s s1 hi _ hheap0 hall i c hic
  | finish_next x job_number time core a J h H rest k _ hx ha hJ hw hH hk hheap hcores hq hc hf =>
    refine ⟨by rw [hcores]; simp, ?_⟩
    intro i c hic
    rw [hcores, List.getElem?_set] at hic
    have hall : contents s1.queue ≠ [] →
        ∀ (i : Nat) (c : core_t), s.core_array[i]? = some c → c.active_job ≠ none :=
      fun _ => hi.no_wait_idle (by rw [hw]; simp)
    have hlt : h < s.heap.length := (List.getElem?_eq_some_iff.mp hH).1
    split_ifs at hic with h1 h2
    · cases hic
      refine ⟨by simp, ?_, by simp⟩
      intro b hb
      simp only [Option.some.injEq] at hb; subst hb
      exact ⟨dispatched H (x : Int) time, by rw [hheap]; simp [hlt], rfl⟩
    · exact core_kept s s1 hi _ hheap0 hall i c hic
  | keep x time core hx hw =>
    refine ⟨rfl, ?_⟩
    intro i c hic
    exact ⟨hi.idle_id i c hic, fun a => hi.busy_id i c a hic,
      fun hne => hi.no_wait_idle hne i c hic⟩
  | rotate_back x time core a J _ hx ha hJ hw hheap hcores hq hc hf =>
    refine ⟨by rw [hcores]; simp, ?_⟩
    intro i c hic
    rw [hcores, List.getElem?_set] at hic
    have hall : contents s1.queue ≠ [] →
        ∀ (i : Nat) (c : core_t), s.core_array[i]? = some c → c.active_job ≠ none :=
      fun _ => hi.no_wait_idle hw
    have hlt : a < s.heap.length := (List.getElem?_eq_some_iff.mp hJ).1
    split_ifs at hic with h1 h2
    · cases hic
      refine ⟨by simp, ?_, by simp⟩
      intro b hb
      simp only [Option.some.injEq] at hb; subst hb
      exact ⟨dispatched (rotated J time) (x : Int) time, by rw [hheap]; simp [hlt], rfl⟩
    · exact core_kept s s1 hi _ hheap0 hall i c hic
  | rotate x time core a J h H rest k _ hx ha hJ hw hH hk hheap hcores hq hc hf =>
    refine ⟨by rw [hcores]; simp, ?_⟩
    intro i c hic
    rw [hcores, List.getElem?_set] at hic
    have hall : contents s1.queue ≠ [] →
        ∀ (i : Nat) (c : core_t), s.core_array[i]? = some c → c.active_job ≠ none :=
      fun _ => hi.no_wait_idle (by rw [hw]; simp)
    have hlt : h < s.heap.length := (List.getElem?_eq_some_iff.mp hH).1
    split_ifs at hic with h1 h2
    · cases hic
      refine ⟨by simp, ?_, by simp⟩
      intro b hb
      simp only [Option.some.injEq] at hb; subst hb
      exact ⟨dispatched H (x : Int) time, by rw [hheap]; simp [hlt], rfl⟩
    · exact core_kept s s1 hi _ hheap0 hall i c hic

theorem moves_queues (s s1 : State) (e : event) (r : Int) (hi : Inv s) (hm : Moves s e s1 r) :
    Holds s1.queue (contents s1.queue) ∧
      Holds s1.completed_queue (contents s1.completed_queue) := by
  have hw := hi.waiting
  have hc := hi.completed
  cases hm with
  | place job_number time running_time priority x core _ hx hidle hlow hheap hcores hq hc1 hf =>
    rw [hq, hc1]; exact ⟨hw, hc⟩
  | preempt job_number time running_time priority x core r0 R v k _ hs hbusy hx hr hR hcmp hneg
      hlow hk hheap hcores hq hc1 hf =>
    rw [hc1]; exact ⟨holds_unique _ _ hq, hc⟩
  | enqueue job_number time running_time priority k _ hbusy hnp hk hland hheap hcores hq hc1 hf =>
    rw [hc1]; exact ⟨holds_unique _ _ hq, hc⟩
  | finish_idle x job_number time core a J k _ hx ha hJ hw1 hk hheap hcores hq hc1 hf =>
    rw [hq]; exact ⟨hw, holds_unique _ _ hc1⟩
  | finish_next x job_number time core a J h H rest k _ hx ha hJ hw1 hH hk hheap hcores hq hc1
      hf =>
    exact ⟨holds_unique _ _ hq, holds_unique _ _ hc1⟩
  | keep x time core hx hw1 => exact ⟨hw, hc⟩
  | rotate_back x time core a J _ hx ha hJ hw1 hheap hcores hq hc1 hf =>
    rw [hc1]; exact ⟨holds_unique _ _ hq, hc⟩
  | rotate x time core a J h H rest k _ hx ha hJ hw1 hH hk hheap hcores hq hc1 hf =>
    rw [hc1]; exact ⟨holds_unique _ _ hq, hc⟩

/-- The shape `Inv` is kept by every move. -/
theorem inv_moves (s s1 : State) (e : event) (r : Int) (hi : Inv s) (hm : Moves s e s1 r) :
    Inv s1 := by
  obtain ⟨f1, f2, f3, f4, f5, f6, f7⟩ := moves_frame s s1 e r hm
  have hheap := moves_heap s s1 e r hm
  have hlen := heap_length _ _ _ hheap
  obtain ⟨L, hsub, hperm, hfull⟩ := moves_held s s1 e r hi hm
  obtain ⟨hcl, hcores⟩ := moves_cores s s1 e r hi hm
  obtain ⟨hq, hc⟩ := moves_queues s s1 e r hi hm
  have hLv : ∀ p ∈ L, ∃ a, p = some a ∧ a < s.heap.length :=
    fun p hp => hi.valid p (hsub.subset hp)
  have hnew : ∀ p ∈ (arrived [e]).map (fun _ => some s.heap.length),
      p = some s.heap.length ∧ (arrived [e]).length = 1 := by
    intro p hp
    cases e <;> simp [arrived] at hp ⊢
    exact hp
  refine ⟨by rw [f3, hcl]; exact hi.cores, hq, hc, by rw [f4]; exact hi.waiting_size,
    by rw [f6]; exact hi.completed_size, ?_, ?_, fun i c h => (hcores i c h).1,
    fun i c a h => (hcores i c h).2.1 a, fun hne i c h => (hcores i c h).2.2 hne, ?_⟩
  · rw [hperm.nodup_iff, List.nodup_append]
    refine ⟨?_, hi.nodup.sublist hsub, ?_⟩
    · cases e <;> simp [arrived]
    · intro p hp1 hp2
      obtain ⟨a, ha, hlt⟩ := hLv p hp2
      rw [(hnew p hp1).1] at ha
      simp only [Option.some.injEq] at ha
      omega
  · intro p hp
    rcases List.mem_append.mp (hperm.subset hp) with h1 | h1
    · obtain ⟨hp1, hl1⟩ := hnew p h1
      exact ⟨_, hp1, by rw [hlen, hl1]; omega⟩
    · obtain ⟨a, ha, hlt⟩ := hLv p h1
      exact ⟨a, ha, by rw [hlen]; omega⟩
  · intro hid a ha
    have hid0 : ∀ j ∈ s.heap, j.job_id ≠ -1 := by
      intro j hj
      obtain ⟨b, hb⟩ := List.getElem?_of_mem hj
      obtain ⟨j1, hj1, ho⟩ := heap_keeps _ _ _ hheap b j hb
      have h3 : j1.job_id = j.job_id := congrArg Prod.fst ho
      rw [← h3]
      exact hid j1 (List.getElem?_mem hj1)
    apply hperm.symm.subset
    rw [List.mem_append]
    by_cases hlt : a < s.heap.length
    · right
      exact (hfull hid0).symm.subset (hi.present hid0 a hlt)
    · left
      have hl1 : (arrived [e]).length = 1 := by
        rw [hlen] at ha
        cases e <;> simp [arrived] at ha ⊢
        all_goals omega
      have ha1 : a = s.heap.length := by rw [hlen, hl1] at ha; omega
      subst ha1
      cases e <;> simp [arrived] at hl1 ⊢

end invariant

/-! ## Reachable states -/

section reachable

theorem inv_start_up (cores : Int) (scheme : scheme_t) (h : 0 ≤ cores) :
    Inv (scheduler_start_up cores scheme) := by
  have hb : busy (scheduler_start_up cores scheme) = [] := by
    unfold busy
    rw [List.filter_eq_nil_iff]
    intro p hp
    simp only [scheduler_start_up, List.map_map, List.mem_map] at hp
    obtain ⟨_, _, rfl⟩ := hp
    simp
  have hq : contents (scheduler_start_up cores scheme).queue = [] :=
    holds_contents _ _ (holds_init _)
  have hc : contents (scheduler_start_up cores scheme).completed_queue = [] :=
    holds_contents _ _ (holds_init _)
  have hh : held (scheduler_start_up cores scheme) = [] := by
    unfold held; rw [hb, hq, hc]; rfl
  refine ⟨?_, holds_unique _ _ (holds_init _), holds_unique _ _ (holds_init _), rfl, rfl, ?_, ?_,
    ?_, ?_, ?_, ?_⟩
  · have hl : (scheduler_start_up cores scheme).core_array.length = cores.toNat := by
      simp [scheduler_start_up, Function.comp_def]
    have hm : (scheduler_start_up cores scheme).m_num_cores = cores := rfl
    rw [hm, hl, Int.toNat_of_nonneg h]
  · rw [hh]; exact List.nodup_nil
  · rw [hh]; intro p hp; cases hp
  · intro i c hic _
    have := List.getElem?_mem hic
    simp only [scheduler_start_up, List.mem_map] at this
    obtain ⟨_, _, rfl⟩ := this
    rfl
  · intro i c a hic ha
    have := List.getElem?_mem hic
    simp only [scheduler_start_up, List.mem_map] at this
    obtain ⟨_, _, rfl⟩ := this
    cases ha
  · intro hne; exact absurd hq hne
  · intro _ a ha
    simp [scheduler_start_up] at ha

theorem run_cons (fuel : Nat) (e : event) (rest : List event) (s s1 : State) (rs : List Int)
    (h : run fuel (e :: rest) s = .ok (s1, rs)) :
    ∃ s2 r rs2, step fuel s e = .ok (s2, r) ∧ run fuel rest s2 = .ok (s1, rs2) ∧
      rs = r :: rs2 := by
  unfold run at h
  cases hstep : step fuel s e with
  | error err => simp [hstep, bind, Except.bind] at h
  | ok p =>
    obtain ⟨s2, r⟩ := p
    cases hrun : run fuel rest s2 with
    | error err => simp [hstep, hrun, bind, Except.bind] at h
    | ok q =>
      obtain ⟨s3, rs2⟩ := q
      simp [hstep, hrun, bind, Except.bind, pure, Except.pure] at h
      exact ⟨s2, r, rs2, rfl, by rw [hrun, h.1], h.2.symm⟩

/-- Every run that returns keeps the shape `Inv`, and its heap holds one record
for each arrival, in the order of the arrivals. -/
theorem run_inv (fuel : Nat) : ∀ (evs : List event) (s s1 : State) (rs : List Int), Inv s →
    run fuel evs s = .ok (s1, rs) →
    Inv s1 ∧ s1.heap.map origin = s.heap.map origin ++ arrived evs
  | [], s, s1, rs, hi, h => by
    simp only [run, pure, Except.pure, Except.ok.injEq, Prod.mk.injEq] at h
    obtain ⟨rfl, _⟩ := h
    exact ⟨hi, by simp [arrived]⟩
  | e :: rest, s, s1, rs, hi, h => by
    obtain ⟨s2, r, rs2, hstep, hrun, _⟩ := run_cons fuel e rest s s1 rs h
    have hm := moves_of_step fuel s s2 hi e r hstep
    obtain ⟨hi1, hh1⟩ := run_inv fuel rest s2 s1 rs2 (inv_moves s s2 e r hi hm) hrun
    refine ⟨hi1, ?_⟩
    rw [hh1, moves_heap s s2 e r hm, List.append_assoc, ← arrived_append]
    rfl

theorem heap_ids (heap : List job_t) (l : List (Int × Int)) (h : heap.map origin = l) :
    heap.map (fun j => j.job_id) = l.map (fun p => p.1) := by
  rw [← h, List.map_map]; rfl

/-- No pointer sits in two core slots when the busy slots hold distinct pointers. -/
theorem slots_distinct (s : State) (h : (busy s).Nodup) (i j : Nat) (c d : core_t) (a : Nat)
    (hc : s.core_array[i]? = some c) (hd : s.core_array[j]? = some d)
    (hca : c.active_job = some a) (hda : d.active_job = some a) : i = j := by
  unfold busy at h
  have hp : s.core_array.Pairwise
      (fun c d => c.active_job.isSome = true → d.active_job.isSome = true →
        c.active_job ≠ d.active_job) := by
    have h1 : List.Pairwise (fun a b => a ≠ b)
        (List.filter (fun p => p.isSome) (List.map (fun c => c.active_job) s.core_array)) := h
    have hf : (fun p : Option Nat => p.isSome) = fun b => decide (b.isSome = true) := by
      funext b; simp
    rw [hf, List.pairwise_filter, List.pairwise_map] at h1
    exact h1
  obtain ⟨hi1, hi2⟩ := List.getElem?_eq_some_iff.mp hc
  obtain ⟨hj1, hj2⟩ := List.getElem?_eq_some_iff.mp hd
  rw [List.pairwise_iff_getElem] at hp
  rcases Nat.lt_trichotomy i j with hlt | heq | hgt
  · have := hp i j hi1 hj1 hlt
    rw [hi2, hj2, hca, hda] at this
    exact absurd rfl (this rfl rfl)
  · exact heq
  · have := hp j i hj1 hi1 hgt
    rw [hi2, hj2, hca, hda] at this
    exact absurd rfl (this rfl rfl)

theorem ids_nodup (heap : List job_t) (l : List (Option Nat))
    (hid : (heap.map (fun j => j.job_id)).Nodup) (hv : AllValid heap l) (hn : l.Nodup) :
    (l.map (id_of heap)).Nodup := by
  apply List.Nodup.map_on _ hn
  intro p hp q hq hpq
  obtain ⟨a, rfl, ha⟩ := hv p hp
  obtain ⟨b, rfl, hb⟩ := hv q hq
  simp only [id_of, job_id_at, List.getElem?_eq_getElem ha, List.getElem?_eq_getElem hb] at hpq
  have ha1 : a < (heap.map (fun j => j.job_id)).length := by simpa using ha
  have hb1 : b < (heap.map (fun j => j.job_id)).length := by simpa using hb
  have := (@List.Nodup.getElem_inj_iff _ _ hid a ha1 b hb1).mp (by simpa using hpq)
  rw [this]

/-- While no job has the id `-1`, the pointers in the core slots, the waiting
queue and the completed set are the pointers to the records of the heap, each
once. -/
theorem held_perm (s : State) (hi : Inv s) (hids : ∀ j ∈ s.heap, j.job_id ≠ -1) :
    (held s).Perm ((List.range s.heap.length).map some) := by
  rw [List.perm_ext_iff_of_nodup hi.nodup
    ((List.nodup_range _).map (fun a b h => Option.some.inj h))]
  intro p
  constructor
  · intro hp
    obtain ⟨a, rfl, ha⟩ := hi.valid p hp
    exact List.mem_map.mpr ⟨a, List.mem_range.mpr ha, rfl⟩
  · intro hp
    obtain ⟨a, ha, rfl⟩ := List.mem_map.mp hp
    exact hi.present hids a (List.mem_range.mp ha)

end reachable

/-- C13: in every state a run of events reaches from `scheduler_start_up`, the
core slots, the waiting queue and the completed set hold distinct job pointers:
no job sits in two core slots, no job on a core waits, and no completed job is
on a core or waits. With unique job ids the ids of the held jobs are distinct
too. -/
theorem C13_no_job_held_twice (fuel : Nat) (cores : Int) (scheme : scheme_t)
    (evs : List event) (s : State) (rs : List Int) (hc : 0 ≤ cores)
    (hrun : run fuel evs (scheduler_start_up cores scheme) = .ok (s, rs)) :
    (∀ (i j : Nat) (c d : core_t) (a : Nat), s.core_array[i]? = some c →
      s.core_array[j]? = some d → c.active_job = some a → d.active_job = some a → i = j) ∧
    (∀ (i : Nat) (c : core_t), s.core_array[i]? = some c → c.active_job ≠ none →
      c.active_job ∉ contents s.queue ∧ c.active_job ∉ contents s.completed_queue) ∧
    (∀ p ∈ contents s.completed_queue, p ∉ contents s.queue) ∧
    (contents s.queue).Nodup ∧ (contents s.completed_queue).Nodup ∧
    ((arrival_ids evs).Nodup →
      ((busy s ++ contents s.queue ++ contents s.completed_queue).map (id_of s.heap)).Nodup) := by
  obtain ⟨hi, hh⟩ := run_inv fuel evs _ s rs (inv_start_up cores scheme hc) hrun
  have hnd := hi.nodup
  have hnd0 := hnd
  unfold held at hnd
  rw [List.nodup_append, List.nodup_append] at hnd
  obtain ⟨⟨hb, hq, hbq⟩, hcn, hd⟩ := hnd
  refine ⟨slots_distinct s hb, ?_, ?_, hq, hcn, ?_⟩
  · intro i c hic hne
    cases hj : c.active_job with
    | none => exact absurd hj hne
    | some a =>
      have hmem := mem_busy s i c a hic hj
      exact ⟨fun h => hbq hmem h, fun h => hd (List.mem_append_left _ hmem) h⟩
  · intro p hp hpq
    exact hd (List.mem_append_right _ hpq) hp
  · intro hids
    have h1 : s.heap.map (fun j => j.job_id) = arrival_ids evs := by
      have := heap_ids s.heap _ hh
      simpa [scheduler_start_up, arrival_ids] using this
    exact ids_nodup s.heap _ (by rw [h1]; exact hids) hi.valid hnd0

/-- C13 at an example: three arrivals, a completion and an expiry on two cores
under RR. -/
theorem C13_no_job_held_twice_witness :
    ∃ s rs, run 0 three_jobs (scheduler_start_up 2 .RR) = .ok (s, rs) ∧
      (∀ (i : Nat) (c : core_t), s.core_array[i]? = some c → c.active_job ≠ none →
        c.active_job ∉ contents s.queue ∧ c.active_job ∉ contents s.completed_queue) ∧
      ((arrival_ids three_jobs).Nodup →
        ((busy s ++ contents s.queue ++ contents s.completed_queue).map (id_of s.heap)).Nodup) :=
  ⟨_, _, rfl,
    (C13_no_job_held_twice 0 2 .RR three_jobs _ _ (by decide) rfl).2.1,
    (C13_no_job_held_twice 0 2 .RR three_jobs _ _ (by decide) rfl).2.2.2.2.2⟩

set_option maxRecDepth 100000 in
/-- C12 fails when a job has the id `-1`: on one core under FCFS job `-1`
arrives at time 0 and is put on the core, whose `active_job_id` becomes `-1`,
the mark of an idle core; job `2` arrives at time 1, the idle scan takes the
core as free and puts job `2` over job `-1`. Both calls return core 0, two jobs
were created, and the core, the waiting queue and the completed set together
hold one: the record of job `-1` is in none of them. -/
theorem C12_job_minus_one_is_lost :
    ∃ s, run 0 minus_one_first (scheduler_start_up 1 .FCFS) = .ok (s, [0, 0]) ∧
      (arrival_ids minus_one_first).Nodup ∧ (arrival_times minus_one_first).Nodup ∧
      (arrival_ids minus_one_first).length = 2 ∧
      s.heap.map (fun j => j.job_id) = [-1, 2] ∧
      s.core_array = [{ core_id := 0, active_job_id := 2, active_job := some 1 }] ∧
      ((busy s).length : Int) + priqueue_size s.queue + priqueue_size s.completed_queue = 1 ∧
      some 0 ∉ busy s ++ contents s.queue ++ contents s.completed_queue :=
  ⟨_, rfl, by decide, by decide, rfl, rfl, rfl, rfl, by decide⟩

/-- C12, for job ids other than `-1`: in every state a run of events reaches
from `scheduler_start_up`, the heap holds one record for each call of
`scheduler_new_job`, with the id and the arrival time of the call; the pointers
in the core slots, the waiting queue and the completed set together are the
pointers to these records, each once; and the number of busy cores plus the
sizes of the waiting queue and the completed set is the number of arrivals. -/
theorem C12_held_jobs_are_the_arrivals (fuel : Nat) (cores : Int) (scheme : scheme_t)
    (evs : List event) (s : State) (rs : List Int) (hc : 0 ≤ cores)
    (hid : ∀ id ∈ arrival_ids evs, id ≠ -1)
    (hrun : run fuel evs (scheduler_start_up cores scheme) = .ok (s, rs)) :
    s.heap.map (fun j => (j.job_id, j.arrival_time)) = arrived evs ∧
    (busy s ++ contents s.queue ++ contents s.completed_queue).Perm
      ((List.range (arrived evs).length).map some) ∧
    ((busy s).length : Int) + priqueue_size s.queue + priqueue_size s.completed_queue
      = ((arrived evs).length : Int) := by
  obtain ⟨hi, hh⟩ := run_inv fuel evs _ s rs (inv_start_up cores scheme hc) hrun
  have hh1 : s.heap.map origin = arrived evs := by
    simpa [scheduler_start_up] using hh
  have hlen : s.heap.length = (arrived evs).length := by
    have := congrArg List.length hh1
    simpa using this
  have hids : ∀ j ∈ s.heap, j.job_id ≠ -1 := by
    intro j hj
    apply hid
    unfold arrival_ids
    rw [← hh1, List.map_map]
    exact List.mem_map.mpr ⟨j, hj, rfl⟩
  have hperm : (held s).Perm ((List.range (arrived evs).length).map some) := by
    rw [← hlen]; exact held_perm s hi hids
  refine ⟨hh1, hperm, ?_⟩
  have hl := hperm.length_eq
  unfold held at hl
  simp only [List.length_append, List.length_map, List.length_range] at hl
  rw [holds_size _ _ hi.waiting, holds_size _ _ hi.completed, ← hl]
  push_cast
  ring

/-- C12 at an example: three arrivals, a completion and an expiry on two cores
under RR. -/
theorem C12_held_jobs_are_the_arrivals_witness :
    ∃ s rs, run 0 three_jobs (scheduler_start_up 2 .RR) = .ok (s, rs) ∧
      (busy s ++ contents s.queue ++ contents s.completed_queue).Perm
        ((List.range (arrived three_jobs).length).map some) ∧
      ((busy s).length : Int) + priqueue_size s.queue + priqueue_size s.completed_queue
        = ((arrived three_jobs).length : Int) :=
  ⟨_, _, rfl,
    (C12_held_jobs_are_the_arrivals 0 2 .RR three_jobs _ _ (by decide) (by decide) rfl).2⟩

/-! ## FCFS on one core -/

section fcfs

theorem wrap32_small (v : Int) (h1 : -2147483648 ≤ v) (h2 : v < 2147483648) : wrap32 v = v := by
  unfold wrap32; omega

theorem landing_end {β : Type} (c : β → β → Int) (j : β) (l : List β)
    (h : ∀ e ∈ l, 0 ≤ c j e) : landing c j l = l.length := by
  unfold landing
  have hd : l.reverse.dropWhile (fun e => decide (c j e < 0)) = l.reverse := by
    cases hr : l.reverse with
    | nil => rfl
    | cons e t =>
      have he : e ∈ l := by
        rw [← List.mem_reverse, hr]; simp
      have := h e he
      rw [List.dropWhile_cons_of_neg]
      simp; omega
  rw [hd, List.length_reverse]

theorem arrival_keeps (h1 h : List job_t) (L : List (Int × Int))
    (hm : h1.map origin = h.map origin ++ L) (p : Option Nat)
    (hp : ∃ a, p = some a ∧ a < h.length) : arrival_at h1 p = arrival_at h p := by
  obtain ⟨a, rfl, ha⟩ := hp
  obtain ⟨j1, hj1, ho⟩ := heap_keeps h1 h L hm a _ (List.getElem?_eq_getElem ha)
  have h3 : j1.arrival_time = (h[a]).arrival_time := congrArg Prod.snd ho
  simp [arrival_at, hj1, List.getElem?_eq_getElem ha, h3]

theorem intime_front (l1 l2 : List (Int × Int)) (h : InTime (l1 ++ l2)) : InTime l1 := by
  obtain ⟨h1, h2, h3⟩ := h
  refine ⟨fun p hp => h1 p (List.mem_append_left _ hp), ?_,
    fun p hp => h3 p (List.mem_append_left _ hp)⟩
  rw [List.map_append, List.pairwise_append] at h2
  exact h2.1

theorem old_before_new (heap : List job_t) (id t : Int)
    (h : InTime (heap.map origin ++ [(id, t)])) (p : Option Nat)
    (hp : ∃ a, p = some a ∧ a < heap.length) :
    0 ≤ arrival_at heap p ∧ arrival_at heap p < t ∧ 0 ≤ t ∧ t < 2147483648 := by
  obtain ⟨a, rfl, ha⟩ := hp
  obtain ⟨_, h2, h3⟩ := h
  have hmem : origin (heap[a]) ∈ heap.map origin ++ [(id, t)] :=
    List.mem_append_left _ (List.mem_map.mpr ⟨_, List.getElem_mem ha, rfl⟩)
  have hval : arrival_at heap (some a) = (heap[a]).arrival_time := by
    simp [arrival_at, List.getElem?_eq_getElem ha]
  rw [List.map_append, List.pairwise_append] at h2
  have hlt := h2.2.2 (origin (heap[a])).2
    (List.mem_map.mpr ⟨_, List.mem_map.mpr ⟨_, List.getElem_mem ha, rfl⟩, rfl⟩) t (by simp)
  have hr := h3 _ hmem
  have ht := h3 (id, t) (by simp)
  rw [hval]
  exact ⟨hr.1, hlt, ht.1, ht.2⟩

theorem single_core (s : State) (h1 : s.core_array.length = 1) (x : Nat) (core : core_t)
    (hx : s.core_array[x]? = some core) :
    x = 0 ∧ s.core_array = [core] ∧ busy s = [core.active_job].filter (fun p => p.isSome) := by
  obtain ⟨c0, hc0⟩ := List.length_eq_one.mp h1
  rw [hc0] at hx
  have hx0 : x = 0 := by
    have := (List.getElem?_eq_some_iff.mp hx).1
    simpa using this
  subst hx0
  simp only [List.getElem?_cons_zero, Option.some.injEq] at hx
  subst hx
  exact ⟨rfl, hc0, by unfold busy; rw [hc0]; rfl⟩

theorem cmp_value_fcfs (heap : List job_t) (a b : Nat) (A B : job_t)
    (hA : heap[a]? = some A) (hB : heap[b]? = some B) :
    cmp_value heap .FCFS (some a) (some b) = wrap32 (A.arrival_time - B.arrival_time) := by
  simp [cmp_value, call_comparer, compare_FCFS, deref, hA, hB, bind, Except.bind, pure,
    Except.pure]

/-- The order of FCFS on one core is kept by arrivals and completions. -/
theorem inorder_moves (s s1 : State) (e : event) (r : Int) (hi : Inv s) (ho : InOrder s)
    (hg : InTime (s.heap.map origin ++ arrived [e]))
    (hne : ∀ c t, e ≠ .quantum_expired c t) (hm : Moves s e s1 r) : InOrder s1 := by
  obtain ⟨f1, f2, f3, f4, f5, f6, f7⟩ := moves_frame s s1 e r hm
  have hheap0 := moves_heap s s1 e r hm
  obtain ⟨hcl, _⟩ := moves_cores s s1 e r hi hm
  have hkeep : ∀ p ∈ held s, arrival_at s1.heap p = arrival_at s.heap p :=
    fun p hp => arrival_keeps _ _ _ hheap0 p (hi.valid p hp)
  have hids : ∀ j ∈ s.heap, j.job_id ≠ -1 := fun j hj =>
    hg.1 (origin j) (List.mem_append_left _ (List.mem_map.mpr ⟨j, hj, rfl⟩))
  have key : ((busy s1 ++ contents s1.queue).map (arrival_at s1.heap)).Pairwise
        (fun a b => a < b) ∧
      ∀ c ∈ contents s1.completed_queue, ∀ p ∈ busy s1 ++ contents s1.queue,
        arrival_at s1.heap c < arrival_at s1.heap p := by
    cases hm with
    | place job_number time running_time priority x core _ hx hidle hlow hheap hcores hq hc hf =>
      obtain ⟨hx0, hca, hb⟩ := single_core s ho.one_core x core hx
      subst hx0
      have hnone : core.active_job = none := by
        cases hj : core.active_job with
        | none => rfl
        | some a =>
          obtain ⟨j, hj1, hj2⟩ := hi.busy_id 0 core a hx hj
          exact absurd (hj2.symm.trans hidle) (hids j (List.getElem?_mem hj1))
      have hQ : contents s.queue = [] := by
        by_contra hQ
        exact hi.no_wait_idle hQ 0 core hx hnone
      have hb1 : busy s1 = [some s.heap.length] := by
        unfold busy; rw [hcores, hca]; rfl
      have hnew : arrival_at s1.heap (some s.heap.length) = time := by
        simp [arrival_at, hheap, placed, new_job_record]
      rw [hb1, hq, hQ, hc]
      refine ⟨by simp, ?_⟩
      intro c hc1 p hp
      simp only [List.append_nil, List.mem_singleton] at hp
      subst hp
      have hcm := mem_held_completed s c hc1
      rw [hkeep c hcm, hnew]
      exact (old_before_new s.heap job_number time (by simpa [arrived] using hg) c
        (hi.valid c hcm)).2.1
    | preempt job_number time running_time priority x core r0 R v k _ hs hbusy hx hr hR hcmp
        hneg hlow hk hheap hcores hq hc hf =>
      rw [ho.scheme] at hs
      rcases hs with hs | hs <;> cases hs
    | enqueue job_number time running_time priority k _ hbusy hnp hk hland hheap hcores hq hc
        hf =>
      have hold := fun p hp => old_before_new s.heap job_number time
        (by simpa [arrived] using hg) p (hi.valid p hp)
      have hnew : arrival_at s1.heap (some s.heap.length) = time := by
        simp [arrival_at, hheap, new_job_record]
      have hkl : k = (contents s.queue).length := by
        rw [hland]
        apply landing_end
        intro p hp
        have hpm := mem_held_waiting s p hp
        obtain ⟨b, rfl, hb⟩ := hi.valid p hpm
        rw [ho.comparer, cmp_value_fcfs _ s.heap.length b
          (new_job_record job_number time running_time priority) (s.heap[b])
          (by simp) (by rw [List.getElem?_append_left hb]; exact List.getElem?_eq_getElem hb)]
        have h4 := hold (some b) hpm
        have hval : arrival_at s.heap (some b) = (s.heap[b]).arrival_time := by
          simp [arrival_at, List.getElem?_eq_getElem hb]
        rw [hval] at h4
        have hrec : (new_job_record job_number time running_time priority).arrival_time
            = time := rfl
        rw [hrec, wrap32_small _ (by omega) (by omega)]
        omega
      have hQ1 : contents s1.queue = contents s.queue ++ [some s.heap.length] := by
        rw [holds_contents _ _ hq, hkl]; simp
      have hb1 : busy s1 = busy s := by unfold busy; rw [hcores]
      have hmap : (busy s ++ contents s.queue).map (arrival_at s1.heap)
          = (busy s ++ contents s.queue).map (arrival_at s.heap) := by
        apply List.map_congr_left
        intro p hp
        exact hkeep p (by unfold held; exact List.mem_append_left _ hp)
      rw [hb1, hQ1, hc, ← List.append_assoc]
      constructor
      · rw [List.map_append, hmap, List.pairwise_append]
        refine ⟨ho.order, by simp, ?_⟩
        intro u hu w hw
        simp only [List.map_cons, List.map_nil, List.mem_singleton] at hw
        subst hw
        obtain ⟨p, hp, rfl⟩ := List.mem_map.mp hu
        rw [hnew]
        exact (hold p (by unfold held; exact List.mem_append_left _ hp)).2.1
      · intro c hc1 p hp
        have hcm := mem_held_completed s c hc1
        rcases List.mem_append.mp hp with hp1 | hp1
        · rw [hkeep c hcm, hkeep p (by unfold held; exact List.mem_append_left _ hp1)]
          exact ho.done c hc1 p hp1
        · simp only [List.mem_singleton] at hp1
          subst hp1
          rw [hkeep c hcm, hnew]
          exact (hold c hcm).2.1
    | finish_idle x job_number time core a J k _ hx ha hJ hw hk hheap hcores hq hc hf =>
      obtain ⟨hx0, hca, hb⟩ := single_core s ho.one_core x core hx
      subst hx0
      have hb1 : busy s1 = [] := by
        unfold busy; rw [hcores, hca]; rfl
      rw [hb1, hq, hw]
      exact ⟨by simp, fun c _ p hp => by cases hp⟩
    | finish_next x job_number time core a J h H rest k _ hx ha hJ hw hH hk hheap hcores hq hc
        hf =>
      obtain ⟨hx0, hca, hb⟩ := single_core s ho.one_core x core hx
      subst hx0
      rw [ha] at hb
      have hbs : busy s = [some a] := hb
      have hb1 : busy s1 = [some h] := by
        unfold busy; rw [hcores, hca]; rfl
      have hord := ho.order
      rw [hbs, hw] at hord
      simp only [List.singleton_append, List.map_cons, List.pairwise_cons] at hord
      have hmemq : ∀ p ∈ some h :: rest, p ∈ held s := fun p hp =>
        mem_held_waiting s p (by rw [hw]; exact hp)
      have hmap : (some h :: rest).map (arrival_at s1.heap)
          = (some h :: rest).map (arrival_at s.heap) :=
        List.map_congr_left (fun p hp => hkeep p (hmemq p hp))
      rw [hb1, holds_contents _ _ hq, holds_contents _ _ hc]
      constructor
      · rw [List.singleton_append, hmap, List.map_cons, List.pairwise_cons]
        exact hord.2
      · intro c hc1 p hp
        rw [List.singleton_append] at hp
        rw [hkeep p (hmemq p hp)]
        have hc2 : c = some a ∨ c ∈ contents s.completed_queue := by
          rcases List.mem_append.mp hc1 with h5 | h5
          · exact Or.inr (List.mem_of_mem_take h5)
          · rcases List.mem_cons.mp h5 with h6 | h6
            · exact Or.inl h6
            · exact Or.inr (List.mem_of_mem_drop h6)
        rcases hc2 with rfl | hc2
        · rw [hkeep _ (mem_held_busy s _ (by rw [hbs]; simp))]
          apply hord.1
          rw [← List.map_cons]
          exact List.mem_map.mpr ⟨p, hp, rfl⟩
        · rw [hkeep c (mem_held_completed s c hc2)]
          exact ho.done c hc2 p (by rw [hbs, hw]; exact List.mem_append_right _ hp)
    | keep x time core hx hw => exact absurd rfl (hne _ _)
    | rotate_back x time core a J _ hx ha hJ hw hheap hcores hq hc hf =>
      exact absurd rfl (hne _ _)
    | rotate x time core a J h H rest k _ hx ha hJ hw hH hk hheap hcores hq hc hf =>
      exact absurd rfl (hne _ _)
  exact ⟨by rw [hcl]; exact ho.one_core, by rw [f1]; exact ho.scheme,
    by rw [f5]; exact ho.comparer, key.1, key.2⟩

theorem inorder_start_up : InOrder (scheduler_start_up 1 .FCFS) := by
  have hb : busy (scheduler_start_up 1 .FCFS) = [] := rfl
  have hq : contents (scheduler_start_up 1 .FCFS).queue = [] :=
    holds_contents _ _ (holds_init _)
  refine ⟨rfl, rfl, rfl, ?_, ?_⟩
  · rw [hb, hq]; simp
  · intro c _ p hp
    rw [hb, hq] at hp; cases hp

/-- A run of arrivals and completions that returns keeps the order of FCFS. -/
theorem run_inorder (fuel : Nat) : ∀ (evs : List event) (s s1 : State) (rs : List Int),
    Inv s → InOrder s → InTime (s.heap.map origin ++ arrived evs) →
    (∀ e ∈ evs, ∀ c t, e ≠ .quantum_expired c t) →
    run fuel evs s = .ok (s1, rs) → InOrder s1
  | [], s, s1, rs, _, ho, _, _, h => by
    simp only [run, pure, Except.pure, Except.ok.injEq, Prod.mk.injEq] at h
    obtain ⟨rfl, _⟩ := h
    exact ho
  | e :: rest, s, s1, rs, hi, ho, hg, hne, h => by
    obtain ⟨s2, r, rs2, hstep, hrun, _⟩ := run_cons fuel e rest s s1 rs h
    have hm := moves_of_step fuel s s2 hi e r hstep
    have hsplit : arrived (e :: rest) = arrived [e] ++ arrived rest := arrived_append [e] rest
    rw [hsplit, ← List.append_assoc] at hg
    have ho2 := inorder_moves s s2 e r hi ho (intime_front _ _ hg)
      (hne e (List.mem_cons_self _ _)) hm
    refine run_inorder fuel rest s2 s1 rs2 (inv_moves s s2 e r hi hm) ho2 ?_
      (fun e1 he1 => hne e1 (List.mem_cons_of_mem _ he1)) hrun
    rw [moves_heap s s2 e r hm]
    exact hg

end fcfs

set_option maxRecDepth 100000 in
/-- C14 fails when a job has the id `-1`: on one core under FCFS jobs `1`, `-1`
and `3` arrive at times 0, 1 and 2; job `1` finishes at time 5 and job `-1`
goes on the core, whose `active_job_id` becomes `-1`, the mark of an idle core.
Job `4` arrives at time 6, the idle scan takes the core as free and puts job
`4` on it (decision `0`) while job `3`, which arrived earlier, waits. Job `4`
completes at time 11, before job `3` at time 16; job `-1` never completes. -/
theorem C14_job_four_overtakes :
    ∃ s, run 0 overtaking (scheduler_start_up 1 .FCFS) = .ok (s, [0, -1, -1, -1, 0, 3, -1]) ∧
      (arrival_times overtaking).Pairwise (fun a b => a < b) ∧
      (arrival_ids overtaking).Nodup ∧
      s.heap.map (fun j => (j.job_id, j.arrival_time, j.completion_time))
        = [(1, 0, 5), (-1, 1, 0), (3, 2, 16), (4, 6, 11)] :=
  ⟨_, rfl, by decide, by decide, rfl⟩

/-- C14, for job ids other than `-1`, arrival times between `0` and `2^31 - 1`
and fewer than 64 arrivals: on one core under FCFS, after a run of arrivals
with strictly increasing times and completions, a call of
`scheduler_job_finished` for the busy core returns. The finishing job arrived
after every completed job and before every waiting job, and it joins the
completed set. When nothing waits the call returns `-1` and the core is idle;
otherwise it returns the id of the head of the waiting queue, which arrived
before every other waiting job and now is on the core. -/
theorem C14_fcfs_in_arrival_order (fuel : Nat) (evs : List event) (s : State) (rs : List Int)
    (job_number time : Int)
    (hev : ∀ e ∈ evs, ∀ c t, e ≠ .quantum_expired c t)
    (hid : ∀ id ∈ arrival_ids evs, id ≠ -1)
    (hinc : (arrival_times evs).Pairwise (fun a b => a < b))
    (hrange : ∀ t ∈ arrival_times evs, 0 ≤ t ∧ t < 2147483648)
    (hcap : (arrived evs).length < 64)
    (hrun : run fuel evs (scheduler_start_up 1 .FCFS) = .ok (s, rs))
    (hjob : ∀ c ∈ s.core_array, c.active_job ≠ none) :
    ∃ core a J s1 r, s.core_array = [core] ∧ core.active_job = some a ∧
      s.heap[a]? = some J ∧
      scheduler_job_finished fuel s 0 job_number time = .ok (s1, r) ∧
      (∀ c ∈ contents s.completed_queue, arrival_at s.heap c < J.arrival_time) ∧
      (∀ p ∈ contents s.queue, J.arrival_time < arrival_at s.heap p) ∧
      some a ∈ contents s1.completed_queue ∧
      ((contents s.queue = [] ∧ r = -1 ∧
          s1.core_array = [{ core with active_job := none, active_job_id := -1 }]) ∨
        (∃ h H rest, contents s.queue = some h :: rest ∧ s.heap[h]? = some H ∧
          r = H.job_id ∧ (∀ p ∈ rest, H.arrival_time < arrival_at s.heap p) ∧
          s1.core_array = [{ core with active_job_id := H.job_id, active_job := some h }] ∧
          contents s1.queue = rest)) := by
  obtain ⟨hi, hh⟩ := run_inv fuel evs _ s rs (inv_start_up 1 .FCFS (by decide)) hrun
  have hh1 : s.heap.map origin = arrived evs := by
    simpa [scheduler_start_up] using hh
  have hlen : s.heap.length = (arrived evs).length := by
    have := congrArg List.length hh1
    simpa using this
  have hg : InTime (arrived evs) := by
    refine ⟨fun p hp => hid p.1 (List.mem_map.mpr ⟨p, hp, rfl⟩), hinc,
      fun p hp => hrange p.2 (List.mem_map.mpr ⟨p, hp, rfl⟩)⟩
  have ho := run_inorder fuel evs _ s rs (inv_start_up 1 .FCFS (by decide)) inorder_start_up
    (by simpa [scheduler_start_up] using hg) hev hrun
  have hids : ∀ j ∈ s.heap, j.job_id ≠ -1 := fun j hj =>
    hg.1 (origin j) (by rw [← hh1]; exact List.mem_map.mpr ⟨j, hj, rfl⟩)
  obtain ⟨core, hcore⟩ := List.length_eq_one.mp ho.one_core
  have hx : s.core_array[0]? = some core := by rw [hcore]; rfl
  obtain ⟨_, _, hb⟩ := single_core s ho.one_core 0 core hx
  cases ha : core.active_job with
  | none => exact absurd ha (hjob core (by rw [hcore]; simp))
  | some a =>
    rw [ha] at hb
    have hbs : busy s = [some a] := hb
    obtain ⟨a1, ha1, hlt⟩ := hi.valid (some a) (mem_held_busy s _ (by rw [hbs]; simp))
    simp only [Option.some.injEq] at ha1; subst ha1
    obtain ⟨J, hJ⟩ : ∃ J, s.heap[a]? = some J := ⟨_, List.getElem?_eq_getElem hlt⟩
    have hJa : arrival_at s.heap (some a) = J.arrival_time := by simp [arrival_at, hJ]
    have hcount : (contents s.completed_queue).length ≤ 62 := by
      have hl := (held_perm s hi hids).length_eq
      unfold held at hl
      rw [hbs] at hl
      simp only [List.length_append, List.length_map, List.length_range,
        List.length_singleton] at hl
      omega
    have hboth := job_finished_within fuel s 0 job_number time core a J
      (contents s.completed_queue) (contents s.queue) hx ha hJ hi.completed
      (inv_completed_valid s hi) (by rw [hi.completed_size]; omega) hi.waiting
      (inv_not_waiting s hi 0 core a hx ha)
    have hz : ((0 : Nat) : Int) = 0 := rfl
    rw [hz] at hboth
    have hord := ho.order
    rw [hbs, List.singleton_append, List.map_cons, List.pairwise_cons, hJa] at hord
    have hafter : ∀ p ∈ contents s.queue, J.arrival_time < arrival_at s.heap p :=
      fun p hp => hord.1 _ (List.mem_map.mpr ⟨p, hp, rfl⟩)
    have hbefore : ∀ c ∈ contents s.completed_queue, arrival_at s.heap c < J.arrival_time := by
      intro c hc
      rw [← hJa]
      exact ho.done c hc (some a) (by rw [hbs]; simp)
    cases hw : contents s.queue with
    | nil =>
      obtain ⟨s1, k, e1, e2, e3, e4, e5, e6, _⟩ := hboth.1 hw
      refine ⟨core, a, J, s1, -1, hcore, ha, hJ, e1, hbefore, ?_, ?_, Or.inl ⟨rfl, rfl, ?_⟩⟩
      · intro p hp; cases hp
      · rw [holds_contents _ _ e6]; simp
      · rw [e3, hcore]; rfl
    | cons p rest =>
      obtain ⟨h, hp, hh2⟩ := inv_waiting_valid s hi p (by rw [hw]; simp)
      subst hp
      obtain ⟨H, hH⟩ : ∃ H, s.heap[h]? = some H := ⟨_, List.getElem?_eq_getElem hh2⟩
      have hHa : arrival_at s.heap (some h) = H.arrival_time := by simp [arrival_at, hH]
      obtain ⟨s1, k, e1, e2, e3, e4, e5, e6, _⟩ := hboth.2 h rest H hw hH
      rw [hw, List.map_cons, List.pairwise_cons, hHa] at hord
      refine ⟨core, a, J, s1, H.job_id, hcore, ha, hJ, e1, hbefore, ?_, ?_,
        Or.inr ⟨h, H, rest, rfl, hH, rfl, ?_, ?_, holds_contents _ _ e4⟩⟩
      · rw [← hw]; exact hafter
      · rw [holds_contents _ _ e6]; simp
      · intro q hq
        exact hord.2.1 _ (List.mem_map.mpr ⟨q, hq, rfl⟩)
      · rw [e3, hcore]; rfl

set_option maxRecDepth 100000 in
/-- C14 at the example of the claim: the arrivals `(1, 0, 5, 0)` and
`(2, 2, 3, 0)` return `0` and `-1`, and `scheduler_job_finished(0, 1, 5)`
returns `2`. -/
theorem C14_fcfs_in_arrival_order_witness :
    ∃ s s2, run 0 two_arrivals (scheduler_start_up 1 .FCFS) = .ok (s, [0, -1]) ∧
      scheduler_job_finished 0 s 0 1 5 = .ok (s2, 2) ∧
      ∃ core a J s1 r, s.core_array = [core] ∧ core.active_job = some a ∧
        s.heap[a]? = some J ∧
        scheduler_job_finished 0 s 0 1 5 = .ok (s1, r) ∧
        (∀ c ∈ contents s.completed_queue, arrival_at s.heap c < J.arrival_time) ∧
        (∀ p ∈ contents s.queue, J.arrival_time < arrival_at s.heap p) ∧
        some a ∈ contents s1.completed_queue ∧
        ((contents s.queue = [] ∧ r = -1 ∧
            s1.core_array = [{ core with active_job := none, active_job_id := -1 }]) ∨
          (∃ h H rest, contents s.queue = some h :: rest ∧ s.heap[h]? = some H ∧
            r = H.job_id ∧ (∀ p ∈ rest, H.arrival_time < arrival_at s.heap p) ∧
            s1.core_array = [{ core with active_job_id := H.job_id, active_job := some h }] ∧
            contents s1.queue = rest)) :=
  ⟨_, _, rfl, rfl,
    C14_fcfs_in_arrival_order 0 two_arrivals _ _ 1 5
      (by
        intro e he c t
        simp only [two_arrivals, List.mem_cons, List.mem_singleton, List.not_mem_nil,
          or_false] at he
        rcases he with rfl | rfl <;> simp)
      (by decide) (by decide) (by decide) (by decide) rfl (by decide)⟩

/-- C15 at an example: job `1` runs and job `2` waits; two expiries return `2`
and `1`, and then job `1` runs again and job `2` waits. -/
theorem C15_round_robin_cycle_witness :
    ∃ s1 core1, run 0 (quanta [4, 6]) (one_waiting .RR) = .ok (s1, [2, 1]) ∧
      s1.core_array[0]? = some core1 ∧ core1.active_job = some 0 ∧
      Holds s1.queue [some 1] :=
  C15_round_robin_cycle 0 (one_waiting .RR)
    { core_id := 0, active_job_id := 1, active_job := some 0 } 0 [1] [4, 6]
    (by rfl) (by rfl) (by rfl) (by rfl) (one_waiting_holds .RR) (by decide) (by decide)
    (by decide) (by decide) (by rfl)

/-! ## The comparison functions -/

section comparers

theorem compare_FCFS_sign (heap : List job_t) (a b : Nat) (A B : job_t)
    (hA : heap[a]? = some A) (hB : heap[b]? = some B)
    (h1 : fits32 (A.arrival_time - B.arrival_time)) :
    ∃ v, compare_FCFS heap (some a) (some b) = .ok v ∧
      (v < 0 ↔ A.arrival_time < B.arrival_time) := by
  refine ⟨wrap32 (A.arrival_time - B.arrival_time), ?_, ?_⟩
  · simp [compare_FCFS, deref, hA, hB, bind, Except.bind, pure, Except.pure]
  · rw [wrap32_small _ h1.1 h1.2]; omega

theorem compare_SJF_sign (heap : List job_t) (a b : Nat) (A B : job_t)
    (hA : heap[a]? = some A) (hB : heap[b]? = some B)
    (h1 : fits32 (A.arrival_time - B.arrival_time))
    (h2 : fits32 (A.length - A.time_running)) (h3 : fits32 (B.length - B.time_running))
    (h4 : fits32 ((A.length - A.time_running) - (B.length - B.time_running))) :
    ∃ v, compare_SJF heap (some a) (some b) = .ok v ∧
      (v < 0 ↔ A.length - A.time_running < B.length - B.time_running ∨
        (A.length - A.time_running = B.length - B.time_running ∧
          A.arrival_time < B.arrival_time)) := by
  have e2 := wrap32_small _ h2.1 h2.2
  have e3 := wrap32_small _ h3.1 h3.2
  by_cases heq : A.length - A.time_running = B.length - B.time_running
  · refine ⟨wrap32 (A.arrival_time - B.arrival_time), ?_, ?_⟩
    · simp [compare_SJF, deref, hA, hB, bind, Except.bind, pure, Except.pure, e2, e3, heq]
    · rw [wrap32_small _ h1.1 h1.2]; omega
  · refine ⟨wrap32 ((A.length - A.time_running) - (B.length - B.time_running)), ?_, ?_⟩
    · simp [compare_SJF, deref, hA, hB, bind, Except.bind, pure, Except.pure, e2, e3, heq]
    · rw [wrap32_small _ h4.1 h4.2]; omega

theorem compare_PRI_sign (heap : List job_t) (a b : Nat) (A B : job_t)
    (hA : heap[a]? = some A) (hB : heap[b]? = some B)
    (h1 : fits32 (A.arrival_time - B.arrival_time))
    (h5 : fits32 (A.priority - B.priority)) :
    ∃ v, compare_PRI heap (some a) (some b) = .ok v ∧
      (v < 0 ↔ A.priority < B.priority ∨
        (A.priority = B.priority ∧ A.arrival_time < B.arrival_time)) := by
  have e5 := wrap32_small _ h5.1 h5.2
  by_cases heq : A.priority = B.priority
  · refine ⟨wrap32 (A.arrival_time - B.arrival_time), ?_, ?_⟩
    · have w0 : wrap32 0 = 0 := by decide
      simp [compare_PRI, deref, hA, hB, bind, Except.bind, pure, Except.pure, heq, w0]
    · rw [wrap32_small _ h1.1 h1.2]; omega
  · refine ⟨wrap32 (A.priority - B.priority), ?_, ?_⟩
    · have hne : A.priority - B.priority ≠ 0 := by omega
      simp [compare_PRI, deref, hA, hB, bind, Except.bind, pure, Except.pure, e5, hne]
    · rw [e5]; omega

end comparers

/-- C21: for job records `A` and `B` whose 32-bit subtractions do not overflow,
`compare_FCFS` is negative exactly when `A` arrived before `B`; `compare_SJF`
exactly when the pair (length - time_running, arrival_time) of `A` is
lexicographically smaller than that of `B`; `compare_PRI` exactly when the pair
(priority, arrival_time) of `A` is lexicographically smaller; `compare_RR`
returns `0` for all arguments; and `scheduler_start_up` gives the waiting queue
`compare_FCFS` for FCFS, `compare_SJF` for SJF and PSJF, `compare_PRI` for PRI
and PPRI, and `compare_RR` for RR. -/
theorem C21_comparers (heap : List job_t) (a b : Nat) (A B : job_t)
    (hA : heap[a]? = some A) (hB : heap[b]? = some B)
    (h1 : fits32 (A.arrival_time - B.arrival_time))
    (h2 : fits32 (A.length - A.time_running)) (h3 : fits32 (B.length - B.time_running))
    (h4 : fits32 ((A.length - A.time_running) - (B.length - B.time_running)))
    (h5 : fits32 (A.priority - B.priority)) :
    (∃ v, compare_FCFS heap (some a) (some b) = .ok v ∧
      (v < 0 ↔ A.arrival_time < B.arrival_time)) ∧
    (∃ v, compare_SJF heap (some a) (some b) = .ok v ∧
      (v < 0 ↔ A.length - A.time_running < B.length - B.time_running ∨
        (A.length - A.time_running = B.length - B.time_running ∧
          A.arrival_time < B.arrival_time))) ∧
    (∃ v, compare_PRI heap (some a) (some b) = .ok v ∧
      (v < 0 ↔ A.priority < B.priority ∨
        (A.priority = B.priority ∧ A.arrival_time < B.arrival_time))) ∧
    (∀ p q, compare_RR heap p q = .ok 0) ∧
    (∀ cores scheme,
      (scheduler_start_up cores scheme).queue.compare_func = comparer_of scheme ∧
      (scheduler_start_up cores scheme).compare_func = comparer_of scheme) ∧
    call_comparer heap .FCFS = compare_FCFS heap ∧ call_comparer heap .SJF = compare_SJF heap ∧
    call_comparer heap .PRI = compare_PRI heap ∧ call_comparer heap .RR = compare_RR heap := by
  refine ⟨compare_FCFS_sign heap a b A B hA hB h1,
    compare_SJF_sign heap a b A B hA hB h1 h2 h3 h4,
    compare_PRI_sign heap a b A B hA hB h1 h5, fun _ _ => rfl, ?_, ?_, ?_, ?_, ?_⟩
  · intro cores scheme
    cases scheme <;> exact ⟨rfl, rfl⟩
  all_goals (funext p q; rfl)

/-- C21 at an example: job `1` with 7 units left against job `2` with 7 units
left and a later arrival. -/
theorem C21_comparers_witness :
    (∃ v, compare_FCFS two_records (some 0) (some 1) = .ok v ∧ (v < 0 ↔ (0 : Int) < 4)) ∧
    (∃ v, compare_SJF two_records (some 0) (some 1) = .ok v ∧
      (v < 0 ↔ (10 : Int) - 3 < 7 - 0 ∨ ((10 : Int) - 3 = 7 - 0 ∧ (0 : Int) < 4))) ∧
    (∃ v, compare_PRI two_records (some 0) (some 1) = .ok v ∧
      (v < 0 ↔ (2 : Int) < 2 ∨ ((2 : Int) = 2 ∧ (0 : Int) < 4))) :=
  have h := C21_comparers two_records 0 1 _ _ rfl rfl (by unfold fits32; decide)
    (by unfold fits32; decide) (by unfold fits32; decide) (by unfold fits32; decide)
    (by unfold fits32; decide)
  ⟨h.1, h.2.1, h.2.2.1⟩

/-! ## No job waits while a core is idle -/

section no_null

theorem rd_error {β : Type} (arr : List β) (i : Int) (e : Err) (h : rd arr i = .error e) :
    e = .outOfBounds := by
  unfold rd at h
  split_ifs at h with h0
  · cases h1 : arr[i.toNat]? with
    | none => rw [h1] at h; cases h; rfl
    | some v => rw [h1] at h; cases h
  · cases h; rfl

/-- From a state of the shape `Inv` the call `scheduler_quantum_expired` returns
or leaves an array; it never follows a `NULL` job pointer. -/
theorem quantum_expired_outcome (fuel : Nat) (s : State) (hi : Inv s) (core_id time : Int) :
    (∃ s1 r, scheduler_quantum_expired fuel s core_id time = .ok (s1, r)) ∨
      scheduler_quantum_expired fuel s core_id time = .error .outOfBounds := by
  have hq := hi.waiting
  have hpeek := peek_holds s.queue _ hq
  cases hrd : rd s.core_array core_id with
  | error e =>
    right
    have he := rd_error _ _ _ hrd
    subst he
    unfold scheduler_quantum_expired
    simp [hrd, hpeek, bind, Except.bind]
  | ok core =>
    obtain ⟨x, rfl, hx⟩ := (rd_ok_iff _ _ _).mp hrd
    have hqlt : ((contents s.queue).length : Int) < 64 := by
      have := hq.2.1; rw [hi.waiting_size] at this; exact this
    cases hw : contents s.queue with
    | nil =>
      have hn : s.queue.m_num_entries = 0 := by
        have := hq.1; rw [hw] at this; simpa using this
      exact Or.inl ⟨_, _, quantum_expired_keep fuel s _ time core hn hrd⟩
    | cons p rest =>
      obtain ⟨b, hb, hblt⟩ := inv_waiting_valid s hi p (by rw [hw]; simp)
      subst hb
      obtain ⟨H, hH⟩ : ∃ H, s.heap[b]? = some H := ⟨_, List.getElem?_eq_getElem hblt⟩
      have hvalid : AllValid s.heap (some b :: rest) := by
        have := inv_waiting_valid s hi; rw [hw] at this; exact this
      have hbusy := hi.no_wait_idle (by rw [hw]; simp) x core hx
      rw [hw] at hq hqlt
      cases ha : core.active_job with
      | none => exact absurd ha hbusy
      | some a =>
        obtain ⟨a1, ha1, hlt⟩ := hi.valid (some a)
          (mem_held_busy s _ (mem_busy s x core a hx ha))
        simp only [Option.some.injEq] at ha1; subst ha1
        obtain ⟨J, hJ⟩ : ∃ J, s.heap[a]? = some J := ⟨_, List.getElem?_eq_getElem hlt⟩
        have hna : some a ∉ some b :: rest := by
          have := inv_not_waiting s hi x core a hx ha; rw [hw] at this; exact this
        simp only [List.length_cons] at hqlt
        push_cast at hqlt
        by_cases hcap : rest.length ≤ 61
        · rcases quantum_expired_any fuel s x time core a J b H rest hx ha hJ hq hvalid hH hna
            (by rw [hi.waiting_size]; omega) with ⟨s2, e1, _⟩ | ⟨s2, k, e1, _⟩
          · exact Or.inl ⟨_, _, e1⟩
          · exact Or.inl ⟨_, _, e1⟩
        · exact Or.inr (quantum_expired_at_capacity fuel s x time core a J b rest hx ha hJ hq
            hvalid (by rw [hi.waiting_size]; omega) (by omega))

end no_null

/-- C23: in every state a run of events reaches from `scheduler_start_up`, if the
waiting queue is not empty then every core slot holds a job, whose id is the
one recorded for the core. So when `scheduler_quantum_expired` finds a head in
the waiting queue and takes its rotation branch, the running job of the core is
not `NULL`, and the call never follows a `NULL` job pointer. -/
theorem C23_no_job_waits_while_idle (fuel : Nat) (cores : Int) (scheme : scheme_t)
    (evs : List event) (s : State) (rs : List Int) (hc : 0 ≤ cores)
    (hrun : run fuel evs (scheduler_start_up cores scheme) = .ok (s, rs)) :
    (priqueue_size s.queue ≠ 0 → ∀ (i : Nat) (c : core_t), s.core_array[i]? = some c →
      ∃ a j, c.active_job = some a ∧ s.heap[a]? = some j ∧ c.active_job_id = j.job_id) ∧
    (∀ (core_id : Int) (core : core_t) (p : Nat), priqueue_peek s.queue = .ok (some p) →
      rd s.core_array core_id = .ok core → core.active_job ≠ none) ∧
    (∀ core_id time, scheduler_quantum_expired fuel s core_id time ≠ .error .nullDeref) := by
  obtain ⟨hi, _⟩ := run_inv fuel evs _ s rs (inv_start_up cores scheme hc) hrun
  refine ⟨?_, ?_, ?_⟩
  · intro hne i c hic
    have hne1 : contents s.queue ≠ [] := by
      intro h0
      apply hne
      rw [holds_size _ _ hi.waiting, h0]; rfl
    cases ha : c.active_job with
    | none => exact absurd ha (hi.no_wait_idle hne1 i c hic)
    | some a =>
      obtain ⟨j, hj, hid⟩ := hi.busy_id i c a hic ha
      exact ⟨a, j, rfl, hj, hid⟩
  · intro core_id core p hp hrd
    obtain ⟨x, rfl, hx⟩ := (rd_ok_iff _ _ _).mp hrd
    have hne1 : contents s.queue ≠ [] := by
      intro h0
      rw [peek_holds s.queue _ hi.waiting, h0] at hp
      cases hp
    exact hi.no_wait_idle hne1 x core hx
  · intro core_id time h
    rcases quantum_expired_outcome fuel s hi core_id time with ⟨s1, r, h1⟩ | h1
    · rw [h1] at h; cases h
    · rw [h1] at h; cases h

set_option maxRecDepth 100000 in
/-- C23 at an example: two jobs arrive on one core under RR; the second waits
while the first runs, and the expiry of the quantum returns. -/
theorem C23_no_job_waits_while_idle_witness :
    ∃ s rs, run 0 two_arrivals (scheduler_start_up 1 .RR) = .ok (s, rs) ∧
      priqueue_size s.queue ≠ 0 ∧
      (∀ (i : Nat) (c : core_t), s.core_array[i]? = some c →
        ∃ a j, c.active_job = some a ∧ s.heap[a]? = some j ∧ c.active_job_id = j.job_id) ∧
      scheduler_quantum_expired 0 s 0 4 ≠ .error .nullDeref :=
  ⟨_, _, rfl, by decide,
    (C23_no_job_waits_while_idle 0 1 .RR two_arrivals _ _ (by decide) rfl).1 (by decide),
    (C23_no_job_waits_while_idle 0 1 .RR two_arrivals _ _ (by decide) rfl).2.2 0 4⟩

/-! ## The time of the first scheduling -/

section first_scheduled

theorem keepsFirst_refl (l : List job_t) : KeepsFirst l l :=
  fun _ j h _ => ⟨j, h, rfl⟩

theorem keepsFirst_trans (l l1 l2 : List job_t) (h1 : KeepsFirst l l1) (h2 : KeepsFirst l1 l2) :
    KeepsFirst l l2 := by
  intro a j hj hne
  obtain ⟨j1, hj1, e1⟩ := h1 a j hj hne
  obtain ⟨j2, hj2, e2⟩ := h2 a j1 hj1 (by rw [e1]; exact hne)
  exact ⟨j2, hj2, e2.trans e1⟩

theorem keepsFirst_append (l t : List job_t) : KeepsFirst l (l ++ t) := by
  intro a j hj _
  refine ⟨j, ?_, rfl⟩
  rw [List.getElem?_append_left (List.getElem?_eq_some_iff.mp hj).1]
  exact hj

theorem keepsFirst_set (l : List job_t) (i : Nat) (u v : job_t) (hu : l[i]? = some u)
    (huv : u.time_first_scheduled ≠ -1 → v.time_first_scheduled = u.time_first_scheduled) :
    KeepsFirst l (l.set i v) := by
  intro a j hj hne
  rw [List.getElem?_set]
  by_cases hia : i = a
  · subst hia
    rw [hu] at hj; cases hj
    have hlt := (List.getElem?_eq_some_iff.mp hu).1
    exact ⟨v, by simp [hlt], huv hne⟩
  · exact ⟨j, by simp [hia, hj], rfl⟩

theorem first_dispatched (H : job_t) (x t : Int) (h : H.time_first_scheduled ≠ -1) :
    (dispatched H x t).time_first_scheduled = H.time_first_scheduled := by
  simp [dispatched, h]

/-- The record at `h` after the record at `a` was replaced by one with the same
`time_first_scheduled`. -/
theorem first_after_set (l : List job_t) (a h : Nat) (J J1 H : job_t) (hJ : l[a]? = some J)
    (hH : l[h]? = some H) (h1 : J1.time_first_scheduled = J.time_first_scheduled) :
    ∃ u, (l.set a J1)[h]? = some u ∧ u.time_first_scheduled = H.time_first_scheduled := by
  rw [List.getElem?_set]
  by_cases hah : a = h
  · subst hah
    rw [hJ] at hH; cases hH
    have hlt := (List.getElem?_eq_some_iff.mp hJ).1
    exact ⟨J1, by simp [hlt], h1⟩
  · exact ⟨H, by simp [hah, hH], rfl⟩

/-- No move changes a `time_first_scheduled` that is set. -/
theorem moves_keeps_first (s s1 : State) (e : event) (r : Int) (hm : Moves s e s1 r) :
    KeepsFirst s.heap s1.heap := by
  cases hm with
  | place job_number time running_time priority x core _ hx hidle hlow hheap hcores hq hc hf =>
    rw [hheap]; exact keepsFirst_append _ _
  | preempt job_number time running_time priority x core r0 R v k _ hs hbusy hx hr hR hcmp hneg
      hlow hk hheap hcores hq hc hf =>
    rw [hheap]
    exact keepsFirst_trans _ _ _ (keepsFirst_set _ _ R (preempted R time) hR (fun _ => rfl))
      (keepsFirst_append _ _)
  | enqueue job_number time running_time priority k _ hbusy hnp hk hland hheap hcores hq hc hf =>
    rw [hheap]; exact keepsFirst_append _ _
  | finish_idle x job_number time core a J k _ hx ha hJ hw hk hheap hcores hq hc hf =>
    rw [hheap]; exact keepsFirst_set _ _ J (finished J time) hJ (fun _ => rfl)
  | finish_next x job_number time core a J h H rest k _ hx ha hJ hw hH hk hheap hcores hq hc hf =>
    obtain ⟨u, hu, hue⟩ := first_after_set s.heap a h J (finished J time) H hJ hH rfl
    rw [hheap]
    refine keepsFirst_trans _ _ _ (keepsFirst_set _ _ J (finished J time) hJ (fun _ => rfl))
      (keepsFirst_set _ _ u _ hu ?_)
    intro hne
    rw [hue] at hne ⊢
    exact first_dispatched H _ _ hne
  | keep x time core hx hw => exact keepsFirst_refl _
  | rotate_back x time core a J _ hx ha hJ hw hheap hcores hq hc hf =>
    rw [hheap]
    refine keepsFirst_set _ _ J _ hJ ?_
    intro hne
    exact first_dispatched (rotated J time) _ _ hne
  | rotate x time core a J h H rest k _ hx ha hJ hw hH hk hheap hcores hq hc hf =>
    obtain ⟨u, hu, hue⟩ := first_after_set s.heap a h J (rotated J time) H hJ hH rfl
    rw [hheap]
    refine keepsFirst_trans _ _ _ (keepsFirst_set _ _ J (rotated J time) hJ (fun _ => rfl))
      (keepsFirst_set _ _ u _ hu ?_)
    intro hne
    rw [hue] at hne ⊢
    exact first_dispatched H _ _ hne

theorem run_keeps_first (fuel : Nat) : ∀ (evs : List event) (s s1 : State) (rs : List Int),
    Inv s → run fuel evs s = .ok (s1, rs) → KeepsFirst s.heap s1.heap
  | [], s, s1, rs, _, h => by
    simp only [run, pure, Except.pure, Except.ok.injEq, Prod.mk.injEq] at h
    obtain ⟨rfl, _⟩ := h
    exact keepsFirst_refl _
  | e :: rest, s, s1, rs, hi, h => by
    obtain ⟨s2, r, rs2, hstep, hrun, _⟩ := run_cons fuel e rest s s1 rs h
    have hm := moves_of_step fuel s s2 hi e r hstep
    exact keepsFirst_trans _ _ _ (moves_keeps_first s s2 e r hm)
      (run_keeps_first fuel rest s2 s1 rs2 (inv_moves s s2 e r hi hm) hrun)

theorem stamp_dispatched (H : job_t) (x t : Int) (ht : 0 ≤ t)
    (h : H.time_first_scheduled = -1 ∨ 0 ≤ H.time_first_scheduled) :
    0 ≤ (dispatched H x t).time_first_scheduled := by
  unfold dispatched
  by_cases h1 : H.time_first_scheduled = -1
  · simp [h1, ht]
  · simp only [h1, if_false]
    rcases h with h | h
    · exact absurd h h1
    · exact h

theorem mem_set_or {β : Type} (l : List β) (i : Nat) (v u : β) (h : u ∈ l.set i v) :
    u ∈ l ∨ u = v := by
  rcases List.mem_or_eq_of_mem_set h with h1 | h1
  · exact Or.inl h1
  · exact Or.inr h1

/-- The core slots other than `x` keep their stamped jobs. -/
theorem stamped_core_kept (s : State) (heap1 : List job_t) (hs : Stamped s)
    (hk : KeepsFirst s.heap heap1) (i : Nat) (c : core_t) (a : Nat)
    (hc : s.core_array[i]? = some c) (ha : c.active_job = some a) :
    ∃ j, heap1[a]? = some j ∧ 0 ≤ j.time_first_scheduled := by
  obtain ⟨j, hj, h0⟩ := hs.2 i c a hc ha
  obtain ⟨j1, hj1, e1⟩ := hk a j hj (by omega)
  exact ⟨j1, hj1, by rw [e1]; exact h0⟩

/-- A move at a time that is not negative keeps the stamps. -/
theorem stamped_moves (s s1 : State) (e : event) (r : Int) (hs : Stamped s)
    (ht : 0 ≤ event_time e) (hm : Moves s e s1 r) : Stamped s1 := by
  have hk := moves_keeps_first s s1 e r hm
  cases hm with
  | place job_number time running_time priority x core _ hx hidle hlow hheap hcores hq hc hf =>
    have ht1 : 0 ≤ time := ht
    constructor
    · intro j hj
      rw [hheap] at hj
      rcases List.mem_append.mp hj with h1 | h1
      · exact hs.1 j h1
      · simp only [List.mem_singleton] at h1
        subst h1
        exact Or.inr ht1
    · intro i c a hic ha
      rw [hcores, List.getElem?_set] at hic
      split_ifs at hic with h1 h2
      · cases hic
        simp only [Option.some.injEq] at ha; subst ha
        exact ⟨placed (new_job_record job_number time running_time priority) (x : Int) time,
          by rw [hheap]; simp, ht1⟩
      · exact stamped_core_kept s s1.heap hs hk i c a hic ha
  | preempt job_number time running_time priority x core r0 R v k _ hs0 hbusy hx hr hR hcmp
      hneg hlow hk0 hheap hcores hq hc hf =>
    have ht1 : 0 ≤ time := ht
    constructor
    · intro j hj
      rw [hheap] at hj
      rcases List.mem_append.mp hj with h1 | h1
      · rcases mem_set_or _ _ _ _ h1 with h2 | h2
        · exact hs.1 j h2
        · subst h2
          exact hs.1 R (List.getElem?_mem hR)
      · simp only [List.mem_singleton] at h1
        subst h1
        exact Or.inr ht1
    · intro i c a hic ha
      rw [hcores, List.getElem?_set] at hic
      split_ifs at hic with h1 h2
      · cases hic
        simp only [Option.some.injEq] at ha; subst ha
        exact ⟨placed (new_job_record job_number time running_time priority) (x : Int) time,
          by rw [hheap]; simp, ht1⟩
      · exact stamped_core_kept s s1.heap hs hk i c a hic ha
  | enqueue job_number time running_time priority k _ hbusy hnp hk0 hland hheap hcores hq hc
      hf =>
    constructor
    · intro j hj
      rw [hheap] at hj
      rcases List.mem_append.mp hj with h1 | h1
      · exact hs.1 j h1
      · simp only [List.mem_singleton] at h1
        subst h1
        exact Or.inl rfl
    · intro i c a hic ha
      rw [hcores] at hic
      exact stamped_core_kept s s1.heap hs hk i c a hic ha
  | finish_idle x job_number time core a J k _ hx ha hJ hw hk0 hheap hcores hq hc hf =>
    constructor
    · intro j hj
      rw [hheap] at hj
      rcases mem_set_or _ _ _ _ hj with h2 | h2
      · exact hs.1 j h2
      · subst h2
        exact hs.1 J (List.getElem?_mem hJ)
    · intro i c b hic hb
      rw [hcores, List.getElem?_set] at hic
      split_ifs at hic with h1 h2
      · cases hic; cases hb
      · exact stamped_core_kept s s1.heap hs hk i c b hic hb
  | finish_next x job_number time core a J h H rest k _ hx ha hJ hw hH hk0 hheap hcores hq hc
      hf =>
    have ht1 : 0 ≤ time := ht
    have hH0 := stamp_dispatched H (x : Int) time ht1 (hs.1 H (List.getElem?_mem hH))
    have hlt : h < s.heap.length := (List.getElem?_eq_some_iff.mp hH).1
    constructor
    · intro j hj
      rw [hheap] at hj
      rcases mem_set_or _ _ _ _ hj with h2 | h2
      · rcases mem_set_or _ _ _ _ h2 with h3 | h3
        · exact hs.1 j h3
        · subst h3
          exact hs.1 J (List.getElem?_mem hJ)
      · subst h2
        exact Or.inr hH0
    · intro i c b hic hb
      rw [hcores, List.getElem?_set] at hic
      split_ifs at hic with h1 h2
      · cases hic
        simp only [Option.some.injEq] at hb; subst hb
        exact ⟨dispatched H (x : Int) time, by rw [hheap]; simp [hlt], hH0⟩
      · exact stamped_core_kept s s1.heap hs hk i c b hic hb
  | keep x time core hx hw => exact hs
  | rotate_back x time core a J _ hx ha hJ hw hheap hcores hq hc hf =>
    have ht1 : 0 ≤ time := ht
    have hJ0 := stamp_dispatched (rotated J time) (x : Int) time ht1
      (hs.1 J (List.getElem?_mem hJ))
    have hlt : a < s.heap.length := (List.getElem?_eq_some_iff.mp hJ).1
    constructor
    · intro j hj
      rw [hheap] at hj
      rcases mem_set_or _ _ _ _ hj with h2 | h2
      · exact hs.1 j h2
      · subst h2
        exact Or.inr hJ0
    · intro i c b hic hb
      rw [hcores, List.getElem?_set] at hic
      split_ifs at hic with h1 h2
      · cases hic
        simp only [Option.some.injEq] at hb; subst hb
        exact ⟨dispatched (rotated J time) (x : Int) time, by rw [hheap]; simp [hlt], hJ0⟩
      · exact stamped_core_kept s s1.heap hs hk i c b hic hb
  | rotate x time core a J h H rest k _ hx ha hJ hw hH hk0 hheap hcores hq hc hf =>
    have ht1 : 0 ≤ time := ht
    have hH0 := stamp_dispatched H (x : Int) time ht1 (hs.1 H (List.getElem?_mem hH))
    have hlt : h < s.heap.length := (List.getElem?_eq_some_iff.mp hH).1
    constructor
    · intro j hj
      rw [hheap] at hj
      rcases mem_set_or _ _ _ _ hj with h2 | h2
      · rcases mem_set_or _ _ _ _ h2 with h3 | h3
        · exact hs.1 j h3
        · subst h3
          exact hs.1 J (List.getElem?_mem hJ)
      · subst h2
        exact Or.inr hH0
    · intro i c b hic hb
      rw [hcores, List.getElem?_set] at hic
      split_ifs at hic with h1 h2
      · cases hic
        simp only [Option.some.injEq] at hb; subst hb
        exact ⟨dispatched H (x : Int) time, by rw [hheap]; simp [hlt], hH0⟩
      · exact stamped_core_kept s s1.heap hs hk i c b hic hb

theorem stamped_start_up (cores : Int) (scheme : scheme_t) :
    Stamped (scheduler_start_up cores scheme) := by
  constructor
  · intro j hj
    simp [scheduler_start_up] at hj
  · intro i c a hic ha
    have := List.getElem?_mem hic
    simp only [scheduler_start_up, List.mem_map] at this
    obtain ⟨_, _, rfl⟩ := this
    cases ha

theorem run_stamped (fuel : Nat) : ∀ (evs : List event) (s s1 : State) (rs : List Int),
    Inv s → Stamped s → (∀ e ∈ evs, 0 ≤ event_time e) → run fuel evs s = .ok (s1, rs) →
    Stamped s1
  | [], s, s1, rs, _, hs, _, h => by
    simp only [run, pure, Except.pure, Except.ok.injEq, Prod.mk.injEq] at h
    obtain ⟨rfl, _⟩ := h
    exact hs
  | e :: rest, s, s1, rs, hi, hs, ht, h => by
    obtain ⟨s2, r, rs2, hstep, hrun, _⟩ := run_cons fuel e rest s s1 rs h
    have hm := moves_of_step fuel s s2 hi e r hstep
    exact run_stamped fuel rest s2 s1 rs2 (inv_moves s s2 e r hi hm)
      (stamped_moves s s2 e r hs (ht e (List.mem_cons_self _ _)) hm)
      (fun e1 he1 => ht e1 (List.mem_cons_of_mem _ he1)) hrun

end first_scheduled

/-- C22: in a run of events at times that are not negative, the job on every
busy core has its `time_first_scheduled` set to a time (a value other than
`-1`), and no later event changes a `time_first_scheduled` that is set: after
any further events the record holds the same value. -/
theorem C22_first_scheduled_write_once (fuel : Nat) (cores : Int) (scheme : scheme_t)
    (evs later : List event) (s s2 : State) (rs rs2 : List Int) (hc : 0 ≤ cores)
    (ht : ∀ e ∈ evs, 0 ≤ event_time e)
    (hrun : run fuel evs (scheduler_start_up cores scheme) = .ok (s, rs))
    (hlater : run fuel later s = .ok (s2, rs2)) :
    (∀ (i : Nat) (c : core_t) (a : Nat), s.core_array[i]? = some c → c.active_job = some a →
      ∃ j, s.heap[a]? = some j ∧ 0 ≤ j.time_first_scheduled) ∧
    (∀ (a : Nat) (j : job_t), s.heap[a]? = some j → j.time_first_scheduled ≠ -1 →
      ∃ j2, s2.heap[a]? = some j2 ∧ j2.time_first_scheduled = j.time_first_scheduled) := by
  obtain ⟨hi, _⟩ := run_inv fuel evs _ s rs (inv_start_up cores scheme hc) hrun
  exact ⟨(run_stamped fuel evs _ s rs (inv_start_up cores scheme hc)
    (stamped_start_up cores scheme) ht hrun).2, run_keeps_first fuel later s s2 rs2 hi hlater⟩

set_option maxRecDepth 100000 in
/-- C22 at an example: under PSJF job `1` is placed at time 0 and preempted at
time 1 by job `2`; when job `2` finishes at time 4, job `1` is on the core
again and its `time_first_scheduled` is still `0`. -/
theorem C22_first_scheduled_write_once_witness :
    ∃ s s2 j, run 0 short_after_long (scheduler_start_up 1 .PSJF) = .ok (s, [0, 0]) ∧
      run 0 short_done s = .ok (s2, [1]) ∧
      s.heap[0]? = some j ∧ j.time_first_scheduled = 0 ∧
      s2.core_array = [{ core_id := 0, active_job_id := 1, active_job := some 0 }] ∧
      ∃ j2, s2.heap[0]? = some j2 ∧ j2.time_first_scheduled = j.time_first_scheduled :=
  ⟨_, _, _, rfl, rfl, rfl, rfl, rfl,
    (C22_first_scheduled_write_once 0 1 .PSJF short_after_long short_done _ _ _ _ (by decide)
      (by decide) rfl rfl).2 0 _ rfl (by decide)⟩

set_option maxRecDepth 100000 in
/-- C24 fails on one core under PSJF: job `1`, 10 units long, is put on the core
at time 0 (`time_running = 0`, `time_last_scheduled = 0`). At time 8 it has
`10 - 0 - (8 - 0) = 2` units left, and job `2`, 5 units long, arrives.
`compare_SJF` reads `length - time_running = 10` for the running job, which
`scheduler_new_job` brings up to date only after the comparison; it returns
`5 - 10 = -5`, and job `2` preempts job `1` although `5 < 2` does not hold. -/
theorem C24_preempts_on_stale_time_running :
    ∃ s R s1, run 0 long_running (scheduler_start_up 1 .PSJF) = .ok (s, [0]) ∧
      s.active_scheme = .PSJF ∧
      s.core_array = [{ core_id := 0, active_job_id := 1, active_job := some 0 }] ∧
      s.heap[0]? = some R ∧
      R.length - R.time_running - (8 - R.time_last_scheduled) = 2 ∧
      call_comparer (s.heap ++ [new_job_record 2 8 5 0]) s.compare_func (some 1) (some 0)
        = .ok (-5) ∧
      scheduler_new_job 0 s 2 8 5 0 = .ok (s1, 0) ∧
      s1.core_array = [{ core_id := 0, active_job_id := 2, active_job := some 1 }] ∧
      contents s1.queue = [some 0] ∧
      ¬ (5 < R.length - R.time_running - (8 - R.time_last_scheduled)) :=
  ⟨_, _, _, rfl, rfl, rfl, rfl, rfl, rfl, rfl, rfl, rfl, by decide⟩

/-! ## Placement on the idle core of lowest index -/

set_option maxRecDepth 100000 in
/-- C6 fails when a job has the id `-1`: on two cores job `-1` arrives at time 0
and is put on core 0, whose `active_job_id` becomes `-1`; core 1 holds no job.
When job `2` arrives at time 1, the idle core of lowest index is core 1, but the
scan tests `active_job_id == -1` only: the call returns `0` and puts job `2` on
core 0, over job `-1`, which no core, queue or completed set holds afterwards;
core 1 stays idle. -/
theorem C6_arrival_over_job_minus_one :
    ∃ s s1, run 0 minus_one_running (scheduler_start_up 2 .FCFS) = .ok (s, [0]) ∧
      s.core_array = [{ core_id := 0, active_job_id := -1, active_job := some 0 },
                      { core_id := 1, active_job_id := -1, active_job := none }] ∧
      scheduler_new_job 0 s 2 1 5 0 = .ok (s1, 0) ∧
      s1.core_array = [{ core_id := 0, active_job_id := 2, active_job := some 1 },
                       { core_id := 1, active_job_id := -1, active_job := none }] ∧
      some 0 ∉ busy s1 ++ contents s1.queue ++ contents s1.completed_queue :=
  ⟨_, _, rfl, rfl, rfl, rfl, by decide⟩

/-- C6, for job ids other than `-1`: in every state a run of events reaches from
`scheduler_start_up`, with `x` the core of lowest index that holds no job,
`scheduler_new_job` under every policy puts the new job on core `x`: the core
refers to the job, the job has `core_id = x`, both scheduling times equal to
`time` and no time run, the call returns `x`, and the waiting queue, the
completed set, the other cores and the other jobs stay as they were. -/
theorem C6_new_job_lowest_idle_core (fuel : Nat) (cores : Int) (scheme : scheme_t)
    (evs : List event) (s : State) (rs : List Int) (hc : 0 ≤ cores)
    (hid : ∀ id ∈ arrival_ids evs, id ≠ -1)
    (hrun : run fuel evs (scheduler_start_up cores scheme) = .ok (s, rs))
    (job_number time running_time priority : Int) (x : Nat) (core : core_t)
    (hx : s.core_array[x]? = some core) (hidle : core.active_job = none)
    (hlow : ∀ (i : Nat) (c : core_t), i < x → s.core_array[i]? = some c →
      c.active_job ≠ none) :
    ∃ s1 j, scheduler_new_job fuel s job_number time running_time priority = .ok (s1, (x : Int)) ∧
      s1.core_array[x]? = some { core with active_job_id := job_number,
                                           active_job := some s.heap.length } ∧
      deref s1.heap (some s.heap.length) = .ok j ∧
      j.job_id = job_number ∧ j.core_id = (x : Int) ∧ j.arrival_time = time ∧
      j.length = running_time ∧ j.priority = priority ∧
      j.time_first_scheduled = time ∧ j.time_last_scheduled = time ∧ j.time_running = 0 ∧
      s1.queue = s.queue ∧ s1.completed_queue = s.completed_queue ∧
      (∀ i, i ≠ x → s1.core_array[i]? = s.core_array[i]?) ∧
      s1.core_array.length = s.core_array.length ∧
      (∀ a, a < s.heap.length → s1.heap[a]? = s.heap[a]?) ∧
      s1.active_scheme = s.active_scheme ∧ s1.compare_func = s.compare_func ∧
      s1.m_num_cores = s.m_num_cores := by
  obtain ⟨hi, hh⟩ := run_inv fuel evs _ s rs (inv_start_up cores scheme hc) hrun
  have hh1 : s.heap.map origin = arrived evs := by
    simpa [scheduler_start_up] using hh
  have hids : ∀ j ∈ s.heap, j.job_id ≠ -1 := by
    intro j hj
    apply hid
    unfold arrival_ids
    rw [← hh1, List.map_map]
    exact List.mem_map.mpr ⟨j, hj, rfl⟩
  refine new_job_idle_slot fuel s job_number time running_time priority x core hi.cores hx
    (hi.idle_id x core hx hidle) ?_
  intro i c hlt hic
  cases ha : c.active_job with
  | none => exact absurd ha (hlow i c hlt hic)
  | some a =>
    obtain ⟨j, hj, hjid⟩ := hi.busy_id i c a hic ha
    rw [hjid]
    exact hids j (List.getElem?_mem hj)

set_option maxRecDepth 100000 in
/-- C6 at an example: on two cores job `7` runs on core 0 and core 1 holds no
job; the arrival of job `8` at time 3 goes to core 1. -/
theorem C6_new_job_lowest_idle_core_witness :
    run 0 seven_running (scheduler_start_up 2 .FCFS) = .ok (busy_then_idle, [0]) ∧
    busy_then_idle.core_array[1]?
      = some { core_id := 1, active_job_id := -1, active_job := none } ∧
    ∃ s1, scheduler_new_job 0 busy_then_idle 8 3 4 0 = .ok (s1, 1) ∧
      s1.core_array[1]? = some { core_id := 1, active_job_id := 8, active_job := some 1 } ∧
      s1.queue = busy_then_idle.queue := by
  refine ⟨rfl, rfl, ?_⟩
  obtain ⟨s1, j, h1, h2, _, _, _, _, _, _, _, _, _, h3, _⟩ :=
    C6_new_job_lowest_idle_core 0 2 .FCFS seven_running busy_then_idle [0] (by decide)
      (by decide) rfl 8 3 4 0 1
      { core_id := 1, active_job_id := -1, active_job := none } rfl rfl
      (by
        intro i c hi hc
        have h0 : i = 0 := by omega
        subst h0
        simp only [busy_then_idle, List.getElem?_cons_zero, Option.some.injEq] at hc
        subst hc; decide)
  exact ⟨s1, h1, h2, h3⟩

/-! ## The totals of the averages are C ints -/

set_option maxRecDepth 100000 in
/-- C10 fails when a total leaves the range of a C `int`: on one core under
FCFS job `1` arrives at 0 and completes at 2000000000, job `2` arrives at 5 and
completes at 2000000005. Both turnaround times are 2000000000 and their mean is
2000000000, but `total_turnaround_time` is an `int`: the sum 4000000000 becomes
-294967296, and `scheduler_average_turnaround_time` returns -147483648. -/
theorem C10_turnaround_total_overflows :
    ∃ s, run 0 late_completions (scheduler_start_up 1 .FCFS) = .ok (s, [0, -1, 2, -1]) ∧
      contents s.completed_queue = [some 0, some 1] ∧
      s.heap.map (fun j => j.completion_time - j.arrival_time) = [2000000000, 2000000000] ∧
      turnaround_loop s 2 0 0 = .ok (-294967296) ∧
      scheduler_average_turnaround_time s = .ok (float_div (-294967296) 2) ∧
      float_div (-294967296) 2 = .exact (-147483648) ∧
      (.exact (-147483648) : cfloat) ≠ .exact ((2000000000 + 2000000000) / 2) := by
  refine ⟨_, rfl, rfl, rfl, rfl, rfl, ?_, ?_⟩
  · simp only [float_div]
    norm_num
  · intro h
    simp only [cfloat.exact.injEq] at h
    norm_num at h

end Sched
